import Mathlib

/-!
# testclient: a shallow embedding of the transaction engine and the loader

The definitions below follow `src/testclient.cpp` and, for the option registry,
`src/options.hpp` and `src/options.cpp`.  Conventions:

* `double` values (probabilities, weights, deadlines, measured rates) are exact
  rationals; a C `int` that receives a wider value is reduced with `wrap32`, a
  `size_t` with `toSizeT`.
* A file is the list of its bytes; a `FILE*` read position is a natural number.
* The OpenSSL digest is a parameter `md : List Byte → List Byte` applied to the
  concatenation of everything passed to `EVP_DigestUpdate`.
* Code that calls `exit`, fails an `assert`, divides by zero, indexes a vector out
  of range, lets a C++ exception escape or loops forever returns `Except.error` with
  the matching `Fault`.
* A text file is the list of its characters; `getopt_long`, `atof` and the stream
  extractions are given by a `Library` and a `CommandLine`.
-/

namespace TestClient

/-! ## Server selection (`weighted_round_robin`, lines 176-184) -/

/-- The `for` loop of `weighted_round_robin`: at index `i` the test `d < 0` comes
first, then the increment expression `d -= weights[i], ++i`; when the loop runs off
the end of the vector the function returns `0`. -/
def wrr_loop : List ℚ → ℚ → Nat → Nat
  | [], _, _ => 0
  | w :: ws, d, i => if d < 0 then i else wrr_loop ws (d - w) (i + 1)

/-- The function `weighted_round_robin(weights)` with the value of its single
`drand48()` call passed as `d`. -/
def weighted_round_robin (weights : List ℚ) (d : ℚ) : Nat :=
  wrr_loop weights d 0

/-- Sum of the first `k` weights. -/
def prefix_sum (weights : List ℚ) (k : Nat) : ℚ :=
  (weights.take k).sum

/-- The index the specification describes: subtracting each weight in order, the
first index whose subtraction drops the draw below zero (`0` for an empty list). -/
def first_below : List ℚ → ℚ → Nat
  | [], _ => 0
  | w :: ws, d => if d < w then 0 else first_below ws (d - w) + 1

/-! ## Machine integers, files and faults -/

/-- A byte of a file or of a digest (`unsigned char`). -/
abbrev Byte := Fin 256

/-- Ways in which the program stops instead of continuing, or never returns. -/
inductive Fault where
  | exit1
  | assertFail
  | divByZero
  | outOfRange
  | uncaught
  | hang
  deriving DecidableEq, Repr

/-- Conversion of a wider integer value to a 32-bit `int` (two's complement). -/
def wrap32 (x : Int) : Int := (x + 2147483648) % 4294967296 - 2147483648

/-- Conversion of an `int` to the 64-bit unsigned `size_t`. -/
def toSizeT (x : Int) : Nat := (x % 18446744073709551616).toNat

/-- The call `fread(data, 1, n, f)` on a regular file at read position `pos`: the
bytes delivered are the next `n` bytes, fewer at end of file. -/
def fread (file : List Byte) (pos n : Nat) : List Byte := (file.drop pos).take n

/-! ## Digest of a byte window (`md5_compute`, lines 298-337) -/

/-- The request size of one pass: `rv = end - start + 1; if(rv > 102400) rv = 102400;`
where `rv` is a `size_t` and `start`, `end` are `int`. -/
def read_request (start end_ : Int) : Nat :=
  let rv := toSizeT (wrap32 (end_ - start + 1))
  if rv > 102400 then 102400 else rv

/-- The `do ... while(start <= end)` loop of `md5_compute`.  `pos` is the read
position of `f`, `updates` the buffers handed to `EVP_DigestUpdate` so far, in
order.  The loop stops on an empty read or when `start` has passed `end`. -/
def md5_loop (file : List Byte) (end_ : Int) (pos : Nat) (start : Int)
    (updates : List (List Byte)) : List (List Byte) :=
  if (fread file pos (read_request start end_)).length = 0 then updates
  else
    if wrap32 (start + (fread file pos (read_request start end_)).length) ≤ end_ then
      md5_loop file end_ (pos + (fread file pos (read_request start end_)).length)
        (wrap32 (start + (fread file pos (read_request start end_)).length))
        (updates ++ [fread file pos (read_request start end_)])
    else updates ++ [fread file pos (read_request start end_)]
termination_by file.length - pos
decreasing_by
  have h1 : (fread file pos (read_request start end_)).length ≤ file.length - pos := by
    unfold fread
    rw [List.length_take, List.length_drop]
    exact Nat.min_le_right _ _
  omega

/-- The sixteen characters `%x` prints. -/
def hexDigits : List Char := "0123456789abcdef".data

def hexDigit (n : Nat) : Char := hexDigits.getD n '0'

/-- The text `sprintf(digit, "%02x", md_val[i])` produces for one digest byte. -/
def hex2 (b : Byte) : List Char := [hexDigit (b.val / 16), hexDigit (b.val % 16)]

/-- The output loop of `md5_compute` over the `md_len` digest bytes. -/
def hexString (digest : List Byte) : String := ⟨(digest.map hex2).flatten⟩

/-- The function `md5_compute(f, start, end, md5)`: `fseek` to `start` (a negative
offset makes `fseek` fail and the program exit), run the read loop, finalize the
digest over everything fed to it, append its hexadecimal text to `md5`. -/
def md5_compute (md : List Byte → List Byte) (file : List Byte) (start end_ : Int)
    (md5 : String) : Except Fault String :=
  if start < 0 then .error .exit1
  else .ok (md5 ++ hexString (md (md5_loop file end_ start.toNat start []).flatten))

/-- The copy of `md5_compute` in `testmd5.cpp`, lines 33-69: the same loop and output,
with the result of `fseek` ignored (after a failed `fseek` the file, just opened, is
read from its beginning). -/
def md5_compute_tool (md : List Byte → List Byte) (file : List Byte) (start end_ : Int)
    (md5 : String) : String :=
  md5 ++ hexString
    (md (md5_loop file end_ (if start < 0 then 0 else start.toNat) start []).flatten)

/-- The byte window `B[start .. min(end, |B|-1)]` of a file, as the specification
words it: the bytes at offsets `start` to `end` inclusive that exist. -/
def window (file : List Byte) (start end_ : Int) : List Byte :=
  (file.drop start.toNat).take (end_ - start + 1).toNat

/-- Digest text of a window hashed with a single update (the specification's
reading of `md5_compute`). -/
def md5_of_window (md : List Byte → List Byte) (file : List Byte) (start end_ : Int) : String :=
  hexString (md (window file start end_))

/-! ## Options, input data and transactions (lines 78-150) -/

/-- The option variables `opt_*` set by `parse_command_line`. -/
structure Options where
  opt_connections : Int
  opt_reuse : Bool
  opt_random : Bool
  opt_br_prob : ℚ
  opt_throttle_prob : ℚ
  opt_term_prob : ℚ
  opt_repeat_prob : ℚ
  opt_throttle_min : Int
  opt_throttle_max : Int
  opt_term_min_sec : ℚ
  opt_term_weibull_k : ℚ
  opt_term_weibull_lambda : ℚ
  opt_verbose : Bool
  opt_no_checks : Bool
  opt_quiet : Bool
  opt_random_qstring_prob : ℚ

/-- The input vectors `url, md5, local, servers, hosts, server_weights`; the sizes
`url_size`, `md5_size`, `local_size` are the lengths of the first three. -/
structure Inputs where
  url : List String
  md5 : List String
  local_list : List String
  servers : List String
  hosts : List String
  server_weights : List ℚ

/-- The fields of `transaction_t` the engine reads or writes.  `curl` is the easy
handle, `outfile` the bytes of the temporary body file `outfile_name` (nothing is
written in discard mode). -/
structure transaction_t where
  curl : Nat
  headers : List String
  url_id : Int
  url_string : String
  outfile_name : String
  outfile : List Byte
  error : String
  start : Int
  bytes_sent : Nat
  byterange_start : Int
  byterange_end : Int
  throttle_bytes_per_sec : Int
  currently_throttling : Bool
  random_terminate_time : ℚ

/-- The lines the program logs through `mylog`, by kind; the timestamp and the peer
address are left out. -/
inductive LogLine where
  | transfer_error (url error outfile_name : String)
  | full_file_md5_error (url truth xfer : String) (size : Nat) (outfile_name : String)
  | byte_range_md5_error (url truth xfer : String) (size : Nat) (s e : Int)
      (outfile_name : String)
  | byte_range_size_mismatch (url : String) (truth size : Nat) (s e : Int)
      (outfile_name : String)
  | first_download_exception (url : String) (s e : Int) (size : Nat)
  | success (url : String) (size : Nat)
  | success_range (url : String) (s e : Int) (size : Nat)
  | error_opening (name : String)
  | error_stat (name : String)
  | terminating (url : String) (dt : Int)
  | repeat_request (url : String)
  | status (transfers done throttling done_since_last : Nat) (bytes : Option Nat)
  | fatal (msg : String)
  deriving DecidableEq, Repr

def LogLine.isTransferError : LogLine → Bool
  | .transfer_error .. => true
  | _ => false

def LogLine.isFullFileMd5Error : LogLine → Bool
  | .full_file_md5_error .. => true
  | _ => false

def LogLine.isByteRangeMd5Error : LogLine → Bool
  | .byte_range_md5_error .. => true
  | _ => false

def LogLine.isSizeMismatch : LogLine → Bool
  | .byte_range_size_mismatch .. => true
  | _ => false

def LogLine.isException : LogLine → Bool
  | .first_download_exception .. => true
  | _ => false

def LogLine.isSuccess : LogLine → Bool
  | .success .. => true
  | .success_range .. => true
  | _ => false

/-- What the program runs against: the digest `EVP_md5`, the local reference files
(`fopen`/`stat` by name), the successive 48-bit states behind `drand48`/`lrand48`,
the successive values of `time(0)`, the names `mkstemp` picks, and the shifted
Weibull term `pow(lambda * (-log(u)), 1.0 / k)` as a function of `lambda`, `k`, `u`. -/
structure World where
  md : List Byte → List Byte
  fs : String → Option (List Byte)
  rng : Nat → Nat
  clock : Nat → Int
  mkstemp : Nat → String
  weibull : ℚ → ℚ → ℚ → ℚ

/-- Element access `v[i]` of a vector with an `int` index; outside the vector the
access is undefined and reported as `outOfRange`. -/
def index {α : Type} (v : List α) (i : Int) : Except Fault α :=
  if 0 ≤ i then
    match v.get? i.toNat with
    | some x => .ok x
    | none => .error .outOfRange
  else .error .outOfRange

/-! ## Closing a transaction (`finish_transaction`, lines 388-537) -/

/-- The closing report of the consistency block, lines 505-511. -/
def success_report (o : Options) (inp : Inputs) (t : transaction_t) :
    Except Fault (List LogLine) :=
  if !o.opt_quiet then do
    let u ← index inp.url t.url_id
    if t.byterange_end ≠ 0 then
      pure [LogLine.success_range u t.byterange_start t.byterange_end t.outfile.length]
    else
      pure [LogLine.success u t.outfile.length]
  else pure []

/-- The `int` expression `t->byterange_end - t->byterange_start + 1` of line 473. -/
def range_length (t : transaction_t) : Int :=
  wrap32 (t.byterange_end - t.byterange_start + 1)

/-- The consistency block of `finish_transaction`, lines 443-513, entered with
`result == 0` and `!opt_no_checks`.  Returns the lines logged and the final value of
`noremove`, whose value on entry is the argument.  The `fstat` calls are taken to
succeed: `st.st_size` is the length of the body, `lst.st_size` that of the local
file. -/
def consistency_check (w : World) (o : Options) (inp : Inputs) (t : transaction_t)
    (noremove : Bool) : Except Fault (List LogLine × Bool) :=
  if t.byterange_end = 0 ∧ 0 ≤ t.random_terminate_time ∧ inp.md5.length = inp.url.length then do
    -- full transfer, lines 450-460
    let xfer_md5 ← md5_compute w.md t.outfile 0 (wrap32 ((t.outfile.length : Int) - 1)) ""
    let truth ← index inp.md5 t.url_id
    if xfer_md5 ≠ truth then
      let u ← index inp.url t.url_id
      pure ([LogLine.full_file_md5_error u truth xfer_md5 t.outfile.length t.outfile_name], true)
    else
      let l ← success_report o inp t
      pure (l, noremove)
  else if t.byterange_end ≠ 0 ∧ 0 ≤ t.random_terminate_time
      ∧ inp.local_list.length = inp.url.length then do
    -- byte range request, lines 461-503
    let xfer_md5 ← md5_compute w.md t.outfile 0 (wrap32 ((t.outfile.length : Int) - 1)) ""
    let name ← index inp.local_list t.url_id
    match w.fs name with
    | none => pure ([LogLine.error_opening name], noremove)
    | some lf =>
      if (t.outfile.length : Int) > range_length t then
        if lf.length = t.outfile.length then do
          let note ← if !o.opt_quiet then do
              let u ← index inp.url t.url_id
              pure [LogLine.first_download_exception u t.byterange_start t.byterange_end
                t.outfile.length]
            else pure []
          let local_md5 ← index inp.md5 t.url_id
          if xfer_md5 ≠ local_md5 then
            let u ← index inp.url t.url_id
            pure (note ++ [LogLine.byte_range_md5_error u local_md5 xfer_md5 t.outfile.length
              t.byterange_start t.byterange_end t.outfile_name], true)
          else
            let l ← success_report o inp t
            pure (note ++ l, noremove)
        else do
          let u ← index inp.url t.url_id
          pure ([LogLine.byte_range_size_mismatch u lf.length t.outfile.length
            t.byterange_start t.byterange_end t.outfile_name], noremove)
      else do
        let local_md5 ← md5_compute w.md lf t.byterange_start t.byterange_end ""
        if xfer_md5 ≠ local_md5 then
          let u ← index inp.url t.url_id
          pure ([LogLine.byte_range_md5_error u local_md5 xfer_md5 t.outfile.length
            t.byterange_start t.byterange_end t.outfile_name], true)
        else
          let l ← success_report o inp t
          pure (l, noremove)
  else do
    let l ← success_report o inp t
    pure (l, noremove)

/-- Lines 429-513 of `finish_transaction`: the lines logged for a transaction closed
with `result`, and the value of `noremove` at the label `cleanup`. -/
def finish_report (w : World) (o : Options) (inp : Inputs) (t : transaction_t)
    (result : Int) : Except Fault (List LogLine × Bool) :=
  if result ≠ 0 then do
    let u ← index inp.url t.url_id
    pure ([LogLine.transfer_error u t.error t.outfile_name], true)
  else
    -- lines 438-439: `if(!opt_no_checks) noremove = true;`
    let noremove : Bool := if !o.opt_no_checks then true else false
    if !o.opt_no_checks then consistency_check w o inp t noremove
    else pure ([], noremove)

/-- The state of the engine: the list `T`, the keys of the map `curl_to_T` (the
iterator stored under a key is the node of `T` whose `curl` field is that key, line
655), the easy handles currently added to the multi handle, the temporary files
present on disk, the log, the counters of `main`, and how many values have been taken
from the random generator, the clock, `curl_easy_init` and `mkstemp`. -/
structure State where
  T : List transaction_t
  curl_to_T : List Nat
  multi : List Nat
  tmpfiles : List String
  log : List LogLine
  cur_url : Int
  prev_url : Int
  bytes_since_last : Nat
  bytes : Nat
  done : Nat
  done_since_last : Nat
  last_status : Int
  draws : Nat
  ticks : Nat
  handles : Nat
  temps : Nat

/-- The state at the first iteration of the loop of `main`. -/
def initial_state : State :=
  { T := [], curl_to_T := [], multi := [], tmpfiles := [], log := [], cur_url := 0,
    prev_url := 0, bytes_since_last := 0, bytes := 0, done := 0, done_since_last := 0,
    last_status := 0, draws := 0, ticks := 0, handles := 0, temps := 0 }

/-- The call `curl_multi_remove_handle(curl, h)`: succeeds on a handle that is in the
multi handle; the callers exit on any other return code. -/
def curl_multi_remove_handle (multi : List Nat) (h : Nat) : Except Fault (List Nat) :=
  if h ∈ multi then .ok (multi.erase h) else .error .exit1

/-- The call `curl_multi_add_handle(curl, h)`: succeeds on a handle that is not yet in
the multi handle; the callers exit on any other return code. -/
def curl_multi_add_handle (multi : List Nat) (h : Nat) : Except Fault (List Nat) :=
  if h ∈ multi then .error .exit1 else .ok (multi ++ [h])

/-- The function `finish_transaction(handle, result)`: look the transaction up
(asserting it is mapped), drop the map key, take the handle out of the multi handle
unless the transaction is throttled, report (lines 429-513), and at `cleanup` unlink
the body file unless `noremove`, then erase the transaction from `T`.  The verbose
mode statistics and its `.header` and `.aux` files are left out. -/
def finish_transaction (w : World) (o : Options) (inp : Inputs) (s : State) (handle : Nat)
    (result : Int) : Except Fault State :=
  if handle ∈ s.curl_to_T then
    match s.T.find? (fun t => t.curl == handle) with
    | none => .error .assertFail
    | some t =>
      match (if !t.currently_throttling then curl_multi_remove_handle s.multi handle
        else .ok s.multi) with
      | .error e => .error e
      | .ok multi =>
        match finish_report w o inp t result with
        | .error e => .error e
        | .ok (lines, noremove) =>
          .ok { s with
            T := s.T.eraseP (fun t => t.curl == handle)
            curl_to_T := s.curl_to_T.erase handle
            multi := multi
            tmpfiles := if !noremove then s.tmpfiles.erase t.outfile_name else s.tmpfiles
            log := s.log ++ lines }
  else .error .assertFail

/-! ## Composing the request (`generate_url`, `setup_transaction`, lines 186-296) -/

/-- The value of the `k`-th call of the `drand48` family as a fraction in [0,1). -/
def drand48 (w : World) (k : Nat) : ℚ := ((w.rng k % 281474976710656 : Nat) : ℚ) / 281474976710656

/-- The value of the `k`-th call of the `drand48` family as a `long` in [0, 2^31). -/
def lrand48 (w : World) (k : Nat) : Int := ((w.rng k % 281474976710656 / 131072 : Nat) : Int)

/-- The remainder operator `%` of C on signed operands, trapping on a zero divisor. -/
def c_mod (a b : Int) : Except Fault Int :=
  if b = 0 then .error .divByZero else .ok (Int.tmod a b)

/-- The function `generate_url(url_id, &url_string)` run with `draws` random values
already taken: the composed string, the size of the buffer allocated for it (line
198) and the new draw count.  A string that does not fit the buffer is written past
its end, reported as `outOfRange`. -/
def generate_url (w : World) (o : Options) (inp : Inputs) (url_id : Int) (draws : Nat) :
    Except Fault (String × Nat × Nat) := do
  let path ← index inp.url url_id
  let len := if !inp.servers.isEmpty then path.length + (7 + 15 + 6) else path.length
  let (qstring, draws) :=
    if 0 < o.opt_random_qstring_prob then
      if drand48 w draws < o.opt_random_qstring_prob then
        ("?q=" ++ toString ⌊drand48 w (draws + 1) * 10000000⌋.toNat, draws + 2)
      else ("", draws + 1)
    else ("", draws)
  let size := len + qstring.length + 1
  if inp.servers.isEmpty then
    let text := path ++ qstring
    if text.length + 1 ≤ size then pure (text, size, draws) else .error .outOfRange
  else do
    let server_id := weighted_round_robin inp.server_weights (drand48 w draws)
    let server ← index inp.servers server_id
    let text := "http://" ++ server ++ path ++ qstring
    if text.length + 1 ≤ size then pure (text, size, draws + 1) else .error .outOfRange

/-- The text `snprintf(buf, 100, ...)` leaves in `buf`: at most 99 characters. -/
def snprintf100 (text : String) : String := ⟨text.data.take 99⟩

/-- The function `setup_transaction(t)` with `handle` the easy handle returned by
`curl_easy_init`: the URL, then the `Host` and `Range` headers.  The
`curl_easy_setopt` calls are taken to succeed.  Returns the transaction and the new
draw count. -/
def setup_transaction (w : World) (o : Options) (inp : Inputs) (handle draws : Nat)
    (t : transaction_t) : Except Fault (transaction_t × Nat) :=
  match generate_url w o inp t.url_id draws with
  | .error e => .error e
  | .ok (text, _, draws1) =>
    match (if !inp.hosts.isEmpty then
        match index inp.hosts t.url_id with
        | .ok h => .ok [snprintf100 ("Host: " ++ h)]
        | .error e => .error e
      else .ok [] : Except Fault (List String)) with
    | .error e => .error e
    | .ok host_header =>
      .ok ({ t with
          curl := handle
          url_string := text
          headers := host_header ++
            (if t.byterange_end ≠ 0 then
              [snprintf100 ("Range: bytes=" ++ toString t.byterange_start ++ "-"
                ++ toString t.byterange_end)]
            else []) },
        draws1)

/-! ## The loop of `main` (lines 576-773) -/

/-- The constructor `transaction_t::transaction_t()`, lines 119-136. -/
def transaction_t.ctor : transaction_t :=
  { curl := 0, headers := [], url_id := -1, url_string := "", outfile_name := "",
    outfile := [], error := "", start := 0, bytes_sent := 0, byterange_start := 0,
    byterange_end := 0, throttle_bytes_per_sec := 0, currently_throttling := false,
    random_terminate_time := 0 }

/-- Conversion of an `int` to `unsigned int`. -/
def toU32 (x : Int) : Nat := (x % 4294967296).toNat

/-- Lines 585-600: pick the URL of a new transaction, with `draws` random values
already taken.  Returns `url_id`, the new draw count, `cur_url`, `prev_url` and the
lines logged. -/
def pick_url (w : World) (o : Options) (inp : Inputs) (draws : Nat) (cur_url prev_url : Int) :
    Except Fault (Int × Nat × Int × Int × List LogLine) :=
  if o.opt_repeat_prob ≠ 0 ∧ drand48 w draws < o.opt_repeat_prob then
    -- repeat the previous request
    if !o.opt_quiet then
      match index inp.url prev_url with
      | .ok u => .ok (prev_url, draws + 1, cur_url, prev_url, [LogLine.repeat_request u])
      | .error e => .error e
    else .ok (prev_url, draws + 1, cur_url, prev_url, [])
  else
    let draws := if o.opt_repeat_prob ≠ 0 then draws + 1 else draws
    if o.opt_random then
      match c_mod (lrand48 w draws) inp.url.length with
      | .ok id => .ok (wrap32 id, draws + 1, cur_url, wrap32 id, [])
      | .error e => .error e
    else
      let next := wrap32 (cur_url + 1)
      .ok (cur_url, draws, if toU32 next ≥ inp.url.length then 0 else next, cur_url, [])

/-- Lines 622-632: decide on a byte range.  Returns `byterange_start` and
`byterange_end` (both `0` when no range is planned), the new draw count and the lines
logged. -/
def pick_byterange (w : World) (o : Options) (inp : Inputs) (draws : Nat) (url_id : Int) :
    Except Fault (Int × Int × Nat × List LogLine) :=
  if o.opt_br_prob ≠ 0 then
    if drand48 w draws < o.opt_br_prob then
      match index inp.local_list url_id with
      | .error e => .error e
      | .ok name =>
        match w.fs name with
        | none => .ok (0, 0, draws + 1, [LogLine.error_stat name])
        | some lf =>
          match c_mod (lrand48 w (draws + 1)) ((lf.length : Int) - 1) with
          | .error e => .error e
          | .ok r1 =>
            match c_mod (lrand48 w (draws + 2)) ((lf.length : Int) - 1 - wrap32 r1) with
            | .error e => .error e
            | .ok r2 => .ok (wrap32 r1, wrap32 (wrap32 r1 + 1 + r2), draws + 3, [])
    else .ok (0, 0, draws + 1, [])
  else .ok (0, 0, draws, [])

/-- Lines 634-639: decide on a termination deadline (`0` when none is planned);
returns it with the new draw count. -/
def pick_terminate (w : World) (o : Options) (draws : Nat) : ℚ × Nat :=
  if o.opt_term_prob ≠ 0 then
    if drand48 w draws < o.opt_term_prob then
      (o.opt_term_min_sec
          + w.weibull o.opt_term_weibull_lambda o.opt_term_weibull_k (drand48 w (draws + 1)),
        draws + 2)
    else (0, draws + 1)
  else (0, draws)

/-- Lines 641-643: decide on a throttle rate (`0` when none is planned); returns it
with the new draw count. -/
def pick_throttle (w : World) (o : Options) (draws : Nat) : Except Fault (Int × Nat) :=
  if o.opt_throttle_prob ≠ 0 then
    if drand48 w draws < o.opt_throttle_prob then
      match c_mod (lrand48 w (draws + 1)) (wrap32 (o.opt_throttle_max - o.opt_throttle_min)) with
      | .ok r => .ok (wrap32 (o.opt_throttle_min + r), draws + 2)
      | .error e => .error e
    else .ok (0, draws + 1)
  else .ok (0, draws)

/-- One pass of the refill loop body, lines 582-655: plan a transaction, open its
sink, set it up with the next easy handle, add it to the multi handle and to
`curl_to_T`, with the new node at the end of `T`.  Opening the output files is taken
to succeed. -/
def refill_one (w : World) (o : Options) (inp : Inputs) (s : State) : Except Fault State :=
  match pick_url w o inp s.draws s.cur_url s.prev_url with
  | .error e => .error e
  | .ok (url_id, draws1, cur_url, prev_url, lines1) =>
    match pick_byterange w o inp draws1 url_id with
    | .error e => .error e
    | .ok (byterange_start, byterange_end, draws2, lines2) =>
      match pick_throttle w o (pick_terminate w o draws2).2 with
      | .error e => .error e
      | .ok (throttle_bytes_per_sec, draws4) =>
        match setup_transaction w o inp (s.handles + 1) draws4
          { transaction_t.ctor with
            url_id := url_id
            outfile_name := if !o.opt_no_checks then w.mkstemp s.temps else ""
            byterange_start := byterange_start
            byterange_end := byterange_end
            random_terminate_time := (pick_terminate w o draws2).1
            throttle_bytes_per_sec := throttle_bytes_per_sec
            start := w.clock s.ticks } with
        | .error e => .error e
        | .ok (t, draws5) =>
          match curl_multi_add_handle s.multi t.curl with
          | .error e => .error e
          | .ok multi =>
            .ok { s with
              T := s.T ++ [t]
              curl_to_T := t.curl :: s.curl_to_T.erase t.curl
              multi := multi
              tmpfiles := if !o.opt_no_checks then s.tmpfiles ++ [w.mkstemp s.temps]
                else s.tmpfiles
              temps := if !o.opt_no_checks then s.temps + 1 else s.temps
              log := s.log ++ lines1 ++ lines2
              cur_url := cur_url
              prev_url := prev_url
              draws := draws5
              ticks := s.ticks + 1
              handles := s.handles + 1 }

/-- The refill loop `while(T.size() < (unsigned int)opt_connections)`, lines 580-656,
run for at most `n` passes. -/
def refill_loop (w : World) (o : Options) (inp : Inputs) : Nat → State → Except Fault State
  | 0, s => .ok s
  | n + 1, s =>
    if s.T.length < toU32 o.opt_connections then
      match refill_one w o inp s with
      | .ok s1 => refill_loop w o inp n s1
      | .error e => .error e
    else .ok s

/-- The refill loop with as many passes as the loop test can allow. -/
def refill (w : World) (o : Options) (inp : Inputs) (s : State) : Except Fault State :=
  refill_loop w o inp (toU32 o.opt_connections - s.T.length) s

/-- What the transport and the system deliver during one iteration: the outcome of
`select` (`0` or more: ready, `-1`: interrupted by a signal, anything else: failed),
the bytes `curl_multi_perform` receives per easy handle, and the `CURLMSG_DONE`
messages `curl_multi_info_read` returns, each an easy handle with its result code. -/
structure Events where
  select_rv : Int
  received : List (Nat × List Byte)
  done : List (Nat × Int)

/-- Bytes arriving for the easy handle `h`: ignored unless `h` is in the multi handle;
written to `outfile`, or counted by `discard_data` (lines 168-174) in discard mode. -/
def receive (o : Options) (s : State) (h : Nat) (data : List Byte) : State :=
  if h ∈ s.multi then
    if o.opt_no_checks then
      { s with
        T := s.T.map (fun t =>
          if t.curl = h then { t with bytes_sent := t.bytes_sent + data.length } else t)
        bytes_since_last := s.bytes_since_last + data.length }
    else
      { s with
        T := s.T.map (fun t => if t.curl = h then { t with outfile := t.outfile ++ data } else t) }
  else s

/-- The `curl_multi_perform` loop, lines 680-686, as the delivery of received bytes. -/
def perform (o : Options) (received : List (Nat × List Byte)) (s : State) : State :=
  received.foldl (fun s p => receive o s p.1 p.2) s

/-- The drain loop, lines 690-699: close every transaction reported done. -/
def drain (w : World) (o : Options) (inp : Inputs) : List (Nat × Int) → State → Except Fault State
  | [], s => .ok s
  | (h, r) :: ms, s =>
    match finish_transaction w o inp s h r with
    | .ok s1 => drain w o inp ms { s1 with done_since_last := s1.done_since_last + 1 }
    | .error e => .error e

/-- The test `Bps > throttle_bytes_per_sec` of line 738 with
`Bps = double(bytes_sent) / double(now - start)`: for a zero divisor `Bps` is
infinite when `bytes_sent > 0` and not a number when `bytes_sent = 0`. -/
def Bps_gt (bytes_sent : Nat) (dt : Int) (rate : Int) : Bool :=
  if dt = 0 then decide (0 < bytes_sent)
  else decide ((rate : ℚ) < (bytes_sent : ℚ) / (dt : ℚ))

/-- The test `Bps <= throttle_bytes_per_sec` of line 744. -/
def Bps_le (bytes_sent : Nat) (dt : Int) (rate : Int) : Bool :=
  if dt = 0 then false
  else decide ((bytes_sent : ℚ) / (dt : ℚ) ≤ (rate : ℚ))

/-- Lines 728-754 for one transaction with a throttle rate: refresh `bytes_sent` from
the file in file-sink mode, then take the handle out of the multi handle or put it
back.  Returns the multi handle and the transaction. -/
def throttle_step (o : Options) (now : Int) (multi : List Nat) (t : transaction_t) :
    Except Fault (List Nat × transaction_t) :=
  let bytes_sent := if !o.opt_no_checks then t.outfile.length else t.bytes_sent
  if !t.currently_throttling ∧ Bps_gt bytes_sent (now - t.start) t.throttle_bytes_per_sec then
    match curl_multi_remove_handle multi t.curl with
    | .ok multi1 => .ok (multi1, { t with bytes_sent := bytes_sent, currently_throttling := true })
    | .error e => .error e
  else if t.currently_throttling ∧ Bps_le bytes_sent (now - t.start) t.throttle_bytes_per_sec then
    match curl_multi_add_handle multi t.curl with
    | .ok multi1 => .ok (multi1, { t with bytes_sent := bytes_sent, currently_throttling := false })
    | .error e => .error e
  else .ok (multi, { t with bytes_sent := bytes_sent })

/-- The test of line 712: a deadline is set and has passed. -/
def deadline_passed (now : Int) (t : transaction_t) : Bool :=
  decide (t.random_terminate_time ≠ 0 ∧ t.random_terminate_time < ((now - t.start : Int) : ℚ))

/-- The body of the simulate loop (lines 710-754) for the node `t` of `T`: either the
deadline has passed and the transaction is marked and finished with result 0, or its
throttling is updated in place.  The second component is the change of the
`throttling` counter. -/
def simulate_visit (w : World) (o : Options) (inp : Inputs) (now : Int) (s : State)
    (t : transaction_t) : Except Fault (State × Nat) :=
  if deadline_passed now t then
    match (if !o.opt_quiet then
        match index inp.url t.url_id with
        | .ok u => .ok [LogLine.terminating u (now - t.start)]
        | .error e => .error e
      else .ok [] : Except Fault (List LogLine)) with
    | .error e => .error e
    | .ok lines =>
      match finish_transaction w o inp
        { s with
          T := s.T.map (fun x =>
            if x.curl = t.curl then { t with random_terminate_time := -1 } else x)
          log := s.log ++ lines } t.curl 0 with
      | .ok s2 => .ok ({ s2 with done_since_last := s2.done_since_last + 1 }, 0)
      | .error e => .error e
  else if t.throttle_bytes_per_sec ≠ 0 then
    match throttle_step o now s.multi t with
    | .ok (multi, t1) =>
      .ok ({ s with T := s.T.map (fun x => if x.curl = t.curl then t1 else x), multi := multi },
        if t1.currently_throttling then 1 else 0)
    | .error e => .error e
  else .ok (s, 0)

/-- The simulate loop over the nodes of `T` in list order, lines 709-755; the first
argument is the part of the list still to visit.  A node is found again in `T` by its
easy handle. -/
def simulate_loop (w : World) (o : Options) (inp : Inputs) (now : Int) :
    List transaction_t → State → Nat → Except Fault (State × Nat)
  | [], s, throttling => .ok (s, throttling)
  | t :: ts, s, throttling =>
    match simulate_visit w o inp now s t with
    | .ok (s1, k) => simulate_loop w o inp now ts s1 (throttling + k)
    | .error e => .error e

/-- Lines 704-756: the simulate step, skipped unless a simulation is enabled. -/
def simulate (w : World) (o : Options) (inp : Inputs) (now : Int) (s : State) :
    Except Fault (State × Nat) :=
  if 0 < o.opt_term_prob ∨ 0 < o.opt_throttle_prob then simulate_loop w o inp now s.T s 0
  else .ok (s, 0)

/-- Lines 758-771: the status line, once per second. -/
def status_tick (o : Options) (now : Int) (total_transactions throttling : Nat) (s : State) :
    State :=
  if 0 < now - s.last_status then
    { s with
      done := s.done + s.done_since_last
      bytes := s.bytes + s.bytes_since_last
      log := s.log ++ [LogLine.status total_transactions (s.done + s.done_since_last) throttling
        s.done_since_last (if o.opt_no_checks then some s.bytes_since_last else none)]
      last_status := now
      done_since_last := 0
      bytes_since_last := 0 }
  else s

/-- The part of an iteration after the refill, lines 658-771: `select` (an
interrupted call ends the iteration, any other failure the program), perform, drain,
simulate at the time `now = time(0)`, status.  The calls `curl_multi_fdset`,
`curl_multi_perform` and `curl_multi_info_read` are taken to succeed. -/
def after_refill (w : World) (o : Options) (inp : Inputs) (ev : Events) (s : State) :
    Except Fault State :=
  if ev.select_rv < 0 then
    if ev.select_rv = -1 then .ok s else .error .exit1
  else
    match drain w o inp ev.done (perform o ev.received s) with
    | .error e => .error e
    | .ok s1 =>
      match simulate w o inp (w.clock s1.ticks) { s1 with ticks := s1.ticks + 1 } with
      | .error e => .error e
      | .ok (s2, throttling) => .ok (status_tick o (w.clock s1.ticks) s.T.length throttling s2)

/-- One iteration of the `while(1)` loop of `main`: refill, then the rest. -/
def engine_iteration (w : World) (o : Options) (inp : Inputs) (ev : Events) (s : State) :
    Except Fault State :=
  match refill w o inp s with
  | .ok s1 => after_refill w o inp ev s1
  | .error e => .error e

/-- The loop of `main` run for one iteration per element of the event list. -/
def run (w : World) (o : Options) (inp : Inputs) : List Events → State → Except Fault State
  | [], s => .ok s
  | ev :: evs, s =>
    match engine_iteration w o inp ev s with
    | .ok s1 => run w o inp evs s1
    | .error e => .error e

/-- The easy handles of the live transactions, in list order. -/
def live_handles (s : State) : List Nat := s.T.map (fun t => t.curl)

/-- Consistency of the engine state: the live easy handles are pairwise distinct,
`curl_to_T` holds exactly the live handles, the multi handle holds exactly the handles
of the live transactions that are not throttled, each once, and every `url_id`
indexes the URL list. -/
def Consistent (inp : Inputs) (s : State) : Prop :=
  (live_handles s).Nodup ∧ s.multi.Nodup ∧ s.curl_to_T.Nodup
  ∧ (∀ h ∈ s.curl_to_T, h ∈ live_handles s) ∧ (∀ h ∈ live_handles s, h ∈ s.curl_to_T)
  ∧ (∀ h ∈ s.multi, h ∈ live_handles s)
  ∧ (∀ t ∈ s.T, (t.curl ∈ s.multi ↔ t.currently_throttling = false))
  ∧ (∀ t ∈ s.T, 0 ≤ t.url_id ∧ t.url_id < inp.url.length)

/-- Every live easy handle was returned by one of the `curl_easy_init` calls made so
far. -/
def handles_bounded (s : State) : Prop := ∀ h ∈ live_handles s, h ≤ s.handles

/-! ## Reading the input files (`file_to_string_vector`, lines 781-797) -/

/-- The newline character. -/
def newline : Char := Char.ofNat 10

/-- The terminating character of a C string. -/
def nul : Char := Char.ofNat 0

/-- The tabulator character. -/
def tab : Char := Char.ofNat 9

/-- What `fgets` reads when it may store `k` more characters: characters up to and
including the first newline, at most `k` of them; with the rest of the stream. -/
def fgets_take : Nat → List Char → List Char × List Char
  | 0, s => ([], s)
  | _ + 1, [] => ([], [])
  | k + 1, c :: cs =>
    if c = newline then ([c], cs) else (c :: (fgets_take k cs).1, (fgets_take k cs).2)

/-- The call `fgets(line, size, f)`: nothing at end of file, otherwise at most
`size - 1` characters, with the rest of the stream. -/
def fgets (size : Nat) (stream : List Char) : Option (List Char × List Char) :=
  if stream = [] then none else some (fgets_take (size - 1) stream)

/-- The C string in `line` after `nl = strchr(line, '\n'); if(nl) *nl = '\0';`: the
characters before the first newline or NUL. -/
def chomp (line : List Char) : List Char :=
  line.takeWhile (fun c => c != newline && c != nul)

/-- The `while(fgets(line, 1024, f))` loop of `file_to_string_vector`, run for at
most `fuel` passes. -/
def read_lines : Nat → List Char → List String → List String
  | 0, _, lines => lines
  | fuel + 1, stream, lines =>
    match fgets 1024 stream with
    | none => lines
    | some (line, rest) =>
      read_lines fuel rest (if (chomp line).length ≠ 0 then lines ++ [⟨chomp line⟩] else lines)

/-- The function `file_to_string_vector(file, lines)` on the result of `fopen`
(`none`: the file cannot be opened): the return value and the vector.  Every pass of
the loop takes at least one character, so as many passes as the file has characters
are enough. -/
def file_to_string_vector (file : Option (List Char)) (lines : List String) :
    Int × List String :=
  match file with
  | none => (1, lines)
  | some content => (0, read_lines content.length content lines)

/-- The characters of a file opened in text mode. -/
def text_of (bytes : List Byte) : List Char := bytes.map (fun b => Char.ofNat b.val)

/-- The non-empty lines of a text, as the specification words them: the text cut at
its newlines, without the empty pieces. -/
def nonempty_lines (content : List Char) : List String :=
  ((content.splitOn newline).filter (fun l => l ≠ [])).map String.mk

/-! ## The option registry (`options.hpp`, `options.cpp`) -/

/-- The value held by an `option_t<T>`, for the four types `T` the program registers. -/
inductive OptValue where
  | bool (b : Bool)
  | int (i : Int)
  | double (d : ℚ)
  | string (s : String)
  deriving DecidableEq

/-- The test `isoftype< option_t<T> >`: both values are of the same type `T`. -/
def OptValue.same_type : OptValue → OptValue → Bool
  | .bool _, .bool _ => true
  | .int _, .int _ => true
  | .double _, .double _ => true
  | .string _, .string _ => true
  | _, _ => false

/-- The fields of `struct option` with the `value` of `option_t<T>`; a null pointer
is `none`. -/
structure option_t where
  longopt : Option String
  shortopt : Option String
  desc : Option String
  group : String
  is_boolean : Bool
  dump : Bool
  value : OptValue

/-- The test inside the loop of `options::find`, lines 89-92 of `options.cpp`. -/
def option_matches (long_option short_option : Option String) (o : option_t) : Bool :=
  (match long_option, o.longopt with
    | some a, some b => a == b
    | _, _ => false)
  || (match short_option, o.shortopt with
    | some a, some b => a == b
    | _, _ => false)

/-- The function `options::find(long_option, short_option)`: the first registered
option whose long or short name matches, if any. -/
def options_find (options : List option_t) (long_option short_option : Option String) :
    Option option_t :=
  options.find? (option_matches long_option short_option)

/-- Apply `f` to the first element satisfying `p` (the element a pointer returned by
`find` points to). -/
def modify_first {α : Type} (p : α → Bool) (f : α → α) : List α → List α
  | [] => []
  | x :: xs => if p x then f x :: xs else x :: modify_first p f xs

/-- The function `options::add<T>`, lines 201-220 of `options.hpp`: an option found
under either name is reset (`std::bad_cast` if it has another type), otherwise a new
`option_t<T>` is pushed, its short name cut to one character. -/
def options_add (options : List option_t) (long_option short_option desc group : Option String)
    (default : OptValue) (dump : Bool) : Except Fault (List option_t) :=
  match options_find options long_option short_option with
  | some o =>
    if o.value.same_type default then
      .ok (modify_first (option_matches long_option short_option)
        (fun o => { o with desc := desc, value := default, dump := dump }) options)
    else .error .uncaught
  | none =>
    .ok (options ++ [{
      longopt := long_option
      shortopt := short_option.map (fun s => ⟨s.data.take 1⟩)
      desc := desc
      group := group.getD ""
      is_boolean := default.same_type (.bool false)
      dump := dump
      value := default }])

/-- The function `options::get<T>` up to the type test: the value of the option found
under the long name. -/
def options_get (options : List option_t) (long_option : String) : Option OptValue :=
  (options_find options (some long_option) none).map (fun o => o.value)

/-- The call `options::quickget<bool>(long_option)`: `bool()` when no option of that
name and type is found. -/
def quickget_bool (options : List option_t) (long_option : String) : Bool :=
  match options_get options long_option with
  | some (.bool b) => b
  | _ => false

/-- The call `options::quickget<int>(long_option)`: `int()` when no option of that
name and type is found. -/
def quickget_int (options : List option_t) (long_option : String) : Int :=
  match options_get options long_option with
  | some (.int i) => i
  | _ => 0

/-- The call `options::quickget<double>(long_option)`: `double()` when no option of
that name and type is found. -/
def quickget_double (options : List option_t) (long_option : String) : ℚ :=
  match options_get options long_option with
  | some (.double d) => d
  | _ => 0

/-- The call `options::quickget<std::string>(long_option)`: the empty string when no
option of that name and type is found. -/
def quickget_string (options : List option_t) (long_option : String) : String :=
  match options_get options long_option with
  | some (.string s) => s
  | _ => ""

/-- One `options::add` call: long name, short name, description, group, default
value, dump flag. -/
structure Registration where
  long_option : Option String
  short_option : Option String
  desc : Option String
  group : Option String
  default : OptValue
  dump : Bool

/-- The calls of lines 802-841 of `parse_command_line`, in order; the second is the
`add` made by `set_cf_options("config", "c")`. -/
def registrations : List Registration :=
  [ ⟨some "help", none, some "Print usage information", none, .bool false, false⟩,
    ⟨some "config", some "c", some "Specify configuration file", none, .string "", false⟩,
    ⟨some "save-config", none, some "Save configuration file", none, .string "", false⟩,
    ⟨some "md5-list", some "m", some "File with MD5 sums for each URL", some "Input",
      .string "", true⟩,
    ⟨some "local-list", some "l", some "File with local filenames for each URL", some "Input",
      .string "", true⟩,
    ⟨some "server-list", none, some "File with server IPs and weights", some "Input",
      .string "", true⟩,
    ⟨some "num-transactions", some "n", some "Number of simultaneous transactions to maintain",
      some "Traffic simulation", .int 80, true⟩,
    ⟨some "reuse-connections", some "u",
      some "Keep connections open and reuse them for new requests",
      some "Traffic simulation", .bool false, true⟩,
    ⟨some "random", some "r", some "Request URLs in random order (default)",
      some "Traffic simulation", .bool true, true⟩,
    ⟨some "sequential", some "s", some "Request URLs in sequential order",
      some "Traffic simulation", .bool false, true⟩,
    ⟨some "random-qstring-prob", none,
      some "Probability of adding a random query string parameter to the URL",
      some "Traffic simulation", .double 0, true⟩,
    ⟨some "br-prob", some "b",
      some "Probability of making a byte range request (requires local-list)",
      some "Traffic simulation", .double 0, true⟩,
    ⟨some "throttle-prob", some "o",
      some "Probability of throttling connection speed for a request",
      some "Traffic simulation", .double 0, true⟩,
    ⟨some "throttle-min", some "i", some "Randomized throttling: minimum bytes/sec",
      some "Traffic simulation", .int 10000000, true⟩,
    ⟨some "throttle-max", some "a", some "Randomized throttling: maximum bytes/sec",
      some "Traffic simulation", .int 10000000, true⟩,
    ⟨some "term-prob", some "t",
      some "Probability of considering early termination for a request",
      some "Traffic simulation", .double 0, true⟩,
    ⟨some "term-min-sec", some "e", some "Seconds before we start considering early termination",
      some "Traffic simulation", .double 100000000000, true⟩,
    ⟨some "term-weibull-k", some "k", some "Weibull PDF k parameter",
      some "Traffic simulation", .double (6 / 5), true⟩,
    ⟨some "term-weibull-lambda", some "d", some "Weibull PDF lambda parameter",
      some "Traffic simulation", .double 30, true⟩,
    ⟨some "repeat-prob", some "p",
      some "Probability of the previous request being repeated immediately",
      some "Traffic simulation", .double 0, true⟩,
    ⟨some "verbose", some "v", some "Dump lots of debug output on request failure",
      some "Output", .bool false, true⟩,
    ⟨some "no-checks", some "x",
      some "Don't do any consistency checking; dump content to /dev/null",
      some "Output", .bool false, true⟩,
    ⟨some "quiet", some "q",
      some "Quiet: log only status information, errors, and nothing else",
      some "Output", .bool false, true⟩ ]

/-- Run a list of `options::add` calls on a registry. -/
def register_all : List Registration → List option_t → Except Fault (List option_t)
  | [], options => .ok options
  | r :: rs, options =>
    match options_add options r.long_option r.short_option r.desc r.group r.default r.dump with
    | .ok options1 => register_all rs options1
    | .error e => .error e

/-! ## Parsing the command line (`options::parse_cmdline`, `options::read_file`) -/

/-- What the C and C++ libraries do for the loader: `atof` on a string, the stream
extractions `in >> value` for the four option types on a text (`none` when the
extraction fails), the configuration files by name as the sequence of entries
`read_file` meets, and the text files `fopen` can open. -/
structure Library where
  atof : String → ℚ
  read_bool : String → Option Bool
  read_int : String → Option Int
  read_double : String → Option ℚ
  read_string : String → Option String
  conf : String → Option (List (String × Char × String))
  fopen : String → Option (List Char)

/-- The method `option_t<T>::read` on a stream holding `text`: the new value of an
option whose value was `v`, `none` when the extraction fails. -/
def read_value (lib : Library) (v : OptValue) (text : String) : Option OptValue :=
  match v with
  | .bool _ => (lib.read_bool text).map OptValue.bool
  | .int _ => (lib.read_int text).map OptValue.int
  | .double _ => (lib.read_double text).map OptValue.double
  | .string _ => (lib.read_string text).map OptValue.string

/-- What `getopt_long` does with `argv`: the option characters it returns with their
`optarg`, in order, up to its first negative return value, and the value of `optind`
at that point. -/
structure CommandLine where
  argv : List String
  getopt : List (Int × String)
  optind : Int

/-- The value `shortopt[0]` of a short name as the `int` it is compared with. -/
def first_char (s : String) : Int := ((s.data.headD nul).toNat : Int)

/-- The search loop of lines 272-274 of `options.cpp`, started at index `i`: the index
of the first option with `c == int(256 + i)` or `c == shortopt[0]`, the size of the
list when there is none. -/
def handled_index : List option_t → Nat → Int → Nat
  | [], i, _ => i
  | o :: os, i, c =>
    if c == 256 + (i : Int) || (match o.shortopt with
        | some s => c == first_char s
        | none => false)
    then i else handled_index os (i + 1) c

/-- The function `options::read_file` on the entries (name, sign after the name, text
of the value) of a configuration file: unknown names are skipped, a sign other than
`=` makes it return `false`.  A value whose extraction fails sets only `failbit`,
which the loop does not test: no later extraction succeeds and the loop does not end,
reported as `hang`. -/
def read_file (lib : Library) :
    List (String × Char × String) → List option_t → Except Fault (Bool × List option_t)
  | [], options => .ok (true, options)
  | (optname, equal, text) :: rest, options =>
    match options_find options (some optname) none with
    | none => read_file lib rest options
    | some opt =>
      if equal ≠ '=' then .ok (false, options)
      else
        match read_value lib opt.value text with
        | some v =>
          read_file lib rest (modify_first (option_matches (some optname) none)
            (fun o => { o with value := v }) options)
        | none => .error .hang

/-- The loop of `options::parse_cmdline`, lines 261-308 of `options.cpp`, over the
results of `getopt_long`; returns `optind` and the registry.  The configuration file
options are the `config` and `c` given to `set_cf_options`; the cast of that option to
`option_t<string>` fails on no registered option (reported as `uncaught`). -/
def parse_cmdline_loop (lib : Library) (optind : Int) :
    List (Int × String) → List option_t → Except Fault (Int × List option_t)
  | [], options => .ok (optind, options)
  | (c, optarg) :: rest, options =>
    if c = 63 then .ok (-1, options)
    else
      match options.get? (handled_index options 0 c) with
      | none => .error .assertFail
      | some o =>
        if o.is_boolean then
          parse_cmdline_loop lib optind rest
            (options.set (handled_index options 0 c) { o with value := .bool true })
        else
          match read_value lib o.value optarg with
          | none => .ok (-1, options)
          | some v =>
            if option_matches (some "config") (some "c") o then
              match v with
              | .string filename =>
                match lib.conf filename with
                | none => .ok (-1, options.set (handled_index options 0 c) { o with value := v })
                | some entries =>
                  match read_file lib entries
                    (options.set (handled_index options 0 c) { o with value := v }) with
                  | .error e => .error e
                  | .ok (false, options1) => .ok (-1, options1)
                  | .ok (true, options1) => parse_cmdline_loop lib optind rest options1
              | _ => .error .uncaught
            else
              parse_cmdline_loop lib optind rest
                (options.set (handled_index options 0 c) { o with value := v })

/-- The function `options::parse_cmdline(argc, argv)`: the value of `optind` it
returns (`-1` after an error) and the registry it leaves. -/
def parse_cmdline (lib : Library) (cmd : CommandLine) (options : List option_t) :
    Except Fault (Int × List option_t) :=
  parse_cmdline_loop lib cmd.optind cmd.getopt options

/-! ## Loading the inputs (`parse_command_line`, lines 799-953) -/

/-- The call `s.find_first_of(set)`: the index of the first character of `s` that is
in `set`, `none` for `npos`. -/
def find_first_of (s set : List Char) : Option Nat :=
  if s.findIdx (fun c => decide (c ∈ set)) < s.length
  then some (s.findIdx (fun c => decide (c ∈ set))) else none

/-- The call `s.find_first_not_of(set)`: the index of the first character of `s` that
is not in `set`, `none` for `npos`. -/
def find_first_not_of (s set : List Char) : Option Nat :=
  if s.findIdx (fun c => decide (c ∉ set)) < s.length
  then some (s.findIdx (fun c => decide (c ∉ set))) else none

/-- The characters of the literal `" \t"`. -/
def blanks : List Char := [' ', tab]

/-- The body of the loop of lines 904-914 up to the sum: the server string and the raw
weight kept for one line of the server list.  With only blanks after the name,
`ss.substr(npos)` throws `std::out_of_range`, which nothing catches.  The strings come
from `file_to_string_vector` and hold no NUL, so `c_str()` gives `atof` the whole
string. -/
def parse_weight (lib : Library) (server : String) : Except Fault (String × ℚ) :=
  match find_first_of server.data blanks with
  | none => .ok (server, 1)
  | some sp =>
    match find_first_not_of (server.data.drop sp) blanks with
    | none => .error .uncaught
    | some k =>
      if lib.atof ⟨(server.data.drop sp).drop k⟩ = 0 then .ok (server, 1)
      else .ok (⟨server.data.take sp⟩, lib.atof ⟨(server.data.drop sp).drop k⟩)

/-- The loop of lines 904-914 over the server list: the server strings and the raw
weights pushed onto `server_weights`. -/
def parse_weights (lib : Library) : List String → Except Fault (List String × List ℚ)
  | [] => .ok ([], [])
  | server :: rest =>
    match parse_weight lib server with
    | .error e => .error e
    | .ok (name, weight) =>
      match parse_weights lib rest with
      | .error e => .error e
      | .ok (names, weights) => .ok (name :: names, weight :: weights)

/-- The loop of lines 915-916: every weight divided by the sum `W` of the raw weights.
Exact rationals stand for the doubles; for `W = 0` the doubles are infinite or NaN,
which the rationals do not have (the quotient is then 0 here). -/
def normalize (weights : List ℚ) : List ℚ := weights.map (fun x => x / weights.sum)

/-- The body of the loop of lines 920-925: the host pushed onto `hosts` and the path
left in `url[i]`. -/
def split_url (u : String) : String × String :=
  match find_first_of (u.data.drop 7) ['/'] with
  | none => (⟨u.data.drop 7⟩, "")
  | some sl => (⟨(u.data.drop 7).take sl⟩, ⟨(u.data.drop 7).drop sl⟩)

/-- Lines 871-881 and 883-893: the MD5 list or the local list, read when the option
names a file and checked against the size of the URL list. -/
def load_checked (lib : Library) (file : String) (url_count : Nat) : Except Fault (List String) :=
  if file.length ≠ 0 then
    if (file_to_string_vector (lib.fopen file) []).1 < 0 then .error .exit1
    else if (file_to_string_vector (lib.fopen file) []).2.length ≠ url_count then .error .exit1
    else .ok (file_to_string_vector (lib.fopen file) []).2
  else .ok []

/-- Lines 895-926: with a server list option, read the servers, parse and normalize the
weights and split every URL; returns `url`, `servers`, `hosts`, `server_weights`. -/
def load_servers (lib : Library) (file : String) (url : List String) :
    Except Fault (List String × List String × List String × List ℚ) :=
  if file.length ≠ 0 then
    if (file_to_string_vector (lib.fopen file) []).1 < 0 then .error .exit1
    else
      match parse_weights lib (file_to_string_vector (lib.fopen file) []).2 with
      | .error e => .error e
      | .ok (servers, weights) =>
        .ok (url.map (fun u => (split_url u).2), servers, url.map (fun u => (split_url u).1),
          normalize weights)
  else .ok (url, [], [], [])

/-- Lines 928-950: the option globals read from the registry. -/
def read_globals (options : List option_t) (url_size local_size : Nat) : Options :=
  { opt_reuse := quickget_bool options "reuse-connections"
    opt_random := !quickget_bool options "sequential"
    opt_connections := quickget_int options "num-transactions"
    opt_br_prob := if local_size % 4294967296 = url_size % 4294967296
      then quickget_double options "br-prob" else 0
    opt_throttle_prob := quickget_double options "throttle-prob"
    opt_throttle_min := quickget_int options "throttle-min"
    opt_throttle_max := quickget_int options "throttle-max"
    opt_term_prob := quickget_double options "term-prob"
    opt_term_min_sec := quickget_double options "term-min-sec"
    opt_term_weibull_k := quickget_double options "term-min-weibull-k"
    opt_term_weibull_lambda := quickget_double options "term-min-weibull-lambda"
    opt_repeat_prob := quickget_double options "repeat-prob"
    opt_verbose := if quickget_bool options "no-checks" then false
      else quickget_bool options "verbose"
    opt_no_checks := quickget_bool options "no-checks"
    opt_quiet := quickget_bool options "quiet"
    opt_random_qstring_prob := quickget_double options "random-qstring-prob" }

/-- Lines 865-950 of `parse_command_line`: read the lists named by `url_file` and by
the options, then set the globals. -/
def load_inputs (lib : Library) (options : List option_t) (url_file : String) :
    Except Fault (Options × Inputs) :=
  if (file_to_string_vector (lib.fopen url_file) []).1 < 0 then .error .exit1
  else
    match load_checked lib (quickget_string options "md5-list")
      (file_to_string_vector (lib.fopen url_file) []).2.length with
    | .error e => .error e
    | .ok md5 =>
      match load_checked lib (quickget_string options "local-list")
        (file_to_string_vector (lib.fopen url_file) []).2.length with
      | .error e => .error e
      | .ok local_list =>
        match load_servers lib (quickget_string options "server-list")
          (file_to_string_vector (lib.fopen url_file) []).2 with
        | .error e => .error e
        | .ok (url, servers, hosts, server_weights) =>
          .ok (read_globals options url.length local_list.length,
            { url := url, md5 := md5, local_list := local_list, servers := servers,
              hosts := hosts, server_weights := server_weights })

/-- Lines 802-853 of `parse_command_line`: register the options, parse the command
line, exit on a parse error, a missing URL file argument or `--help`; returns the
registry and `argv[inpidx]`. -/
def parse_options (lib : Library) (cmd : CommandLine) : Except Fault (List option_t × String) :=
  match register_all registrations [] with
  | .error e => .error e
  | .ok registered =>
    match parse_cmdline lib cmd registered with
    | .error e => .error e
    | .ok (inpidx, options) =>
      if inpidx < 0 then .error .exit1
      else if inpidx ≥ (cmd.argv.length : Int) ∨ quickget_bool options "help" = true
      then .error .exit1
      else
        match index cmd.argv inpidx with
        | .error e => .error e
        | .ok url_file => .ok (options, url_file)

/-- The function `parse_command_line(argc, argv)`: the options, then the inputs.
Writing the file of `--save-config` is left out. -/
def parse_command_line (lib : Library) (cmd : CommandLine) : Except Fault (Options × Inputs) :=
  match parse_options lib cmd with
  | .error e => .error e
  | .ok (options, url_file) => load_inputs lib options url_file

/-! ## Example data -/

/-- A toy digest of 16 bytes (each the byte sum), no local files, a constant random
generator and clock, and temporary names `/tmp/testfile.a`, `/tmp/testfile.aa`, ... -/
def ex_world : World :=
  { md := fun bs => List.replicate 16 bs.sum, fs := fun _ => none, rng := fun _ => 0,
    clock := fun _ => 0, mkstemp := fun k => ⟨"/tmp/testfile.".data ++ List.replicate (k + 1) 'a'⟩,
    weibull := fun _ _ _ => 0 }

/-- File-sink mode, not quiet, one connection, sequential selection, no perturbation. -/
def ex_options : Options :=
  { opt_connections := 1, opt_reuse := false, opt_random := false, opt_br_prob := 0,
    opt_throttle_prob := 0, opt_term_prob := 0, opt_repeat_prob := 0, opt_throttle_min := 0,
    opt_throttle_max := 0, opt_term_min_sec := 0, opt_term_weibull_k := 0,
    opt_term_weibull_lambda := 0, opt_verbose := false, opt_no_checks := false,
    opt_quiet := false, opt_random_qstring_prob := 0 }

/-- One URL with the digest text of the body `[1, 2, 3]` under the toy digest. -/
def ex_inputs : Inputs :=
  { url := ["http://x/a"], md5 := ["06060606060606060606060606060606"], local_list := [],
    servers := [], hosts := [], server_weights := [] }

/-- A completed full transfer of the body `[1, 2, 3]`. -/
def ex_t : transaction_t :=
  { transaction_t.ctor with
    curl := 1, url_id := 0, outfile_name := "/tmp/testfile.a", outfile := [1, 2, 3] }

/-- The engine state holding `ex_t` as its only transaction. -/
def ex_state : State :=
  { initial_state with
    T := [ex_t], curl_to_T := [1], multi := [1], tmpfiles := ["/tmp/testfile.a"],
    handles := 1, temps := 1 }

/-- A world whose only local file `/ref/a` holds the bytes 1 to 6. -/
def ex_world_local : World :=
  { ex_world with fs := fun name => if name = "/ref/a" then some [1, 2, 3, 4, 5, 6] else none }

/-- One URL with a local reference file and no MD5 list. -/
def ex_inputs_local : Inputs :=
  { url := ["http://x/a"], md5 := [], local_list := ["/ref/a"], servers := [], hosts := [],
    server_weights := [] }

/-- A byte-range transaction for bytes 1 to 4 that received only the two bytes `[2, 3]`. -/
def ex_t_short : transaction_t :=
  { transaction_t.ctor with
    curl := 1, url_id := 0, outfile_name := "/tmp/testfile.a", outfile := [2, 3],
    byterange_start := 1, byterange_end := 4 }

/-- A byte-range transaction for bytes 1 to 2 that received the whole six-byte file. -/
def ex_t_whole : transaction_t :=
  { transaction_t.ctor with
    curl := 1, url_id := 0, outfile_name := "/tmp/testfile.a", outfile := [1, 2, 3, 4, 5, 6],
    byterange_start := 1, byterange_end := 2 }

/-- A byte-range transaction for bytes 1 to 4 that received exactly those bytes. -/
def ex_t_exact : transaction_t :=
  { transaction_t.ctor with
    curl := 1, url_id := 0, outfile_name := "/tmp/testfile.a", outfile := [2, 3, 4, 5],
    byterange_start := 1, byterange_end := 4 }

/-- One URL, no MD5 list, no local list, no servers. -/
def ex_inputs_plain : Inputs :=
  { url := ["http://x/a"], md5 := [], local_list := [], servers := [], hosts := [],
    server_weights := [] }

/-- Two connections, file-sink mode, sequential selection, no perturbation. -/
def ex_options_two : Options := { ex_options with opt_connections := 2 }

/-- Two iterations: in the first the transfer on handle 1 receives a byte and
completes, in the second `select` is interrupted. -/
def ex_events : List Events :=
  [{ select_rv := 1, received := [(1, [7])], done := [(1, 0)] },
   { select_rv := -1, received := [], done := [] }]

/-- Throttling and early termination both enabled, file-sink mode. -/
def ex_options_sim : Options := { ex_options with opt_throttle_prob := 1, opt_term_prob := 1 }

/-- A transfer started at time 0 with a termination deadline of `d` seconds. -/
def ex_t_deadline (d : ℚ) : transaction_t :=
  { transaction_t.ctor with
    curl := 1, url_id := 0, outfile_name := "/tmp/testfile.a", outfile := [1, 2, 3],
    random_terminate_time := d }

/-- The engine state holding `ex_t_deadline d` as its only transaction. -/
def ex_state_deadline (d : ℚ) : State :=
  { initial_state with
    T := [ex_t_deadline d], curl_to_T := [1], multi := [1], tmpfiles := ["/tmp/testfile.a"],
    handles := 1, temps := 1 }

/-- The options of `ex_options` with `--repeat-prob 1`. -/
def ex_options_repeat : Options := { ex_options with opt_repeat_prob := 1 }

/-- The options of `ex_options` with `--br-prob 1`. -/
def ex_options_br : Options := { ex_options with opt_br_prob := 1 }

/-- A world whose local files all hold 2^32 zero bytes, with the first `drand48` value
0 and the next two `lrand48` values 2^31 - 2 and 2^31 - 1. -/
def ex_world_huge : World :=
  { ex_world with
    fs := fun _ => some (List.replicate 4294967296 0)
    rng := fun k => if k = 0 then 0 else if k = 1 then 2147483646 * 131072
      else 2147483647 * 131072 }

/-- Throttling always on, with the rate drawn from [1000, 2000). -/
def ex_options_throttle : Options :=
  { ex_options with opt_throttle_prob := 1, opt_throttle_min := 1000, opt_throttle_max := 2000 }

/-- A world whose first `drand48` value is 0 and whose later raw values are
`2500 * 2^17`, which `lrand48` turns into 2500. -/
def ex_world_draws : World :=
  { ex_world_local with rng := fun k => if k = 0 then 0 else 2500 * 131072 }

/-- The value of a non-empty string of decimal digits. -/
def ex_digits (s : List Char) : Option Nat :=
  if s ≠ [] ∧ s.all Char.isDigit = true
  then some (s.foldl (fun n c => 10 * n + (c.toNat - 48)) 0) else none

/-- The value of a whole number in decimal, with an optional minus sign. -/
def ex_int (s : String) : Option Int :=
  match s.data with
  | '-' :: ds => (ex_digits ds).map (fun n => -(n : Int))
  | ds => (ex_digits ds).map (fun n => (n : Int))

/-- The text files of the examples: two URLs, server lists with the weights 3 and 1,
1 and -1, and 0, and an MD5 list with a single entry. -/
def ex_files (name : String) : Option (List Char) :=
  if name = "urls.txt" then some "http://h/a\nhttp://h/b/c\n".data
  else if name = "servers.txt" then some "s1 3\ns2\t1\n".data
  else if name = "negative.txt" then some "s1 1\ns2 -1\n".data
  else if name = "zero.txt" then some "s1 0\n".data
  else if name = "md5.txt" then some "00000000000000000000000000000000\n".data
  else none

/-- A library that reads whole decimal numbers, as `atof` and the stream extractions
do, and knows the files of `ex_files` and no configuration file. -/
def ex_library : Library :=
  { atof := fun s => (((ex_int s).getD 0 : Int) : ℚ)
    read_bool := fun s => if s = "1" then some true else if s = "0" then some false else none
    read_int := ex_int
    read_double := fun s => (ex_int s).map (fun i => (i : ℚ))
    read_string := fun s => if s = "" then none else some s
    conf := fun _ => none
    fopen := ex_files }

/-- The command line `testclient <url_file>`. -/
def ex_cmd (url_file : String) : CommandLine :=
  { argv := ["testclient", url_file], getopt := [], optind := 1 }

/-- The command line `testclient -k 5 -d 7 urls.txt`. -/
def ex_cmd_weibull : CommandLine :=
  { argv := ["testclient", "-k", "5", "-d", "7", "urls.txt"],
    getopt := [(107, "5"), (100, "7")], optind := 5 }

/-- The command line `testclient --server-list <file> urls.txt`; `getopt_long`
returns 256 + 5 for the sixth registered option, which has no short name. -/
def ex_cmd_servers (file : String) : CommandLine :=
  { argv := ["testclient", "--server-list", file, "urls.txt"],
    getopt := [(261, file)], optind := 3 }

/-- The command line `testclient -m md5.txt urls.txt`. -/
def ex_cmd_md5 : CommandLine :=
  { argv := ["testclient", "-m", "md5.txt", "urls.txt"], getopt := [(109, "md5.txt")],
    optind := 3 }

/-- The files of `ex_files` with two more server lists: `empty.txt`, which holds only
an empty line, and `names.txt`, whose only server is a host name with a port. -/
def ex_files_more (name : String) : Option (List Char) :=
  if name = "empty.txt" then some [newline]
  else if name = "names.txt" then some "cache-01.example.com:8080".data
  else ex_files name

/-- The library `ex_library` over the files of `ex_files_more`. -/
def ex_library_more : Library := { ex_library with fopen := ex_files_more }

/-- The command line `testclient -o 1 urls.txt`: throttling with probability 1 and the
default rates. -/
def ex_cmd_throttle : CommandLine :=
  { argv := ["testclient", "-o", "1", "urls.txt"], getopt := [(111, "1")], optind := 3 }

/-- The command line `testclient -s urls.txt`: sequential selection. -/
def ex_cmd_sequential : CommandLine :=
  { argv := ["testclient", "-s", "urls.txt"], getopt := [(115, "")], optind := 2 }

/-- An operator-terminated transfer (sentinel -1) whose body `[9]` does not have the
digest listed in `ex_inputs`. -/
def ex_t_terminated : transaction_t :=
  { ex_t with outfile := [9], random_terminate_time := -1 }

/-- The engine state holding `ex_t_terminated` as its only transaction. -/
def ex_state_terminated : State :=
  { initial_state with
    T := [ex_t_terminated], curl_to_T := [1], multi := [1], tmpfiles := ["/tmp/testfile.a"],
    handles := 1, temps := 1 }

/-- Two URLs, no MD5 list, no local list, no servers. -/
def ex_inputs_two : Inputs :=
  { url := ["http://h/a", "http://h/b/c"], md5 := [], local_list := [], servers := [],
    hosts := [], server_weights := [] }

/-- A body of 2^31 + 1 bytes: 2^31 zero bytes followed by the byte 1. -/
def ex_body_huge : List Byte := List.replicate 2147483648 0 ++ [1]

/-- A completed full transfer of the body `ex_body_huge`. -/
def ex_t_huge : transaction_t := { ex_t with outfile := ex_body_huge }

/-- One URL with the digest text of the body `ex_body_huge` under the toy digest. -/
def ex_inputs_huge : Inputs :=
  { url := ["http://x/a"], md5 := ["01010101010101010101010101010101"], local_list := [],
    servers := [], hosts := [], server_weights := [] }

/-! # Theorems -/

/-! ## Lemmas on machine integers -/

theorem wrap32_of_range {x : Int} (h1 : -2147483648 ≤ x) (h2 : x < 2147483648) : wrap32 x = x := by
  unfold wrap32; omega

theorem toSizeT_of_nonneg {x : Int} (h1 : 0 ≤ x) (h2 : x < 18446744073709551616) :
    toSizeT x = x.toNat := by
  unfold toSizeT
  rw [Int.emod_eq_of_lt h1 h2]

/-- Inside the `int` range the request is the remaining window, capped at the buffer size. -/
theorem read_request_eq {start end_ : Int} (h0 : 0 ≤ start) (h1 : start ≤ end_)
    (h2 : end_ < 2147483648) :
    read_request start end_ = min (end_ - start + 1).toNat 102400 := by
  unfold read_request
  by_cases hw : end_ - start + 1 < 2147483648
  · rw [wrap32_of_range (by omega) hw, toSizeT_of_nonneg (by omega) (by omega)]
    simp only []
    split <;> omega
  · have hx : end_ - start + 1 = 2147483648 := by omega
    have : toSizeT (wrap32 (end_ - start + 1)) = 18446744071562067968 := by
      rw [hx]; decide
    rw [this, hx]
    decide

/-! ## Server selection -/

/-- Past the first index the loop returns the index after the one whose weight
drops the draw below zero. -/
theorem weighted_round_robin_first (w0 w1 : ℚ) (ws : List ℚ) (d : ℚ)
    (h0 : 0 ≤ d) (h1 : d < w0) : weighted_round_robin (w0 :: w1 :: ws) d = 1 := by
  unfold weighted_round_robin
  rw [wrr_loop, if_neg (not_lt.mpr h0), wrr_loop, if_pos (by linarith)]

theorem prefix_sum_cons (w : ℚ) (ws : List ℚ) (k : Nat) :
    prefix_sum (w :: ws) (k + 1) = w + prefix_sum ws k := by
  simp [prefix_sum]

/-- The index `first_below` is the least one whose cumulative weight exceeds the draw,
for a draw in `[0, sum)`. -/
theorem first_below_spec (ws : List ℚ) (d : ℚ) (h0 : 0 ≤ d) (hd : d < ws.sum) :
    first_below ws d < ws.length
    ∧ d < prefix_sum ws (first_below ws d + 1)
    ∧ ∀ k, k < first_below ws d → prefix_sum ws (k + 1) ≤ d := by
  induction ws generalizing d with
  | nil =>
    rw [List.sum_nil] at hd
    exact absurd hd (not_lt.mpr h0)
  | cons w ws ih =>
    by_cases hw : d < w
    · have hfb : first_below (w :: ws) d = 0 := by simp [first_below, hw]
      rw [hfb]
      refine ⟨by simp, ?_, fun k hk => absurd hk (Nat.not_lt_zero k)⟩
      rw [prefix_sum_cons]
      simpa [prefix_sum] using hw
    · have hfb : first_below (w :: ws) d = first_below ws (d - w) + 1 := by
        simp [first_below, hw]
      rw [List.sum_cons] at hd
      obtain ⟨h1, h2, h3⟩ := ih (d - w) (by linarith) (by linarith)
      rw [hfb]
      refine ⟨by simpa using h1, ?_, ?_⟩
      · rw [prefix_sum_cons]; linarith
      · intro k hk
        rw [prefix_sum_cons]
        cases k with
        | zero => simp [prefix_sum]; linarith
        | succ k =>
          have := h3 k (by omega)
          linarith

/-- What the loop computes for a non-negative draw: one more than the index the
specification describes, and `0` when that is past the end of the vector. -/
theorem wrr_loop_eq (ws : List ℚ) (d : ℚ) (i : Nat) (hd : 0 ≤ d) :
    wrr_loop ws d i
      = if first_below ws d + 1 < ws.length then i + first_below ws d + 1 else 0 := by
  induction ws generalizing d i with
  | nil => simp [wrr_loop]
  | cons w ws ih =>
    rw [wrr_loop, if_neg (not_lt.mpr hd)]
    by_cases hw : d < w
    · have hfb : first_below (w :: ws) d = 0 := by simp [first_below, hw]
      rw [hfb]
      cases ws with
      | nil => simp [wrr_loop]
      | cons v vs =>
        rw [wrr_loop, if_pos (by linarith)]
        simp
    · have hfb : first_below (w :: ws) d = first_below ws (d - w) + 1 := by
        simp [first_below, hw]
      rw [hfb, ih (d - w) (i + 1) (by linarith)]
      simp only [List.length_cons, Nat.add_lt_add_iff_right]
      split <;> omega

/-- With two or more servers the function never returns the index the specification
describes, whatever the non-negative draw. -/
theorem weighted_round_robin_ne_first_below (ws : List ℚ) (d : ℚ) (hd : 0 ≤ d)
    (hlen : 2 ≤ ws.length) : weighted_round_robin ws d ≠ first_below ws d := by
  unfold weighted_round_robin
  rw [wrr_loop_eq ws d 0 hd]
  split <;> omega

/-- C1 (code defect): with weights [3/4, 1/4] and the draw 1/2, which is below the
first weight, the least index whose cumulative weight exceeds the draw is 0, yet
`weighted_round_robin` returns index 1; for the draw 4/5 the loop runs off the end and
returns 0. -/
theorem weighted_round_robin_off_by_one :
    weighted_round_robin [3/4, 1/4] (1/2) = 1
    ∧ first_below [3/4, 1/4] (1/2) = 0
    ∧ (1/2 : ℚ) < prefix_sum [3/4, 1/4] 1
    ∧ weighted_round_robin [3/4, 1/4] (4/5) = 0
    ∧ first_below [3/4, 1/4] (4/5) = 1 := by
  refine ⟨?_, ?_, ?_, ?_, ?_⟩
  · norm_num [weighted_round_robin, wrr_loop]
  · norm_num [first_below]
  · norm_num [prefix_sum]
  · norm_num [weighted_round_robin, wrr_loop]
  · norm_num [first_below]

/-! ## Digest of a byte window -/

theorem fread_length_le (file : List Byte) (pos n : Nat) :
    (fread file pos n).length ≤ file.length - pos := by
  unfold fread
  rw [List.length_take, List.length_drop]
  exact Nat.min_le_right _ _

/-- After `start` has wrapped to `INT_MIN` the next request is empty and the loop stops. -/
theorem md5_loop_wrapped (file : List Byte) (pos : Nat) (updates : List (List Byte)) :
    md5_loop file 2147483647 pos (-2147483648) updates = updates := by
  rw [md5_loop]
  have : read_request (-2147483648) 2147483647 = 0 := by decide
  simp [this, fread]

/-- Loop invariant of `md5_compute`: with the read position at `start`, the loop
feeds exactly the rest of the window, whatever has been fed before. -/
theorem md5_loop_flatten (file : List Byte) (end_ : Int) (h2 : end_ < 2147483648) :
    ∀ (n pos : Nat) (updates : List (List Byte)), file.length - pos ≤ n → (pos : Int) ≤ end_ →
      (md5_loop file end_ pos pos updates).flatten
        = updates.flatten ++ (file.drop pos).take (end_ - pos + 1).toNat := by
  intro n
  induction n with
  | zero =>
    intro pos updates hn hle
    rw [md5_loop]
    have hd : file.drop pos = [] := List.drop_eq_nil_of_le (by omega)
    simp [fread, hd]
  | succ n ih =>
    intro pos updates hn hle
    rw [md5_loop]
    have hreq := read_request_eq (Int.natCast_nonneg pos) hle h2
    have hchunk : fread file pos (read_request pos end_)
        = (file.drop pos).take (min (end_ - pos + 1).toNat 102400) := by
      rw [hreq]; rfl
    generalize fread file pos (read_request pos end_) = chunk at hchunk ⊢
    have hlen : chunk.length = min (min (end_ - pos + 1).toNat 102400) (file.length - pos) := by
      rw [hchunk, List.length_take, List.length_drop]
    by_cases hz : chunk.length = 0
    · rw [if_pos hz]
      have hd2 : file.drop pos = [] := List.drop_eq_nil_of_le (by omega)
      simp [hd2]
    · rw [if_neg hz]
      have e1 : chunk = (file.drop pos).take chunk.length := by
        conv_lhs => rw [hchunk]
        rw [hlen]
        rw [List.take_eq_take]
        rw [List.length_drop]
        omega
      by_cases hfull : (pos : Int) + chunk.length ≤ end_
      · -- more of the window remains: the request was a full buffer
        have hw : wrap32 ((pos : Int) + chunk.length) = ((pos + chunk.length : Nat) : Int) := by
          rw [wrap32_of_range (by omega) (by omega)]; push_cast; rfl
        rw [hw, if_pos (by push_cast; exact hfull)]
        rw [ih _ _ (by omega) (by push_cast; exact hfull)]
        rw [List.flatten_append, List.append_assoc]
        refine congrArg (fun l => updates.flatten ++ l) ?_
        simp only [List.flatten_cons, List.flatten_nil, List.append_nil]
        have e2 : (end_ - pos + 1).toNat
            = chunk.length + (end_ - ((pos + chunk.length : Nat) : Int) + 1).toNat := by
          push_cast; omega
        rw [e2, List.take_add, List.drop_drop, ← e1]
      · -- the window is exhausted
        have hall : chunk.length = (end_ - pos + 1).toNat ∨ file.length - pos ≤ chunk.length := by
          omega
        have e3 : chunk = (file.drop pos).take (end_ - pos + 1).toNat := by
          rcases hall with h | h
          · rw [← h]; exact e1
          · rw [e1, List.take_of_length_le (by rw [List.length_drop]; omega),
              List.take_of_length_le (by rw [List.length_drop]; omega)]
        by_cases hwrap : (pos : Int) + chunk.length = 2147483648
        · have he : end_ = 2147483647 := by omega
          subst he
          have hw : wrap32 ((pos : Int) + chunk.length) = -2147483648 := by
            rw [hwrap]; decide
          rw [hw, if_pos (by decide), md5_loop_wrapped]
          simp [← e3]
        · have hw : wrap32 ((pos : Int) + chunk.length) = (pos : Int) + chunk.length := by
            rw [wrap32_of_range (by omega) (by omega)]
          rw [hw, if_neg hfull]
          simp [← e3]

/-- Every buffer the loop hands to the digest is non-empty and at most 102400 bytes. -/
theorem md5_loop_chunks (file : List Byte) (end_ : Int) :
    ∀ (n pos : Nat) (start : Int) (updates : List (List Byte)), file.length - pos ≤ n →
      ∀ c ∈ md5_loop file end_ pos start updates,
        c ∈ updates ∨ (0 < c.length ∧ c.length ≤ 102400) := by
  intro n
  induction n with
  | zero =>
    intro pos start updates hn c hc
    rw [md5_loop] at hc
    have hl := fread_length_le file pos (read_request start end_)
    rw [if_pos (by omega)] at hc
    exact Or.inl hc
  | succ n ih =>
    intro pos start updates hn c hc
    rw [md5_loop] at hc
    have hl := fread_length_le file pos (read_request start end_)
    have hr : (fread file pos (read_request start end_)).length ≤ 102400 := by
      unfold fread read_request
      rw [List.length_take]
      refine le_trans (Nat.min_le_left _ _) ?_
      simp only []
      split <;> omega
    generalize fread file pos (read_request start end_) = chunk at hc hl hr
    by_cases hz : chunk.length = 0
    · rw [if_pos hz] at hc
      exact Or.inl hc
    · rw [if_neg hz] at hc
      have hnew : ∀ c ∈ updates ++ [chunk], c ∈ updates ∨ (0 < c.length ∧ c.length ≤ 102400) := by
        intro c hc
        rcases List.mem_append.mp hc with h | h
        · exact Or.inl h
        · rw [List.mem_singleton] at h
          subst h
          exact Or.inr ⟨by omega, hr⟩
      split at hc
      · rcases ih _ _ _ (by omega) c hc with h | h
        · exact hnew c h
        · exact Or.inr h
      · exact hnew c hc

theorem hexDigit_mem (n : Nat) (h : n < 16) : hexDigit n ∈ hexDigits := by
  interval_cases n <;> decide

theorem hexString_length (digest : List Byte) : (hexString digest).length = 2 * digest.length := by
  unfold hexString
  show ((digest.map hex2).flatten).length = 2 * digest.length
  induction digest with
  | nil => rfl
  | cons b bs ih =>
    rw [List.map_cons, List.flatten_cons, List.length_append, ih, List.length_cons]
    simp [hex2]; omega

theorem hexString_lowercase (digest : List Byte) : ∀ c ∈ (hexString digest).data, c ∈ hexDigits := by
  unfold hexString
  intro c hc
  simp only [List.mem_flatten, List.mem_map] at hc
  obtain ⟨l, ⟨b, _, rfl⟩, hcl⟩ := hc
  simp only [hex2, List.mem_cons, List.mem_singleton, List.not_mem_nil, or_false] at hcl
  rcases hcl with rfl | rfl
  · exact hexDigit_mem _ (by have := b.isLt; omega)
  · exact hexDigit_mem _ (by omega)

/-- The read loop of `md5_compute` feeds the digest exactly the window. -/
theorem md5_loop_window (file : List Byte) (start end_ : Int)
    (h0 : 0 ≤ start) (h1 : start ≤ end_) (h2 : end_ ≤ 2147483647) :
    (md5_loop file end_ start.toNat start []).flatten = window file start end_ := by
  have hs : ((start.toNat : Nat) : Int) = start := Int.toNat_of_nonneg h0
  have := md5_loop_flatten file end_ (by omega) (file.length - start.toNat) start.toNat []
    (le_refl _) (by omega)
  rw [hs] at this
  rw [this]
  simp [window]

/-- Inside the `int` range `md5_compute` appends the digest text of the window. -/
theorem md5_compute_eq (md : List Byte → List Byte) (file : List Byte) (start end_ : Int)
    (out : String) (h0 : 0 ≤ start) (h1 : start ≤ end_) (h2 : end_ ≤ 2147483647) :
    md5_compute md file start end_ out = .ok (out ++ md5_of_window md file start end_) := by
  unfold md5_compute md5_of_window
  rw [if_neg (by omega), md5_loop_window file start end_ h0 h1 h2]

/-- The call `md5_compute(outfile, 0, st.st_size-1, xfer_md5)` of the verifier yields
the digest text of the whole body, for bodies of at most 2^31 bytes. -/
theorem md5_compute_body (md : List Byte → List Byte) (body : List Byte)
    (hsize : body.length ≤ 2147483648) :
    md5_compute md body 0 (wrap32 ((body.length : Int) - 1)) "" = .ok (hexString (md body)) := by
  have hw : wrap32 ((body.length : Int) - 1) = (body.length : Int) - 1 :=
    wrap32_of_range (by omega) (by omega)
  rw [hw]
  by_cases hz : body.length = 0
  · have hb : body = [] := List.length_eq_zero.mp hz
    subst hb
    unfold md5_compute
    rw [if_neg (by omega), md5_loop]
    simp [fread]
  · rw [md5_compute_eq md body 0 _ "" (le_refl _) (by omega) (by omega)]
    unfold md5_of_window window
    have : ((body.length : Int) - 1 - 0 + 1).toNat = body.length := by omega
    rw [this]
    simp

/-- C7: for every file and every `0 <= start <= end` (both `int`), the read loop of
`md5_compute` hands the digest exactly the window `B[start .. min(end, |B|-1)]`, in
order, in buffers of 1 to 102400 bytes, so the result (of the function in
`testclient.cpp` and of its copy in `testmd5.cpp`) is the digest text of the window
hashed in one update, appended to the output string: two lowercase hexadecimal
characters per digest byte, 32 for a 16-byte digest. -/
theorem md5_compute_feeds_window (md : List Byte → List Byte) (file : List Byte)
    (start end_ : Int) (out : String)
    (h0 : 0 ≤ start) (h1 : start ≤ end_) (h2 : end_ ≤ 2147483647) :
    (md5_loop file end_ start.toNat start []).flatten = window file start end_
    ∧ (∀ c ∈ md5_loop file end_ start.toNat start [], 0 < c.length ∧ c.length ≤ 102400)
    ∧ md5_compute md file start end_ out = .ok (out ++ md5_of_window md file start end_)
    ∧ md5_compute_tool md file start end_ out = out ++ md5_of_window md file start end_
    ∧ (md5_of_window md file start end_).length = 2 * (md (window file start end_)).length
    ∧ (∀ c ∈ (md5_of_window md file start end_).data, c ∈ hexDigits)
    ∧ ((md (window file start end_)).length = 16 →
        (md5_of_window md file start end_).length = 32) := by
  refine ⟨md5_loop_window file start end_ h0 h1 h2, ?_, md5_compute_eq md file start end_ out h0 h1 h2,
    ?_, hexString_length _, hexString_lowercase _, ?_⟩
  · intro c hc
    rcases md5_loop_chunks file end_ _ _ _ _ (le_refl _) c hc with h | h
    · exact absurd h (List.not_mem_nil c)
    · exact h
  · unfold md5_compute_tool md5_of_window
    rw [if_neg (by omega), md5_loop_window file start end_ h0 h1 h2]
  · intro h16
    unfold md5_of_window
    rw [hexString_length, h16]

/-- Witness for C7: a five-byte file, the window 1..3 and a toy 16-byte digest. -/
theorem md5_compute_feeds_window_witness :
    ((0 : Int) ≤ 1 ∧ (1 : Int) ≤ 3 ∧ (3 : Int) ≤ 2147483647)
    ∧ md5_compute (fun bs => List.replicate 16 bs.sum) [1, 2, 3, 4, 5] 1 3 ""
        = .ok ("" ++ md5_of_window (fun bs => List.replicate 16 bs.sum) [1, 2, 3, 4, 5] 1 3)
    ∧ (md5_of_window (fun bs => List.replicate 16 bs.sum) [1, 2, 3, 4, 5] 1 3).length = 32 :=
  ⟨by decide,
   (md5_compute_feeds_window (fun bs => List.replicate 16 bs.sum) [1, 2, 3, 4, 5] 1 3 ""
      (by decide) (by decide) (by decide)).2.2.1,
   (md5_compute_feeds_window (fun bs => List.replicate 16 bs.sum) [1, 2, 3, 4, 5] 1 3 ""
      (by decide) (by decide) (by decide)).2.2.2.2.2.2 (by simp)⟩

/-! ## Closing a transaction -/

theorem md5_compute_ok (md : List Byte → List Byte) (file : List Byte) (start end_ : Int)
    (out : String) (h0 : 0 ≤ start) :
    ∃ text, md5_compute md file start end_ out = .ok text := by
  unfold md5_compute
  rw [if_neg (by omega)]
  exact ⟨_, rfl⟩

/-- In file-sink mode `noremove` is true on every path that reaches `cleanup`, so
`finish_transaction` never unlinks the body file there. -/
theorem finish_report_file_sink_keeps (w : World) (o : Options) (inp : Inputs)
    (t : transaction_t) (result : Int) (lines : List LogLine) (keep : Bool)
    (hsink : o.opt_no_checks = false)
    (h : finish_report w o inp t result = .ok (lines, keep)) : keep = true := by
  unfold finish_report at h
  split at h
  · simp only [bind, Except.bind, pure, Except.pure] at h
    split at h
    · exact absurd h (by simp)
    · injection h with h; injection h with _ h; exact h.symm
  · simp only [hsink, Bool.not_false, if_true] at h
    unfold consistency_check at h
    simp only [bind, Except.bind, pure, Except.pure] at h
    repeat' split at h
    all_goals first
      | (injection h with h; injection h with _ h; exact h.symm)
      | (injection h)

/-- C2 (code defect): in file-sink mode a transfer that completes with result 0 and
whose body digest equals the expected MD5 is reported as a success, yet `noremove` is
true at `cleanup`, so `finish_transaction` erases the transaction and leaves its
temporary body file on disk. -/
theorem finish_transaction_keeps_verified_file :
    finish_report ex_world ex_options ex_inputs ex_t 0
      = .ok ([LogLine.success "http://x/a" 3], true)
    ∧ (finish_transaction ex_world ex_options ex_inputs ex_state 1 0).toOption.map
        (fun s => (s.T.length, s.tmpfiles, s.log))
      = some (0, ["/tmp/testfile.a"], [LogLine.success "http://x/a" 3]) := by
  have h := md5_compute_body ex_world.md ex_t.outfile (by decide)
  have hr : finish_report ex_world ex_options ex_inputs ex_t 0
      = .ok ([LogLine.success "http://x/a" 3], true) := by
    unfold finish_report consistency_check
    simp only [h]
    rfl
  refine ⟨hr, ?_⟩
  unfold finish_transaction
  have hf : ex_state.T.find? (fun t => t.curl == 1) = some ex_t := by rfl
  rw [if_pos (by decide), hf]
  simp only [hr]
  rfl

/-- C3 (counterexample): a byte-range transfer of 2 bytes for the 4-byte range 1-4 of a
6-byte local file is shorter than the range and not the first-fetch exception, yet no
size mismatch is reported: the digests are compared and a byte-range md5 error is
logged. -/
theorem short_transfer_not_size_mismatch :
    finish_report ex_world_local ex_options ex_inputs_local ex_t_short 0
      = .ok ([LogLine.byte_range_md5_error "http://x/a" "0e0e0e0e0e0e0e0e0e0e0e0e0e0e0e0e"
          "05050505050505050505050505050505" 2 1 4 "/tmp/testfile.a"], true)
    ∧ (ex_t_short.outfile.length : Int) ≠ ex_t_short.byterange_end - ex_t_short.byterange_start + 1
    ∧ ¬ ((ex_t_short.outfile.length : Int)
          > ex_t_short.byterange_end - ex_t_short.byterange_start + 1
        ∧ ex_t_short.outfile.length = 6) := by
  refine ⟨?_, by decide, by decide⟩
  have h := md5_compute_body ex_world_local.md ex_t_short.outfile (by decide)
  have h2 := md5_compute_eq ex_world_local.md [1, 2, 3, 4, 5, 6] 1 4 "" (by decide) (by decide)
    (by decide)
  unfold finish_report consistency_check
  simp only [h]
  have hfs : ex_world_local.fs "/ref/a" = some [1, 2, 3, 4, 5, 6] := by rfl
  have hidx : index ex_inputs_local.local_list ex_t_short.url_id = .ok "/ref/a" := by rfl
  simp only [hidx, hfs, bind, Except.bind]
  have h3 : ex_t_short.byterange_start = 1 := rfl
  have h4 : ex_t_short.byterange_end = 4 := rfl
  simp only [h3, h4, h2]
  rfl

/-- The lines of the closing report in terms of quiet mode. -/
theorem success_report_eq (o : Options) (inp : Inputs) (t : transaction_t) (u : String)
    (hurl : index inp.url t.url_id = .ok u) :
    success_report o inp t = .ok (if o.opt_quiet then []
      else if t.byterange_end ≠ 0 then
        [LogLine.success_range u t.byterange_start t.byterange_end t.outfile.length]
      else [LogLine.success u t.outfile.length]) := by
  unfold success_report
  cases hq : o.opt_quiet
  · simp only [hurl, bind, Except.bind, pure, Except.pure]
    by_cases hb : t.byterange_end = 0 <;> simp [hb]
  · simp [pure, Except.pure]

/-- C3 (amended): in file-sink mode, for a byte-range transaction closed with result 0,
not operator-terminated, with the local list loaded and its reference file readable:
a body longer than the range (`end - start + 1`) whose size differs from the local
file's size is reported as a byte-range size mismatch; a body not longer than the
range is never reported as a size mismatch: its digest is compared with the digest of
the local window and a byte-range md5 error is reported exactly when they differ. -/
theorem byte_range_size_check (w : World) (o : Options) (inp : Inputs) (t : transaction_t)
    (name u : String) (lf : List Byte)
    (hsink : o.opt_no_checks = false) (hrange : t.byterange_end ≠ 0)
    (hterm : 0 ≤ t.random_terminate_time) (hlocal : inp.local_list.length = inp.url.length)
    (hname : index inp.local_list t.url_id = .ok name) (hfs : w.fs name = some lf)
    (hurl : index inp.url t.url_id = .ok u) (hstart : 0 ≤ t.byterange_start) :
    ((t.outfile.length : Int) > range_length t → lf.length ≠ t.outfile.length →
      finish_report w o inp t 0
        = .ok ([LogLine.byte_range_size_mismatch u lf.length t.outfile.length
            t.byterange_start t.byterange_end t.outfile_name], true))
    ∧ ((t.outfile.length : Int) ≤ range_length t →
        ∃ xfer_md5 local_md5,
          md5_compute w.md t.outfile 0 (wrap32 ((t.outfile.length : Int) - 1)) "" = .ok xfer_md5
          ∧ md5_compute w.md lf t.byterange_start t.byterange_end "" = .ok local_md5
          ∧ finish_report w o inp t 0
            = .ok (if xfer_md5 ≠ local_md5 then
                [LogLine.byte_range_md5_error u local_md5 xfer_md5 t.outfile.length
                  t.byterange_start t.byterange_end t.outfile_name]
              else if o.opt_quiet then []
              else [LogLine.success_range u t.byterange_start t.byterange_end
                t.outfile.length], true)) := by
  obtain ⟨xfer_md5, hx⟩ := md5_compute_ok w.md t.outfile 0
    (wrap32 ((t.outfile.length : Int) - 1)) "" (le_refl _)
  obtain ⟨local_md5, hl⟩ := md5_compute_ok w.md lf t.byterange_start t.byterange_end "" hstart
  have hsucc := success_report_eq o inp t u hurl
  have hfirst : ¬ (t.byterange_end = 0 ∧ 0 ≤ t.random_terminate_time
      ∧ inp.md5.length = inp.url.length) := fun h => hrange h.1
  constructor
  · intro hgt hne
    unfold finish_report consistency_check
    simp only [hsink, hx, hname, hfs, hurl, bind, Except.bind, pure, Except.pure]
    simp [hfirst, hrange, hterm, hlocal, hgt, hne]
  · intro hle
    refine ⟨xfer_md5, local_md5, hx, hl, ?_⟩
    unfold finish_report consistency_check
    simp only [hsink, hx, hl, hname, hfs, hurl, hsucc, bind, Except.bind, pure, Except.pure]
    have hngt : ¬ ((t.outfile.length : Int) > range_length t) := not_lt.mpr hle
    simp only [hngt]
    by_cases hd : xfer_md5 = local_md5
    · simp [hfirst, hrange, hterm, hlocal, hd]
    · simp [hfirst, hrange, hterm, hlocal, hd]

/-- Witness for C3 (amended): the two-byte body for the range 1-4. -/
theorem byte_range_size_check_witness :
    (ex_t_short.outfile.length : Int) ≤ range_length ex_t_short
    ∧ ∃ xfer_md5 local_md5,
        md5_compute ex_world_local.md ex_t_short.outfile 0
            (wrap32 ((ex_t_short.outfile.length : Int) - 1)) "" = .ok xfer_md5
        ∧ md5_compute ex_world_local.md [1, 2, 3, 4, 5, 6] ex_t_short.byterange_start
            ex_t_short.byterange_end "" = .ok local_md5
        ∧ finish_report ex_world_local ex_options ex_inputs_local ex_t_short 0
          = .ok (if xfer_md5 ≠ local_md5 then
              [LogLine.byte_range_md5_error "http://x/a" local_md5 xfer_md5
                ex_t_short.outfile.length ex_t_short.byterange_start ex_t_short.byterange_end
                ex_t_short.outfile_name]
            else if ex_options.opt_quiet then []
            else [LogLine.success_range "http://x/a" ex_t_short.byterange_start
              ex_t_short.byterange_end ex_t_short.outfile.length], true) :=
  ⟨by decide,
   (byte_range_size_check ex_world_local ex_options ex_inputs_local ex_t_short "/ref/a"
      "http://x/a" [1, 2, 3, 4, 5, 6] rfl (by decide) (by decide) rfl rfl rfl rfl
      (by decide)).2 (by decide)⟩

theorem index_nil {α : Type} (i : Int) : index ([] : List α) i = .error Fault.outOfRange := by
  unfold index
  split <;> rfl

/-- With no MD5 list loaded, every first-fetch case (body longer than the range and as
long as the local file) runs into the read of `md5[url_id]` at line 482. -/
theorem first_fetch_without_md5_list (w : World) (o : Options) (inp : Inputs)
    (t : transaction_t) (name u : String) (lf : List Byte)
    (hsink : o.opt_no_checks = false) (hrange : t.byterange_end ≠ 0)
    (hterm : 0 ≤ t.random_terminate_time) (hlocal : inp.local_list.length = inp.url.length)
    (hname : index inp.local_list t.url_id = .ok name) (hfs : w.fs name = some lf)
    (hurl : index inp.url t.url_id = .ok u)
    (hgt : (t.outfile.length : Int) > range_length t) (heq : lf.length = t.outfile.length)
    (hmd5 : inp.md5 = []) :
    finish_report w o inp t 0 = .error Fault.outOfRange := by
  obtain ⟨xfer_md5, hx⟩ := md5_compute_ok w.md t.outfile 0
    (wrap32 ((t.outfile.length : Int) - 1)) "" (le_refl _)
  have hfirst : ¬ (t.byterange_end = 0 ∧ 0 ≤ t.random_terminate_time
      ∧ inp.md5.length = inp.url.length) := fun h => hrange h.1
  have hidx : index inp.md5 t.url_id = .error Fault.outOfRange := by rw [hmd5]; exact index_nil _
  unfold finish_report consistency_check
  simp only [hsink, hx, hname, hfs, hurl, hidx, bind, Except.bind, pure, Except.pure]
  cases hq : o.opt_quiet <;> simp [hfirst, hrange, hterm, hlocal, hgt, heq]

/-- C4 (code defect): with a local list but no MD5 list loaded, a byte-range transfer
that delivers the whole local file takes the first-fetch branch, where line 482 reads
`md5[url_id]` from the empty MD5 vector. -/
theorem first_fetch_reads_missing_md5 :
    ex_inputs_local.md5 = []
    ∧ (ex_t_whole.outfile.length : Int) > ex_t_whole.byterange_end - ex_t_whole.byterange_start + 1
    ∧ ex_world_local.fs "/ref/a" = some ex_t_whole.outfile
    ∧ finish_report ex_world_local ex_options ex_inputs_local ex_t_whole 0
      = .error Fault.outOfRange := by
  refine ⟨rfl, by decide, rfl, ?_⟩
  obtain ⟨xfer_md5, hx⟩ := md5_compute_ok ex_world_local.md ex_t_whole.outfile 0
    (wrap32 ((ex_t_whole.outfile.length : Int) - 1)) "" (le_refl _)
  unfold finish_report consistency_check
  simp only [hx]
  rfl

/-- C5 (amended): in file-sink mode, for a transaction closed with result 0, without byte
range, not operator-terminated, with an MD5 list of the size of the URL list and a
captured body of at most 2^31 bytes (what the `int` offsets of `md5_compute` can
address), `finish_transaction` logs a full-file md5 error exactly when the lowercase
hexadecimal digest of the whole body differs from `md5[url_id]`; otherwise it reaches
the success report, whose line is printed unless quiet mode is on, and logs no error. -/
theorem full_file_md5_check (w : World) (o : Options) (inp : Inputs) (t : transaction_t)
    (truth u : String)
    (hsink : o.opt_no_checks = false) (hrange : t.byterange_end = 0)
    (hterm : 0 ≤ t.random_terminate_time) (hmd5 : inp.md5.length = inp.url.length)
    (htruth : index inp.md5 t.url_id = .ok truth) (hurl : index inp.url t.url_id = .ok u)
    (hsize : t.outfile.length ≤ 2147483648) :
    ∃ lines keep, finish_report w o inp t 0 = .ok (lines, keep)
      ∧ (lines.any LogLine.isFullFileMd5Error = true ↔ hexString (w.md t.outfile) ≠ truth)
      ∧ (hexString (w.md t.outfile) ≠ truth →
          lines = [LogLine.full_file_md5_error u truth (hexString (w.md t.outfile))
            t.outfile.length t.outfile_name])
      ∧ (hexString (w.md t.outfile) = truth →
          lines = if o.opt_quiet then [] else [LogLine.success u t.outfile.length]) := by
  have hx := md5_compute_body w.md t.outfile hsize
  have hsucc := success_report_eq o inp t u hurl
  have hfirst : t.byterange_end = 0 ∧ 0 ≤ t.random_terminate_time
      ∧ inp.md5.length = inp.url.length := ⟨hrange, hterm, hmd5⟩
  by_cases hd : hexString (w.md t.outfile) = truth
  · refine ⟨if o.opt_quiet then [] else [LogLine.success u t.outfile.length], true, ?_, ?_, ?_, ?_⟩
    · unfold finish_report consistency_check
      simp only [hsink, hx, htruth, hurl, hsucc, bind, Except.bind, pure, Except.pure]
      simp [hfirst, hd, hrange]
    · cases o.opt_quiet <;> simp [hd, LogLine.isFullFileMd5Error]
    · intro h; exact absurd hd h
    · intro _; rfl
  · refine ⟨[LogLine.full_file_md5_error u truth (hexString (w.md t.outfile))
      t.outfile.length t.outfile_name], true, ?_, ?_, ?_, ?_⟩
    · unfold finish_report consistency_check
      simp only [hsink, hx, htruth, hurl, hsucc, bind, Except.bind, pure, Except.pure]
      simp [hfirst, hd]
    · simp [hd, LogLine.isFullFileMd5Error]
    · intro _; rfl
    · intro h; exact absurd h hd

/-- Witness for C5 (amended): the body `[1, 2, 3]` against its own digest text. -/
theorem full_file_md5_check_witness :
    ∃ lines keep, finish_report ex_world ex_options ex_inputs ex_t 0 = .ok (lines, keep)
      ∧ (lines.any LogLine.isFullFileMd5Error = true
          ↔ hexString (ex_world.md ex_t.outfile) ≠ "06060606060606060606060606060606")
      ∧ (hexString (ex_world.md ex_t.outfile) ≠ "06060606060606060606060606060606" →
          lines = [LogLine.full_file_md5_error "http://x/a" "06060606060606060606060606060606"
            (hexString (ex_world.md ex_t.outfile)) ex_t.outfile.length ex_t.outfile_name])
      ∧ (hexString (ex_world.md ex_t.outfile) = "06060606060606060606060606060606" →
          lines = if ex_options.opt_quiet then [] else [LogLine.success "http://x/a"
            ex_t.outfile.length]) :=
  full_file_md5_check ex_world ex_options ex_inputs ex_t "06060606060606060606060606060606"
    "http://x/a" rfl rfl (by decide) rfl rfl rfl (by decide)

/-- The window of a range inside the file has exactly `end - start + 1` bytes. -/
theorem window_length (file : List Byte) (s e : Int) (hs : 0 ≤ s) (hse : s ≤ e)
    (he : e ≤ (file.length : Int) - 1) : ((window file s e).length : Int) = e - s + 1 := by
  unfold window
  rw [List.length_take, List.length_drop]
  omega

/-- C6: for a local reference file `L`, a planned range `0 <= s < e <= |L| - 1` (with
`e` and the range length `e - s + 1` in the range of `int`) and a captured body equal to the bytes `L[s..e]`, the digest text the verifier computes over
the body equals the one it computes over the reference window, and `finish_transaction`
(file-sink mode, result 0, not terminated, local list loaded) reports neither a
byte-range md5 error nor a size mismatch: it reaches the success report. -/
theorem byte_range_round_trip (w : World) (o : Options) (inp : Inputs) (t : transaction_t)
    (L : List Byte) (name u : String) (s e : Int)
    (hs : 0 ≤ s) (hse : s < e) (heL : e ≤ (L.length : Int) - 1) (heint : e ≤ 2147483647)
    (hlenint : e - s + 1 ≤ 2147483647) (hbody : t.outfile = window L s e) (hstart : t.byterange_start = s)
    (hend : t.byterange_end = e)
    (hsink : o.opt_no_checks = false) (hterm : 0 ≤ t.random_terminate_time)
    (hlocal : inp.local_list.length = inp.url.length)
    (hname : index inp.local_list t.url_id = .ok name) (hfs : w.fs name = some L)
    (hurl : index inp.url t.url_id = .ok u) :
    md5_compute w.md t.outfile 0 (wrap32 ((t.outfile.length : Int) - 1)) ""
      = md5_compute w.md L s e ""
    ∧ finish_report w o inp t 0
      = .ok (if o.opt_quiet then [] else [LogLine.success_range u s e t.outfile.length], true)
    ∧ ∀ lines keep, finish_report w o inp t 0 = .ok (lines, keep) →
        lines.any LogLine.isByteRangeMd5Error = false ∧ lines.any LogLine.isSizeMismatch = false := by
  have hlen := window_length L s e hs (le_of_lt hse) heL
  rw [← hbody] at hlen
  have hx := md5_compute_body w.md t.outfile (by omega)
  have hl := md5_compute_eq w.md L s e "" hs (le_of_lt hse) heint
  have heq : md5_compute w.md t.outfile 0 (wrap32 ((t.outfile.length : Int) - 1)) ""
      = md5_compute w.md L s e "" := by
    rw [hx, hl]
    unfold md5_of_window
    rw [← hbody]
    simp
  have hsucc := success_report_eq o inp t u hurl
  have hrange : t.byterange_end ≠ 0 := by omega
  have hfirst : ¬ (t.byterange_end = 0 ∧ 0 ≤ t.random_terminate_time
      ∧ inp.md5.length = inp.url.length) := fun h => hrange h.1
  have hrl : range_length t = e - s + 1 := by
    unfold range_length
    rw [hstart, hend]
    exact wrap32_of_range (by omega) (by omega)
  have hngt : ¬ ((t.outfile.length : Int) > range_length t) := by omega
  have hrep : finish_report w o inp t 0
      = .ok (if o.opt_quiet then [] else [LogLine.success_range u s e t.outfile.length], true) := by
    unfold finish_report consistency_check
    rw [← hstart, ← hend] at heq ⊢
    simp only [hsink, heq, hname, hfs, hurl, hsucc, bind, Except.bind, pure, Except.pure]
    rw [← hstart, ← hend] at hl
    simp only [hl, hngt]
    simp [hfirst, hrange, hterm, hlocal]
  refine ⟨heq, hrep, ?_⟩
  intro lines keep h
  rw [hrep] at h
  injection h with h
  injection h with h1 _
  subst h1
  cases o.opt_quiet <;> simp [LogLine.isByteRangeMd5Error, LogLine.isSizeMismatch]

/-- Witness for C6: the range 1-4 of the six-byte reference file. -/
theorem byte_range_round_trip_witness :
    md5_compute ex_world_local.md ex_t_exact.outfile 0
        (wrap32 ((ex_t_exact.outfile.length : Int) - 1)) ""
      = md5_compute ex_world_local.md [1, 2, 3, 4, 5, 6] 1 4 ""
    ∧ finish_report ex_world_local ex_options ex_inputs_local ex_t_exact 0
      = .ok (if ex_options.opt_quiet then []
          else [LogLine.success_range "http://x/a" 1 4 ex_t_exact.outfile.length], true) :=
  have h := byte_range_round_trip ex_world_local ex_options ex_inputs_local ex_t_exact
    [1, 2, 3, 4, 5, 6] "/ref/a" "http://x/a" 1 4 (by decide) (by decide) (by decide) (by decide)
    (by decide) rfl rfl rfl rfl (by decide) rfl rfl rfl rfl
  ⟨h.1, h.2.1⟩

/-! ## The engine loop -/

theorem setup_transaction_curl (w : World) (o : Options) (inp : Inputs) (handle draws : Nat)
    (t t1 : transaction_t) (d1 : Nat)
    (h : setup_transaction w o inp handle draws t = .ok (t1, d1)) :
    t1.curl = handle ∧ t1.url_id = t.url_id ∧ t1.currently_throttling = t.currently_throttling := by
  unfold setup_transaction at h
  split at h
  · exact absurd h (by simp)
  · split at h
    · exact absurd h (by simp)
    · injection h with h
      injection h with h1 _
      subst h1
      exact ⟨rfl, rfl, rfl⟩

/-- A refill pass appends exactly one transaction, with the next easy handle. -/
theorem refill_one_T (w : World) (o : Options) (inp : Inputs) (s s1 : State)
    (h : refill_one w o inp s = .ok s1) :
    ∃ t, s1.T = s.T ++ [t] ∧ t.curl = s.handles + 1 := by
  unfold refill_one at h
  split at h
  · exact absurd h (by simp)
  · split at h
    · exact absurd h (by simp)
    · split at h
      · exact absurd h (by simp)
      · split at h
        · exact absurd h (by simp)
        · rename_i t draws5 hsetup
          split at h
          · exact absurd h (by simp)
          · injection h with h
            subst h
            exact ⟨t, rfl, (setup_transaction_curl _ _ _ _ _ _ _ _ hsetup).1⟩

theorem refill_loop_length (w : World) (o : Options) (inp : Inputs) :
    ∀ (n : Nat) (s s1 : State), toU32 o.opt_connections - s.T.length ≤ n →
      s.T.length ≤ toU32 o.opt_connections →
      refill_loop w o inp n s = .ok s1 → s1.T.length = toU32 o.opt_connections := by
  intro n
  induction n with
  | zero =>
    intro s s1 hn hle h
    unfold refill_loop at h
    injection h with h
    subst h
    omega
  | succ n ih =>
    intro s s1 hn hle h
    unfold refill_loop at h
    split at h
    · rename_i hlt
      split at h
      · rename_i s2 hone
        obtain ⟨t, hT, _⟩ := refill_one_T w o inp s s2 hone
        have hlen : s2.T.length = s.T.length + 1 := by rw [hT]; simp
        exact ih s2 s1 (by omega) (by omega) h
      · exact absurd h (by simp)
    · injection h with h
      subst h
      omega

/-- After the refill loop the loop test is false: the list holds exactly
`(unsigned int)opt_connections` transactions, if it held no more before. -/
theorem refill_length (w : World) (o : Options) (inp : Inputs) (s s1 : State)
    (hle : s.T.length ≤ toU32 o.opt_connections) (h : refill w o inp s = .ok s1) :
    s1.T.length = toU32 o.opt_connections :=
  refill_loop_length w o inp _ s s1 (le_refl _) hle h

theorem finish_transaction_handles (w : World) (o : Options) (inp : Inputs) (s s1 : State)
    (handle : Nat) (result : Int) (h : finish_transaction w o inp s handle result = .ok s1) :
    s1.T = s.T.eraseP (fun t => t.curl == handle) := by
  unfold finish_transaction at h
  split at h
  · split at h
    · exact absurd h (by simp)
    · split at h
      · exact absurd h (by simp)
      · split at h
        · exact absurd h (by simp)
        · injection h with h
          subst h
          rfl
  · exact absurd h (by simp)

theorem map_update_curl (T : List transaction_t) (h : Nat) (f : transaction_t → transaction_t)
    (hf : ∀ t, t.curl = h → (f t).curl = h) :
    (T.map (fun x => if x.curl = h then f x else x)).map (fun t => t.curl)
      = T.map (fun t => t.curl) := by
  rw [List.map_map]
  apply List.map_congr_left
  intro x _
  simp only [Function.comp]
  split
  · rename_i hx; rw [hf x hx, hx]
  · rfl

theorem finish_transaction_sublist (w : World) (o : Options) (inp : Inputs) (s s1 : State)
    (handle : Nat) (result : Int) (h : finish_transaction w o inp s handle result = .ok s1) :
    (live_handles s1).Sublist (live_handles s) := by
  unfold live_handles
  rw [finish_transaction_handles w o inp s s1 handle result h]
  exact (List.eraseP_sublist _).map _

theorem receive_handles (o : Options) (s : State) (h : Nat) (data : List Byte) :
    live_handles (receive o s h data) = live_handles s := by
  unfold receive live_handles
  split
  · split
    · exact map_update_curl s.T h (fun t => { t with bytes_sent := t.bytes_sent + data.length })
        (fun t ht => ht)
    · exact map_update_curl s.T h (fun t => { t with outfile := t.outfile ++ data })
        (fun t ht => ht)
  · rfl

theorem perform_handles (o : Options) (received : List (Nat × List Byte)) (s : State) :
    live_handles (perform o received s) = live_handles s := by
  unfold perform
  induction received generalizing s with
  | nil => rfl
  | cons p ps ih =>
    rw [List.foldl_cons, ih, receive_handles]

theorem drain_sublist (w : World) (o : Options) (inp : Inputs) :
    ∀ (done : List (Nat × Int)) (s s1 : State), drain w o inp done s = .ok s1 →
      (live_handles s1).Sublist (live_handles s) := by
  intro done
  induction done with
  | nil =>
    intro s s1 h
    unfold drain at h
    injection h with h
    subst h
    exact List.Sublist.refl _
  | cons m ms ih =>
    intro s s1 h
    obtain ⟨hd, r⟩ := m
    unfold drain at h
    split at h
    · rename_i s2 hfin
      exact (ih _ s1 h).trans (finish_transaction_sublist w o inp s s2 hd r hfin)
    · exact absurd h (by simp)

theorem throttle_step_curl (o : Options) (now : Int) (multi multi1 : List Nat)
    (t t1 : transaction_t) (h : throttle_step o now multi t = .ok (multi1, t1)) :
    t1.curl = t.curl := by
  unfold throttle_step at h
  simp only at h
  generalize (if (!o.opt_no_checks) = true then t.outfile.length else t.bytes_sent) = bs at h
  split at h
  · split at h
    · injection h with h; injection h with _ h; subst h; rfl
    · exact absurd h (by simp)
  · split at h
    · split at h
      · injection h with h; injection h with _ h; subst h; rfl
      · exact absurd h (by simp)
    · injection h with h; injection h with _ h; subst h; rfl

theorem simulate_visit_sublist (w : World) (o : Options) (inp : Inputs) (now : Int)
    (s s1 : State) (t : transaction_t) (k : Nat)
    (h : simulate_visit w o inp now s t = .ok (s1, k)) :
    (live_handles s1).Sublist (live_handles s) := by
  unfold simulate_visit at h
  split at h
  · split at h
    · exact absurd h (by simp)
    · split at h
      · rename_i s2 hfin
        injection h with h
        injection h with h _
        subst h
        have := finish_transaction_sublist _ _ _ _ _ _ _ hfin
        unfold live_handles at this ⊢
        simp only at this ⊢
        rw [map_update_curl s.T t.curl (fun _ => { t with random_terminate_time := -1 })
          (fun _ _ => rfl)] at this
        exact this
      · exact absurd h (by simp)
  · split at h
    · split at h
      · rename_i multi t1 hstep
        injection h with h
        injection h with h _
        subst h
        unfold live_handles
        simp only
        rw [map_update_curl s.T t.curl (fun _ => t1)
          (fun _ _ => throttle_step_curl _ _ _ _ _ _ hstep)]
      · exact absurd h (by simp)
    · injection h with h
      injection h with h _
      subst h
      exact List.Sublist.refl _

theorem simulate_loop_sublist (w : World) (o : Options) (inp : Inputs) (now : Int) :
    ∀ (ts : List transaction_t) (s s1 : State) (n k : Nat),
      simulate_loop w o inp now ts s n = .ok (s1, k) →
      (live_handles s1).Sublist (live_handles s) := by
  intro ts
  induction ts with
  | nil =>
    intro s s1 n k h
    unfold simulate_loop at h
    injection h with h
    injection h with h _
    subst h
    exact List.Sublist.refl _
  | cons t ts ih =>
    intro s s1 n k h
    unfold simulate_loop at h
    split at h
    · rename_i s2 k2 hv
      exact (ih _ _ _ _ h).trans (simulate_visit_sublist _ _ _ _ _ _ _ _ hv)
    · exact absurd h (by simp)

theorem simulate_sublist (w : World) (o : Options) (inp : Inputs) (now : Int)
    (s s1 : State) (k : Nat) (h : simulate w o inp now s = .ok (s1, k)) :
    (live_handles s1).Sublist (live_handles s) := by
  unfold simulate at h
  split at h
  · exact simulate_loop_sublist _ _ _ _ _ _ _ _ _ h
  · injection h with h
    injection h with h _
    subst h
    exact List.Sublist.refl _

theorem status_tick_handles (o : Options) (now : Int) (n k : Nat) (s : State) :
    live_handles (status_tick o now n k s) = live_handles s := by
  unfold status_tick live_handles
  split <;> rfl

/-- Poll, drain, simulate and status only ever remove transactions. -/
theorem after_refill_sublist (w : World) (o : Options) (inp : Inputs) (ev : Events)
    (s s1 : State) (h : after_refill w o inp ev s = .ok s1) :
    (live_handles s1).Sublist (live_handles s) := by
  unfold after_refill at h
  split at h
  · split at h
    · injection h with h; subst h; exact List.Sublist.refl _
    · exact absurd h (by simp)
  · split at h
    · exact absurd h (by simp)
    · rename_i s2 hdrain
      split at h
      · exact absurd h (by simp)
      · rename_i s3 k hsim
        injection h with h
        subst h
        rw [status_tick_handles]
        have h1 := drain_sublist _ _ _ _ _ _ hdrain
        rw [perform_handles] at h1
        have h2 := simulate_sublist _ _ _ _ _ _ _ hsim
        exact h2.trans h1

theorem toU32_of_range {x : Int} (h0 : 0 ≤ x) (h1 : x ≤ 2147483647) : toU32 x = x.toNat := by
  unfold toU32
  rw [Int.emod_eq_of_lt h0 (by omega)]

theorem engine_iteration_length (w : World) (o : Options) (inp : Inputs) (ev : Events)
    (s s1 : State) (hle : s.T.length ≤ toU32 o.opt_connections)
    (h : engine_iteration w o inp ev s = .ok s1) : s1.T.length ≤ toU32 o.opt_connections := by
  unfold engine_iteration at h
  split at h
  · rename_i s2 hre
    have h1 := refill_length w o inp s s2 hle hre
    have h2 := (after_refill_sublist w o inp ev s2 s1 h).length_le
    unfold live_handles at h2
    simp only [List.length_map] at h2
    omega
  · exact absurd h (by simp)

theorem run_length (w : World) (o : Options) (inp : Inputs) :
    ∀ (evs : List Events) (s s1 : State), s.T.length ≤ toU32 o.opt_connections →
      run w o inp evs s = .ok s1 → s1.T.length ≤ toU32 o.opt_connections := by
  intro evs
  induction evs with
  | nil =>
    intro s s1 hle h
    unfold run at h
    injection h with h
    subst h
    exact hle
  | cons ev evs ih =>
    intro s s1 hle h
    unfold run at h
    split at h
    · rename_i s2 hit
      exact ih s2 s1 (engine_iteration_length w o inp ev s s2 hle hit) h
    · exact absurd h (by simp)

/-- C8: for every `max_concurrent >= 0` (an `int`), every world and every sequence of
transport events, a state the engine loop reaches from the empty live set at an
iteration boundary holds at most `max_concurrent` transactions; the refill that
follows leaves exactly `max_concurrent`; and the rest of the iteration (poll, drain,
simulate, status) only removes transactions: the handles left are a sublist of those
before. -/
theorem engine_concurrency_invariant (w : World) (o : Options) (inp : Inputs)
    (hmax : 0 ≤ o.opt_connections) (hint : o.opt_connections ≤ 2147483647)
    (evs : List Events) (s : State) (hrun : run w o inp evs initial_state = .ok s) :
    s.T.length ≤ o.opt_connections.toNat
    ∧ (∀ s1, refill w o inp s = .ok s1 → s1.T.length = o.opt_connections.toNat)
    ∧ (∀ ev s1 s2, refill w o inp s = .ok s1 → after_refill w o inp ev s1 = .ok s2 →
        (live_handles s2).Sublist (live_handles s1)) := by
  have hu := toU32_of_range hmax hint
  have hlen : s.T.length ≤ toU32 o.opt_connections :=
    run_length w o inp evs initial_state s (Nat.zero_le _) hrun
  refine ⟨by rw [← hu]; exact hlen, ?_, ?_⟩
  · intro s1 h1
    rw [← hu]
    exact refill_length w o inp s s1 hlen h1
  · intro ev s1 s2 _ h2
    exact after_refill_sublist w o inp ev s1 s2 h2

/-- Witness for C8: two connections, one URL, two iterations of which the first
closes the transfer on handle 1. -/
theorem engine_concurrency_invariant_witness :
    ((0 : Int) ≤ ex_options_two.opt_connections ∧ ex_options_two.opt_connections ≤ 2147483647)
    ∧ ∃ s, run ex_world ex_options_two ex_inputs_plain ex_events initial_state = .ok s
      ∧ live_handles s = [2, 3]
      ∧ s.T.length ≤ ex_options_two.opt_connections.toNat := by
  have h : ∃ s, run ex_world ex_options_two ex_inputs_plain ex_events initial_state = .ok s
      ∧ live_handles s = [2, 3] := ⟨_, rfl, rfl⟩
  obtain ⟨s, hs, hl⟩ := h
  exact ⟨by decide, s, hs, hl,
    (engine_concurrency_invariant ex_world ex_options_two ex_inputs_plain (by decide) (by decide)
      ex_events s hs).1⟩

/-! ## Throttling -/

/-- C10 (counterexample): with `-e 0` and a zero Weibull term the planner samples the
deadline 0 (two draws taken); a transaction with that deadline is still live after the
simulate step at `now - start = 5 > 0`, with simulation enabled. -/
theorem zero_deadline_never_fires :
    (ex_t_deadline 0).random_terminate_time < (((5 : Int) - (ex_t_deadline 0).start : Int) : ℚ)
    ∧ (0 < ex_options_sim.opt_term_prob ∨ 0 < ex_options_sim.opt_throttle_prob)
    ∧ pick_terminate ex_world ex_options_sim 0 = (0, 2)
    ∧ (simulate ex_world ex_options_sim ex_inputs_plain 5 (ex_state_deadline 0)).toOption.map
        (fun r => live_handles r.1) = some [1] := by
  refine ⟨by norm_num [ex_t_deadline, transaction_t.ctor], Or.inl (by norm_num [ex_options_sim, ex_options]), ?_, ?_⟩
  · norm_num [pick_terminate, ex_options_sim, ex_options, drand48, ex_world]
  · rfl

/-! ## Consistency of the engine state -/

theorem find_of_nodup (T : List transaction_t) (t : transaction_t)
    (hn : (T.map (fun t => t.curl)).Nodup) (ht : t ∈ T) :
    T.find? (fun x => x.curl == t.curl) = some t := by
  induction T with
  | nil => exact absurd ht (List.not_mem_nil t)
  | cons x xs ih =>
    rw [List.map_cons, List.nodup_cons] at hn
    by_cases hx : x.curl = t.curl
    · have hxt : t = x := by
        rcases List.mem_cons.mp ht with h | h
        · exact h
        · exact absurd (List.mem_map.mpr ⟨t, h, hx.symm⟩) hn.1
      subst hxt
      simp
    · have hmem : t ∈ xs := by
        rcases List.mem_cons.mp ht with h | h
        · exact absurd (by rw [h]) hx
        · exact h
      rw [List.find?_cons_of_neg _ (by simpa using hx)]
      exact ih hn.2 hmem

theorem eraseP_handles (T : List transaction_t) (h : Nat) :
    (T.eraseP (fun x => x.curl == h)).map (fun t => t.curl)
      = (T.map (fun t => t.curl)).erase h := by
  induction T with
  | nil => rfl
  | cons x xs ih =>
    by_cases hx : x.curl = h
    · rw [List.eraseP_cons_of_pos (by simpa using hx), List.map_cons, hx, List.erase_cons_head]
    · rw [List.eraseP_cons_of_neg (by simpa using hx), List.map_cons, List.map_cons,
        List.erase_cons_tail (by simpa using hx), ih]

theorem mem_eraseP_handle (T : List transaction_t) (h : Nat) (t : transaction_t)
    (hn : (T.map (fun t => t.curl)).Nodup) :
    t ∈ T.eraseP (fun x => x.curl == h) ↔ t ∈ T ∧ t.curl ≠ h := by
  constructor
  · intro ht
    refine ⟨List.mem_of_mem_eraseP ht, ?_⟩
    have h1 : t.curl ∈ (T.eraseP (fun x => x.curl == h)).map (fun t => t.curl) :=
      List.mem_map.mpr ⟨t, ht, rfl⟩
    rw [eraseP_handles] at h1
    exact ((List.Nodup.mem_erase_iff hn).mp h1).1
  · intro ⟨ht, hne⟩
    exact (List.mem_eraseP_of_neg (by simpa using hne)).mpr ht

/-- Closing a live transaction of a consistent state succeeds whenever its report
does, erases exactly that transaction and keeps the state consistent. -/
theorem finish_transaction_ok (w : World) (o : Options) (inp : Inputs) (s : State)
    (t : transaction_t) (result : Int) (lines : List LogLine) (keep : Bool)
    (hc : Consistent inp s) (ht : t ∈ s.T)
    (hrep : finish_report w o inp t result = .ok (lines, keep)) :
    ∃ s1, finish_transaction w o inp s t.curl result = .ok s1
      ∧ Consistent inp s1
      ∧ live_handles s1 = (live_handles s).erase t.curl
      ∧ s1.T = s.T.eraseP (fun x => x.curl == t.curl)
      ∧ s1.log = s.log ++ lines
      ∧ s1.tmpfiles = (if !keep then s.tmpfiles.erase t.outfile_name else s.tmpfiles) := by
  obtain ⟨hnd, hmnd, hcnd, hcl, hlc, hml, hflag, hurl⟩ := hc
  have hin : t.curl ∈ s.curl_to_T := hlc _ (List.mem_map.mpr ⟨t, ht, rfl⟩)
  have hfind := find_of_nodup s.T t hnd ht
  have hrm : ∃ multi1, (if !t.currently_throttling then curl_multi_remove_handle s.multi t.curl
      else .ok s.multi) = .ok multi1
      ∧ multi1.Nodup ∧ (∀ h, h ∈ multi1 ↔ h ∈ s.multi ∧ h ≠ t.curl) := by
    cases hct : t.currently_throttling
    · have hm : t.curl ∈ s.multi := (hflag t ht).mpr hct
      refine ⟨s.multi.erase t.curl, by simp [curl_multi_remove_handle, hm], hmnd.erase _, ?_⟩
      intro h
      rw [List.Nodup.mem_erase_iff hmnd]
      exact and_comm
    · have hm : t.curl ∉ s.multi := fun hm => by
        have := (hflag t ht).mp hm; rw [hct] at this; exact absurd this (by simp)
      refine ⟨s.multi, by simp, hmnd, ?_⟩
      intro h
      exact ⟨fun hh => ⟨hh, fun e => hm (e ▸ hh)⟩, fun hh => hh.1⟩
  obtain ⟨multi1, hrm1, hrm2, hrm3⟩ := hrm
  refine ⟨{ s with
      T := s.T.eraseP (fun x => x.curl == t.curl)
      curl_to_T := s.curl_to_T.erase t.curl
      multi := multi1
      tmpfiles := if !keep then s.tmpfiles.erase t.outfile_name else s.tmpfiles
      log := s.log ++ lines }, ?_, ?_, ?_, rfl, rfl, rfl⟩
  · unfold finish_transaction
    rw [if_pos hin, hfind]
    simp only [hrm1, hrep]
  · have hlive : live_handles { s with
        T := s.T.eraseP (fun x => x.curl == t.curl)
        curl_to_T := s.curl_to_T.erase t.curl
        multi := multi1
        tmpfiles := if !keep then s.tmpfiles.erase t.outfile_name else s.tmpfiles
        log := s.log ++ lines } = (live_handles s).erase t.curl := eraseP_handles s.T t.curl
    refine ⟨?_, hrm2, hcnd.erase _, ?_, ?_, ?_, ?_, ?_⟩
    · rw [hlive]; exact hnd.erase _
    · intro h hh
      rw [hlive, List.Nodup.mem_erase_iff hnd]
      have := (List.Nodup.mem_erase_iff hcnd).mp hh
      exact ⟨this.1, hcl h this.2⟩
    · intro h hh
      rw [hlive, List.Nodup.mem_erase_iff hnd] at hh
      exact (List.Nodup.mem_erase_iff hcnd).mpr ⟨hh.1, hlc h hh.2⟩
    · intro h hh
      rw [hlive, List.Nodup.mem_erase_iff hnd]
      have := (hrm3 h).mp hh
      exact ⟨this.2, hml h this.1⟩
    · intro t' ht'
      have := (mem_eraseP_handle s.T t.curl t' hnd).mp ht'
      rw [show ({ s with
        T := s.T.eraseP (fun x => x.curl == t.curl)
        curl_to_T := s.curl_to_T.erase t.curl
        multi := multi1
        tmpfiles := if !keep then s.tmpfiles.erase t.outfile_name else s.tmpfiles
        log := s.log ++ lines } : State).multi = multi1 from rfl, hrm3]
      rw [← hflag t' this.1]
      exact ⟨fun h => h.1, fun h => ⟨h, this.2⟩⟩
    · intro t' ht'
      exact hurl t' ((mem_eraseP_handle s.T t.curl t' hnd).mp ht').1
  · exact eraseP_handles s.T t.curl

/-- Replacing a live transaction in place by one with the same handle and `url_id`
keeps the state consistent, if the multi handle follows its throttling flag. -/
theorem update_consistent (inp : Inputs) (s s1 : State) (t t1 : transaction_t)
    (hc : Consistent inp s) (ht : t ∈ s.T)
    (hcurl : t1.curl = t.curl) (hid : t1.url_id = t.url_id)
    (hT : s1.T = s.T.map (fun x => if x.curl = t.curl then t1 else x))
    (hC : s1.curl_to_T = s.curl_to_T)
    (hnd : s1.multi.Nodup)
    (hself : t.curl ∈ s1.multi ↔ t1.currently_throttling = false)
    (hother : ∀ h, h ≠ t.curl → (h ∈ s1.multi ↔ h ∈ s.multi)) :
    Consistent inp s1 := by
  obtain ⟨hnd0, _, hcnd, hcl, hlc, hml, hflag, hurl⟩ := hc
  have hlive : live_handles s1 = live_handles s := by
    unfold live_handles
    rw [hT]
    exact map_update_curl s.T t.curl (fun _ => t1) (fun _ _ => hcurl)
  have htlive : t.curl ∈ live_handles s := List.mem_map.mpr ⟨t, ht, rfl⟩
  refine ⟨by rw [hlive]; exact hnd0, hnd, by rw [hC]; exact hcnd, ?_, ?_, ?_, ?_, ?_⟩
  · intro h hh; rw [hlive]; rw [hC] at hh; exact hcl h hh
  · intro h hh; rw [hlive] at hh; rw [hC]; exact hlc h hh
  · intro h hh
    rw [hlive]
    by_cases he : h = t.curl
    · rw [he]; exact htlive
    · exact hml h ((hother h he).mp hh)
  · intro t' ht'
    rw [hT] at ht'
    obtain ⟨x, hx, rfl⟩ := List.mem_map.mp ht'
    by_cases he : x.curl = t.curl
    · rw [if_pos he, hcurl]; exact hself
    · rw [if_neg he, hother _ he]; exact hflag x hx
  · intro t' ht'
    rw [hT] at ht'
    obtain ⟨x, hx, rfl⟩ := List.mem_map.mp ht'
    by_cases he : x.curl = t.curl
    · rw [if_pos he, hid]; exact hurl t ht
    · rw [if_neg he]; exact hurl x hx

theorem mem_update_self (T : List transaction_t) (t t1 : transaction_t) (ht : t ∈ T) :
    t1 ∈ T.map (fun x => if x.curl = t.curl then t1 else x) :=
  List.mem_map.mpr ⟨t, ht, by simp⟩

theorem mem_update_other (T : List transaction_t) (h : Nat) (t1 t' : transaction_t)
    (ht : t' ∈ T) (hne : t'.curl ≠ h) :
    t' ∈ T.map (fun x => if x.curl = h then t1 else x) :=
  List.mem_map.mpr ⟨t', ht, by simp [hne]⟩

theorem index_ok {α : Type} (v : List α) (i : Int) (h0 : 0 ≤ i) (h1 : i < v.length) :
    ∃ x, index v i = .ok x := by
  unfold index
  rw [if_pos h0]
  have hlt : i.toNat < v.length := by omega
  rw [List.get?_eq_get hlt]
  exact ⟨_, rfl⟩

/-- The report for an operator-terminated transaction closed with result 0: no
verification, only the success line unless quiet. -/
theorem finish_report_terminated (w : World) (o : Options) (inp : Inputs) (t : transaction_t)
    (hterm : t.random_terminate_time < 0)
    (hid : 0 ≤ t.url_id ∧ t.url_id < inp.url.length) :
    ∃ lines keep, finish_report w o inp t 0 = .ok (lines, keep)
      ∧ ∀ l ∈ lines, l.isSuccess = true := by
  obtain ⟨u, hu⟩ := index_ok inp.url t.url_id hid.1 hid.2
  have hsucc := success_report_eq o inp t u hu
  have h1 : ¬ (t.byterange_end = 0 ∧ 0 ≤ t.random_terminate_time
      ∧ inp.md5.length = inp.url.length) := fun h => absurd h.2.1 (not_le.mpr hterm)
  have h2 : ¬ (t.byterange_end ≠ 0 ∧ 0 ≤ t.random_terminate_time
      ∧ inp.local_list.length = inp.url.length) := fun h => absurd h.2.1 (not_le.mpr hterm)
  unfold finish_report
  rw [if_neg (by simp)]
  cases hnc : o.opt_no_checks
  · simp only [consistency_check, h1, h2, if_false, hsucc, bind, Except.bind, pure, Except.pure,
      Bool.not_false, if_true]
    refine ⟨_, _, rfl, ?_⟩
    intro l hl
    cases hq : o.opt_quiet <;> rw [hq] at hl
    · by_cases hb : t.byterange_end = 0 <;> simp [hb] at hl <;> subst hl <;> rfl
    · simp at hl
  · exact ⟨[], false, rfl, fun l hl => absurd hl (List.not_mem_nil l)⟩

theorem throttle_step_ok (o : Options) (now : Int) (multi : List Nat) (t : transaction_t)
    (hmulti : t.curl ∈ multi ↔ t.currently_throttling = false) (hnd : multi.Nodup) :
    ∃ multi1 t1, throttle_step o now multi t = .ok (multi1, t1)
      ∧ t1.curl = t.curl ∧ t1.url_id = t.url_id ∧ multi1.Nodup
      ∧ (t.curl ∈ multi1 ↔ t1.currently_throttling = false)
      ∧ (∀ h, h ≠ t.curl → (h ∈ multi1 ↔ h ∈ multi)) := by
  unfold throttle_step
  simp only
  generalize (if (!o.opt_no_checks) = true then t.outfile.length else t.bytes_sent) = bs
  cases hct : t.currently_throttling
  · have hin : t.curl ∈ multi := hmulti.mpr hct
    by_cases hfast : Bps_gt bs (now - t.start) t.throttle_bytes_per_sec = true
    · refine ⟨multi.erase t.curl, { t with bytes_sent := bs, currently_throttling := true },
        by simp [hfast, curl_multi_remove_handle, hin], rfl, rfl, hnd.erase _, ?_, ?_⟩
      · simp only [Bool.true_eq_false, iff_false]
        exact fun h => ((List.Nodup.mem_erase_iff hnd).mp h).1 rfl
      · intro h hne
        rw [List.Nodup.mem_erase_iff hnd]
        exact ⟨fun h => h.2, fun h => ⟨hne, h⟩⟩
    · refine ⟨multi, { t with bytes_sent := bs, currently_throttling := false },
        by simp [hfast, hct], rfl, rfl, hnd, ?_, fun _ _ => Iff.rfl⟩
      simp only [iff_true]; exact hin
  · have hnin : t.curl ∉ multi := fun h => by
      have := hmulti.mp h; rw [hct] at this; exact absurd this (by simp)
    by_cases hslow : Bps_le bs (now - t.start) t.throttle_bytes_per_sec = true
    · refine ⟨multi ++ [t.curl], { t with bytes_sent := bs, currently_throttling := false },
        by simp [hslow, curl_multi_add_handle, hnin], rfl, rfl, ?_, ?_, ?_⟩
      · rw [List.nodup_append]
        refine ⟨hnd, List.nodup_singleton _, ?_⟩
        intro a ha hb
        rw [List.mem_singleton] at hb
        exact hnin (hb ▸ ha)
      · simp
      · intro h hne
        simp [hne]
    · refine ⟨multi, { t with bytes_sent := bs, currently_throttling := true },
        by simp [hslow, hct], rfl, rfl, hnd, ?_, fun _ _ => Iff.rfl⟩
      simp only [Bool.true_eq_false, iff_false]; exact hnin

/-- In a consistent state the visit of a live transaction succeeds and keeps the
state consistent; a transaction whose deadline has passed is no longer live. -/
theorem simulate_visit_ok (w : World) (o : Options) (inp : Inputs) (now : Int) (s : State)
    (t : transaction_t) (hc : Consistent inp s) (ht : t ∈ s.T) :
    ∃ s1 k, simulate_visit w o inp now s t = .ok (s1, k) ∧ Consistent inp s1
      ∧ (deadline_passed now t = true → t.curl ∉ live_handles s1)
      ∧ (∀ t' ∈ s.T, t'.curl ≠ t.curl → t' ∈ s1.T) := by
  have hc0 := hc
  obtain ⟨hnd, hmnd, hcnd, hcl, hlc, hml, hflag, hurl⟩ := hc
  unfold simulate_visit
  cases hdue : deadline_passed now t
  · simp only [Bool.false_eq_true, if_false]
    by_cases hr : t.throttle_bytes_per_sec = 0
    · simp only [hr, ne_eq, not_true_eq_false, if_false]
      exact ⟨s, 0, rfl, hc0, fun h => absurd h (by simp), fun t' ht' _ => ht'⟩
    · simp only [hr, ne_eq, not_false_eq_true, if_true]
      obtain ⟨multi1, t1, hstep, h1, h2, h3, h4, h5⟩ :=
        throttle_step_ok o now s.multi t (hflag t ht) hmnd
      rw [hstep]
      refine ⟨_, _, rfl, ?_, fun h => absurd h (by simp), ?_⟩
      · exact update_consistent inp s _ t t1 hc0 ht h1 h2 rfl rfl h3 h4 h5
      · intro t' ht' hne
        exact mem_update_other s.T t.curl t1 t' ht' hne
  · simp only [if_true]
    obtain ⟨u, hu⟩ := index_ok inp.url t.url_id (hurl t ht).1 (hurl t ht).2
    have hlines : ∃ lines, (if !o.opt_quiet then
        match index inp.url t.url_id with
        | .ok u => .ok [LogLine.terminating u (now - t.start)]
        | .error e => .error e
      else .ok [] : Except Fault (List LogLine)) = .ok lines := by
      rw [hu]; cases o.opt_quiet <;> exact ⟨_, rfl⟩
    obtain ⟨lines, hlines⟩ := hlines
    rw [hlines]
    simp only
    -- the marked state is consistent and holds the marked transaction
    have hmarked : Consistent inp { s with
        T := s.T.map (fun x =>
          if x.curl = t.curl then { t with random_terminate_time := -1 } else x)
        log := s.log ++ lines } :=
      update_consistent inp s _ t { t with random_terminate_time := -1 } hc0 ht rfl rfl rfl rfl
        hmnd (hflag t ht) (fun _ _ => Iff.rfl)
    have hmem : ({ t with random_terminate_time := -1 } : transaction_t) ∈
        ({ s with
          T := s.T.map (fun x =>
            if x.curl = t.curl then { t with random_terminate_time := -1 } else x)
          log := s.log ++ lines } : State).T :=
      mem_update_self s.T t _ ht
    obtain ⟨rl, keep, hrep, _⟩ := finish_report_terminated w o inp
      { t with random_terminate_time := -1 } (by norm_num) (hurl t ht)
    obtain ⟨s2, hfin, hc2, hlive2, hT2, _, _⟩ :=
      finish_transaction_ok w o inp _ _ 0 rl keep hmarked hmem hrep
    simp only at hfin
    rw [hfin]
    refine ⟨_, _, rfl, hc2, ?_, ?_⟩
    · intro _
      show t.curl ∉ live_handles s2
      rw [hlive2]
      exact fun h => ((List.Nodup.mem_erase_iff hmarked.1).mp h).1 rfl
    · intro t' ht' hne
      show t' ∈ s2.T
      rw [hT2]
      exact (mem_eraseP_handle _ t.curl t' hmarked.1).mpr
        ⟨mem_update_other s.T t.curl _ t' ht' hne, hne⟩

theorem simulate_loop_ok (w : World) (o : Options) (inp : Inputs) (now : Int) :
    ∀ (ts : List transaction_t) (s : State) (n : Nat), Consistent inp s →
      (∀ t ∈ ts, t ∈ s.T) → (ts.map (fun t => t.curl)).Nodup →
      ∃ s1 k, simulate_loop w o inp now ts s n = .ok (s1, k) ∧ Consistent inp s1
        ∧ ∀ t ∈ ts, deadline_passed now t = true → t.curl ∉ live_handles s1 := by
  intro ts
  induction ts with
  | nil =>
    intro s n hc _ _
    exact ⟨s, n, rfl, hc, fun t ht => absurd ht (List.not_mem_nil t)⟩
  | cons t ts ih =>
    intro s n hc hmem hnd
    rw [List.map_cons, List.nodup_cons] at hnd
    obtain ⟨s1, k, hv, hc1, hgone, hkeep⟩ :=
      simulate_visit_ok w o inp now s t hc (hmem t (List.mem_cons_self t ts))
    have hmem1 : ∀ t' ∈ ts, t' ∈ s1.T := by
      intro t' ht'
      refine hkeep t' (hmem t' (List.mem_cons_of_mem t ht')) ?_
      intro he
      exact hnd.1 (List.mem_map.mpr ⟨t', ht', he⟩)
    obtain ⟨s2, k2, hl, hc2, hgone2⟩ := ih s1 (n + k) hc1 hmem1 hnd.2
    refine ⟨s2, k2, ?_, hc2, ?_⟩
    · unfold simulate_loop
      rw [hv]
      exact hl
    · intro t' ht' hdue
      rcases List.mem_cons.mp ht' with h | h
      · subst h
        have hsub := simulate_loop_sublist w o inp now ts s1 s2 (n + k) k2 hl
        exact fun hin => hgone hdue (hsub.subset hin)
      · exact hgone2 t' h hdue

/-- C10 (amended): with simulation enabled, in a consistent engine state, for every
live transaction whose deadline `D` is positive: if `now - start > D` at the simulate
step, its visit sets the sentinel `-1` and calls the finish path with result 0, the
whole step succeeds, and afterwards the transaction is neither in `T` nor in
`curl_to_T` nor in the multi handle. -/
theorem deadline_terminates (w : World) (o : Options) (inp : Inputs) (now : Int) (s : State)
    (t : transaction_t) (hc : Consistent inp s)
    (hsim : 0 < o.opt_term_prob ∨ 0 < o.opt_throttle_prob) (ht : t ∈ s.T)
    (hD : 0 < t.random_terminate_time)
    (hdue : t.random_terminate_time < ((now - t.start : Int) : ℚ)) :
    (∃ u, index inp.url t.url_id = .ok u ∧ ∀ s0 : State,
      simulate_visit w o inp now s0 t
        = match finish_transaction w o inp
            { s0 with
              T := s0.T.map (fun x =>
                if x.curl = t.curl then { t with random_terminate_time := -1 } else x)
              log := s0.log ++ (if o.opt_quiet then []
                else [LogLine.terminating u (now - t.start)]) } t.curl 0 with
          | .ok s2 => .ok ({ s2 with done_since_last := s2.done_since_last + 1 }, 0)
          | .error e => .error e)
    ∧ ∃ s1 k, simulate w o inp now s = .ok (s1, k) ∧ Consistent inp s1
        ∧ t.curl ∉ live_handles s1 ∧ t.curl ∉ s1.curl_to_T ∧ t.curl ∉ s1.multi := by
  have hpassed : deadline_passed now t = true := by
    unfold deadline_passed
    exact decide_eq_true ⟨ne_of_gt hD, hdue⟩
  have hid := hc.2.2.2.2.2.2.2 t ht
  obtain ⟨u, hu⟩ := index_ok inp.url t.url_id hid.1 hid.2
  constructor
  · refine ⟨u, hu, ?_⟩
    intro s0
    unfold simulate_visit
    rw [hpassed, hu]
    cases o.opt_quiet <;> rfl
  · obtain ⟨s1, k, hl, hc1, hgone⟩ :=
      simulate_loop_ok w o inp now s.T s 0 hc (fun _ h => h) hc.1
    refine ⟨s1, k, ?_, hc1, hgone t ht hpassed, ?_, ?_⟩
    · unfold simulate
      rw [if_pos hsim]
      exact hl
    · exact fun h => hgone t ht hpassed (hc1.2.2.2.1 _ h)
    · exact fun h => hgone t ht hpassed (hc1.2.2.2.2.2.1 _ h)

theorem ex_state_deadline_consistent : Consistent ex_inputs_plain (ex_state_deadline 2) := by
  unfold Consistent live_handles ex_state_deadline ex_t_deadline initial_state ex_inputs_plain
  simp [transaction_t.ctor]

/-- Witness for C10 (amended): a deadline of 2 seconds checked 5 seconds after the
start. -/
theorem deadline_terminates_witness :
    ((0 : ℚ) < (ex_t_deadline 2).random_terminate_time
      ∧ (ex_t_deadline 2).random_terminate_time < (((5 : Int) - (ex_t_deadline 2).start : Int) : ℚ))
    ∧ ∃ s1 k, simulate ex_world ex_options_sim ex_inputs_plain 5 (ex_state_deadline 2) = .ok (s1, k)
        ∧ Consistent ex_inputs_plain s1
        ∧ (ex_t_deadline 2).curl ∉ live_handles s1 ∧ (ex_t_deadline 2).curl ∉ s1.curl_to_T
        ∧ (ex_t_deadline 2).curl ∉ s1.multi :=
  have h1 : (0 : ℚ) < (ex_t_deadline 2).random_terminate_time := by
    norm_num [ex_t_deadline]
  have h2 : (ex_t_deadline 2).random_terminate_time
      < (((5 : Int) - (ex_t_deadline 2).start : Int) : ℚ) := by
    norm_num [ex_t_deadline, transaction_t.ctor]
  ⟨⟨h1, h2⟩,
   (deadline_terminates ex_world ex_options_sim ex_inputs_plain 5 (ex_state_deadline 2)
      (ex_t_deadline 2) ex_state_deadline_consistent
      (Or.inl (by norm_num [ex_options_sim, ex_options]))
      (List.mem_singleton.mpr rfl) h1 h2).2⟩

/-! ## Consistency of every reachable state -/

theorem index_ok_range {α : Type} (v : List α) (i : Int) (x : α) (h : index v i = .ok x) :
    0 ≤ i ∧ i < v.length := by
  unfold index at h
  split at h
  · rename_i h0
    split at h
    · rename_i y hy
      have := List.get?_eq_some.mp hy
      obtain ⟨hlt, _⟩ := this
      exact ⟨h0, by omega⟩
    · exact absurd h (by simp)
  · exact absurd h (by simp)

theorem setup_transaction_url (w : World) (o : Options) (inp : Inputs) (handle draws : Nat)
    (t t1 : transaction_t) (d1 : Nat)
    (h : setup_transaction w o inp handle draws t = .ok (t1, d1)) :
    0 ≤ t.url_id ∧ t.url_id < inp.url.length := by
  unfold setup_transaction at h
  split at h
  · exact absurd h (by simp)
  · rename_i text sz dr hgen
    unfold generate_url at hgen
    simp only [bind, Except.bind] at hgen
    split at hgen
    · exact absurd hgen (by simp)
    · rename_i path hpath
      exact index_ok_range _ _ _ hpath

/-- What a refill pass does to the live set. -/
theorem refill_one_shape (w : World) (o : Options) (inp : Inputs) (s s1 : State)
    (h : refill_one w o inp s = .ok s1) :
    ∃ t, s1.T = s.T ++ [t] ∧ t.curl = s.handles + 1 ∧ t.currently_throttling = false
      ∧ (0 ≤ t.url_id ∧ t.url_id < (inp.url.length : Int))
      ∧ t.curl ∉ s.multi ∧ s1.multi = s.multi ++ [t.curl]
      ∧ s1.curl_to_T = t.curl :: s.curl_to_T.erase t.curl
      ∧ s1.handles = s.handles + 1 := by
  unfold refill_one at h
  split at h
  · exact absurd h (by simp)
  · split at h
    · exact absurd h (by simp)
    · split at h
      · exact absurd h (by simp)
      · split at h
        · exact absurd h (by simp)
        · rename_i t draws5 hsetup
          split at h
          · exact absurd h (by simp)
          · rename_i multi hadd
            injection h with h
            subst h
            obtain ⟨hc, hu, hf⟩ := setup_transaction_curl _ _ _ _ _ _ _ _ hsetup
            have hurl := setup_transaction_url _ _ _ _ _ _ _ _ hsetup
            unfold curl_multi_add_handle at hadd
            split at hadd
            · exact absurd hadd (by simp)
            · rename_i hnin
              injection hadd with hadd
              subst hadd
              refine ⟨t, rfl, hc, ?_, ?_, hnin, rfl, rfl, rfl⟩
              · rw [hf]; rfl
              · rw [hu]; exact hurl

theorem refill_one_consistent (w : World) (o : Options) (inp : Inputs) (s s1 : State)
    (hc : Consistent inp s) (hb : handles_bounded s)
    (h : refill_one w o inp s = .ok s1) : Consistent inp s1 ∧ handles_bounded s1 := by
  obtain ⟨t, hT, hcurl, hflag1, hurl1, hnin, hM, hC, hH⟩ := refill_one_shape w o inp s s1 h
  obtain ⟨hnd, hmnd, hcnd, hcl, hlc, hml, hflag, hurl⟩ := hc
  have hlive : live_handles s1 = live_handles s ++ [t.curl] := by
    unfold live_handles; rw [hT, List.map_append]; rfl
  have hfresh : t.curl ∉ live_handles s := by
    intro hin
    have := hb _ hin
    omega
  have hfreshC : t.curl ∉ s.curl_to_T := fun hin => hfresh (hcl _ hin)
  have hC' : s1.curl_to_T = t.curl :: s.curl_to_T := by
    rw [hC, List.erase_of_not_mem hfreshC]
  constructor
  · refine ⟨?_, ?_, ?_, ?_, ?_, ?_, ?_, ?_⟩
    · rw [hlive, List.nodup_append]
      refine ⟨hnd, List.nodup_singleton _, ?_⟩
      intro a ha hb'
      rw [List.mem_singleton] at hb'
      exact hfresh (hb' ▸ ha)
    · rw [hM, List.nodup_append]
      refine ⟨hmnd, List.nodup_singleton _, ?_⟩
      intro a ha hb'
      rw [List.mem_singleton] at hb'
      exact hnin (hb' ▸ ha)
    · rw [hC', List.nodup_cons]
      exact ⟨hfreshC, hcnd⟩
    · intro h hh
      rw [hC'] at hh
      rw [hlive, List.mem_append, List.mem_singleton]
      rcases List.mem_cons.mp hh with e | e
      · exact Or.inr e
      · exact Or.inl (hcl h e)
    · intro h hh
      rw [hlive, List.mem_append, List.mem_singleton] at hh
      rw [hC']
      rcases hh with e | e
      · exact List.mem_cons_of_mem _ (hlc h e)
      · rw [e]; exact List.mem_cons_self _ _
    · intro h hh
      rw [hM, List.mem_append, List.mem_singleton] at hh
      rw [hlive, List.mem_append, List.mem_singleton]
      rcases hh with e | e
      · exact Or.inl (hml h e)
      · exact Or.inr e
    · intro t' ht'
      rw [hT, List.mem_append, List.mem_singleton] at ht'
      rw [hM, List.mem_append, List.mem_singleton]
      rcases ht' with e | e
      · rw [← hflag t' e]
        constructor
        · intro h
          rcases h with h | h
          · exact h
          · exact absurd (List.mem_map.mpr ⟨t', e, h⟩) hfresh
        · exact Or.inl
      · subst e
        exact ⟨fun _ => hflag1, fun _ => Or.inr rfl⟩
    · intro t' ht'
      rw [hT, List.mem_append, List.mem_singleton] at ht'
      rcases ht' with e | e
      · exact hurl t' e
      · subst e; exact hurl1
  · intro h hh
    rw [hlive, List.mem_append, List.mem_singleton] at hh
    rw [hH]
    rcases hh with e | e
    · have := hb h e; omega
    · omega

theorem refill_loop_consistent (w : World) (o : Options) (inp : Inputs) :
    ∀ (n : Nat) (s s1 : State), Consistent inp s → handles_bounded s →
      refill_loop w o inp n s = .ok s1 → Consistent inp s1 ∧ handles_bounded s1 := by
  intro n
  induction n with
  | zero =>
    intro s s1 hc hb h
    unfold refill_loop at h
    injection h with h
    subst h
    exact ⟨hc, hb⟩
  | succ n ih =>
    intro s s1 hc hb h
    unfold refill_loop at h
    split at h
    · split at h
      · rename_i s2 hone
        obtain ⟨hc2, hb2⟩ := refill_one_consistent w o inp s s2 hc hb hone
        exact ih s2 s1 hc2 hb2 h
      · exact absurd h (by simp)
    · injection h with h
      subst h
      exact ⟨hc, hb⟩

/-- A state that differs only in fields other than `T`, `curl_to_T` and the multi
handle, or whose transactions keep handle, `url_id` and throttling flag, is as
consistent as the one it comes from. -/
theorem map_consistent (inp : Inputs) (s s1 : State) (f : transaction_t → transaction_t)
    (hc : Consistent inp s) (hT : s1.T = s.T.map f) (hM : s1.multi = s.multi)
    (hC : s1.curl_to_T = s.curl_to_T)
    (hf : ∀ t, (f t).curl = t.curl ∧ (f t).url_id = t.url_id
      ∧ (f t).currently_throttling = t.currently_throttling) :
    Consistent inp s1 ∧ live_handles s1 = live_handles s := by
  have hlive : live_handles s1 = live_handles s := by
    unfold live_handles
    rw [hT, List.map_map]
    apply List.map_congr_left
    intro x _
    exact (hf x).1
  obtain ⟨hnd, hmnd, hcnd, hcl, hlc, hml, hflag, hurl⟩ := hc
  refine ⟨⟨by rw [hlive]; exact hnd, by rw [hM]; exact hmnd, by rw [hC]; exact hcnd,
    ?_, ?_, ?_, ?_, ?_⟩, hlive⟩
  · intro h hh; rw [hlive]; rw [hC] at hh; exact hcl h hh
  · intro h hh; rw [hC]; rw [hlive] at hh; exact hlc h hh
  · intro h hh; rw [hlive]; rw [hM] at hh; exact hml h hh
  · intro t' ht'
    rw [hT] at ht'
    obtain ⟨x, hx, rfl⟩ := List.mem_map.mp ht'
    rw [hM, (hf x).1, (hf x).2.2]
    exact hflag x hx
  · intro t' ht'
    rw [hT] at ht'
    obtain ⟨x, hx, rfl⟩ := List.mem_map.mp ht'
    rw [(hf x).2.1]
    exact hurl x hx

theorem receive_consistent (o : Options) (inp : Inputs) (s : State) (h : Nat)
    (data : List Byte) (hc : Consistent inp s) :
    Consistent inp (receive o s h data) ∧ (receive o s h data).handles = s.handles := by
  unfold receive
  split
  · split
    · have hf : ∀ t : transaction_t,
          (if t.curl = h then { t with bytes_sent := t.bytes_sent + data.length } else t).curl
            = t.curl
          ∧ (if t.curl = h then { t with bytes_sent := t.bytes_sent + data.length } else t).url_id
            = t.url_id
          ∧ (if t.curl = h then { t with bytes_sent := t.bytes_sent + data.length }
              else t).currently_throttling = t.currently_throttling := by
        intro t; split <;> exact ⟨rfl, rfl, rfl⟩
      exact ⟨(map_consistent inp s
        { s with
          T := s.T.map (fun t =>
            if t.curl = h then { t with bytes_sent := t.bytes_sent + data.length } else t)
          bytes_since_last := s.bytes_since_last + data.length }
        _ hc rfl rfl rfl hf).1, rfl⟩
    · have hf : ∀ t : transaction_t,
          (if t.curl = h then { t with outfile := t.outfile ++ data } else t).curl = t.curl
          ∧ (if t.curl = h then { t with outfile := t.outfile ++ data } else t).url_id
            = t.url_id
          ∧ (if t.curl = h then { t with outfile := t.outfile ++ data }
              else t).currently_throttling = t.currently_throttling := by
        intro t; split <;> exact ⟨rfl, rfl, rfl⟩
      exact ⟨(map_consistent inp s
        { s with
          T := s.T.map (fun t =>
            if t.curl = h then { t with outfile := t.outfile ++ data } else t) }
        _ hc rfl rfl rfl hf).1, rfl⟩
  · exact ⟨hc, rfl⟩

theorem perform_consistent (o : Options) (inp : Inputs) (received : List (Nat × List Byte))
    (s : State) (hc : Consistent inp s) :
    Consistent inp (perform o received s) ∧ (perform o received s).handles = s.handles := by
  unfold perform
  induction received generalizing s with
  | nil => exact ⟨hc, rfl⟩
  | cons p ps ih =>
    rw [List.foldl_cons]
    obtain ⟨h1, h2⟩ := receive_consistent o inp s p.1 p.2 hc
    obtain ⟨h3, h4⟩ := ih _ h1
    exact ⟨h3, h4.trans h2⟩

theorem mem_of_find {T : List transaction_t} {h : Nat} {t : transaction_t}
    (hf : T.find? (fun x => x.curl == h) = some t) : t ∈ T ∧ t.curl = h := by
  refine ⟨List.mem_of_find?_eq_some hf, ?_⟩
  have := List.find?_some hf
  simpa using this

theorem finish_transaction_consistent (w : World) (o : Options) (inp : Inputs) (s s1 : State)
    (handle : Nat) (result : Int) (hc : Consistent inp s)
    (h : finish_transaction w o inp s handle result = .ok s1) :
    Consistent inp s1 ∧ s1.handles = s.handles := by
  have h0 := h
  unfold finish_transaction at h
  split at h
  · split at h
    · exact absurd h (by simp)
    · rename_i t hfind
      obtain ⟨ht, hcurl⟩ := mem_of_find hfind
      split at h
      · exact absurd h (by simp)
      · split at h
        · exact absurd h (by simp)
        · rename_i lines keep hrep
          injection h with h
          obtain ⟨s2, hfin, hc2, _⟩ := finish_transaction_ok w o inp s t result lines keep hc ht hrep
          rw [hcurl, h0] at hfin
          injection hfin with hfin
          subst hfin
          exact ⟨hc2, by rw [← h]⟩
  · exact absurd h (by simp)

theorem drain_consistent (w : World) (o : Options) (inp : Inputs) :
    ∀ (done : List (Nat × Int)) (s s1 : State), Consistent inp s →
      drain w o inp done s = .ok s1 → Consistent inp s1 ∧ s1.handles = s.handles := by
  intro done
  induction done with
  | nil =>
    intro s s1 hc h
    unfold drain at h
    injection h with h
    subst h
    exact ⟨hc, rfl⟩
  | cons m ms ih =>
    intro s s1 hc h
    obtain ⟨hd, r⟩ := m
    unfold drain at h
    split at h
    · rename_i s2 hfin
      obtain ⟨hc2, hh2⟩ := finish_transaction_consistent w o inp s s2 hd r hc hfin
      obtain ⟨hc3, hh3⟩ := ih { s2 with done_since_last := s2.done_since_last + 1 } s1 hc2 h
      exact ⟨hc3, hh3.trans hh2⟩
    · exact absurd h (by simp)

theorem simulate_visit_counter (w : World) (o : Options) (inp : Inputs) (now : Int)
    (s s1 : State) (t : transaction_t) (k : Nat)
    (h : simulate_visit w o inp now s t = .ok (s1, k)) : s1.handles = s.handles := by
  unfold simulate_visit at h
  split at h
  · split at h
    · exact absurd h (by simp)
    · split at h
      · rename_i s2 hfin
        injection h with h
        injection h with h _
        subst h
        unfold finish_transaction at hfin
        split at hfin
        · split at hfin
          · exact absurd hfin (by simp)
          · split at hfin
            · exact absurd hfin (by simp)
            · split at hfin
              · exact absurd hfin (by simp)
              · injection hfin with hfin
                subst hfin
                rfl
        · exact absurd hfin (by simp)
      · exact absurd h (by simp)
  · split at h
    · split at h
      · injection h with h
        injection h with h _
        subst h
        rfl
      · exact absurd h (by simp)
    · injection h with h
      injection h with h _
      subst h
      rfl

theorem simulate_loop_counter (w : World) (o : Options) (inp : Inputs) (now : Int) :
    ∀ (ts : List transaction_t) (s s1 : State) (n k : Nat), Consistent inp s →
      (∀ t ∈ ts, t ∈ s.T) → (ts.map (fun t => t.curl)).Nodup →
      simulate_loop w o inp now ts s n = .ok (s1, k) →
      Consistent inp s1 ∧ s1.handles = s.handles := by
  intro ts
  induction ts with
  | nil =>
    intro s s1 n k hc _ _ h
    unfold simulate_loop at h
    injection h with h
    injection h with h _
    subst h
    exact ⟨hc, rfl⟩
  | cons t ts ih =>
    intro s s1 n k hc hmem hnd h
    rw [List.map_cons, List.nodup_cons] at hnd
    obtain ⟨s2, k2, hv, hc2, _, hkeep⟩ :=
      simulate_visit_ok w o inp now s t hc (hmem t (List.mem_cons_self t ts))
    have hcount := simulate_visit_counter w o inp now s s2 t k2 hv
    unfold simulate_loop at h
    rw [hv] at h
    simp only at h
    have hmem2 : ∀ t' ∈ ts, t' ∈ s2.T := by
      intro t' ht'
      refine hkeep t' (hmem t' (List.mem_cons_of_mem t ht')) ?_
      intro he
      exact hnd.1 (List.mem_map.mpr ⟨t', ht', he⟩)
    obtain ⟨hc3, hh3⟩ := ih s2 s1 (n + k2) k hc2 hmem2 hnd.2 h
    exact ⟨hc3, hh3.trans hcount⟩

theorem simulate_consistent (w : World) (o : Options) (inp : Inputs) (now : Int)
    (s s1 : State) (k : Nat) (hc : Consistent inp s)
    (h : simulate w o inp now s = .ok (s1, k)) :
    Consistent inp s1 ∧ s1.handles = s.handles := by
  unfold simulate at h
  split at h
  · exact simulate_loop_counter w o inp now s.T s s1 0 k hc (fun _ h => h) hc.1 h
  · injection h with h
    injection h with h _
    subst h
    exact ⟨hc, rfl⟩

theorem status_tick_consistent (o : Options) (inp : Inputs) (now : Int) (n k : Nat)
    (s : State) (hc : Consistent inp s) :
    Consistent inp (status_tick o now n k s) ∧ (status_tick o now n k s).handles = s.handles := by
  unfold status_tick
  split
  · exact ⟨hc, rfl⟩
  · exact ⟨hc, rfl⟩

theorem after_refill_consistent (w : World) (o : Options) (inp : Inputs) (ev : Events)
    (s s1 : State) (hc : Consistent inp s) (hb : handles_bounded s)
    (h : after_refill w o inp ev s = .ok s1) : Consistent inp s1 ∧ handles_bounded s1 := by
  have hsub := after_refill_sublist w o inp ev s s1 h
  unfold after_refill at h
  split at h
  · split at h
    · injection h with h; subst h; exact ⟨hc, hb⟩
    · exact absurd h (by simp)
  · split at h
    · exact absurd h (by simp)
    · rename_i s2 hdrain
      split at h
      · exact absurd h (by simp)
      · rename_i s3 k hsim
        injection h with h
        obtain ⟨hp1, hp2⟩ := perform_consistent o inp ev.received s hc
        obtain ⟨hd1, hd2⟩ := drain_consistent w o inp ev.done _ s2 hp1 hdrain
        obtain ⟨hs1, hs2⟩ := simulate_consistent w o inp _ { s2 with ticks := s2.ticks + 1 } s3 k hd1 hsim
        obtain ⟨ht1, ht2⟩ := status_tick_consistent o inp (w.clock s2.ticks) s.T.length k s3 hs1
        rw [h] at ht1 ht2
        refine ⟨ht1, ?_⟩
        intro hd hh
        have := hb hd (hsub.subset hh)
        have e : s1.handles = s.handles := by
          rw [ht2, hs2]
          exact hd2.trans hp2
        omega

theorem engine_iteration_consistent (w : World) (o : Options) (inp : Inputs) (ev : Events)
    (s s1 : State) (hc : Consistent inp s) (hb : handles_bounded s)
    (h : engine_iteration w o inp ev s = .ok s1) : Consistent inp s1 ∧ handles_bounded s1 := by
  unfold engine_iteration at h
  split at h
  · rename_i s2 hre
    obtain ⟨hc2, hb2⟩ := refill_loop_consistent w o inp _ s s2 hc hb hre
    exact after_refill_consistent w o inp ev s2 s1 hc2 hb2 h
  · exact absurd h (by simp)

theorem initial_state_consistent (inp : Inputs) :
    Consistent inp initial_state ∧ handles_bounded initial_state := by
  unfold Consistent handles_bounded live_handles initial_state
  simp

/-- Every state the engine loop reaches from the initial state is consistent. -/
theorem run_consistent (w : World) (o : Options) (inp : Inputs) :
    ∀ (evs : List Events) (s s1 : State), Consistent inp s → handles_bounded s →
      run w o inp evs s = .ok s1 → Consistent inp s1 ∧ handles_bounded s1 := by
  intro evs
  induction evs with
  | nil =>
    intro s s1 hc hb h
    unfold run at h
    injection h with h
    subst h
    exact ⟨hc, hb⟩
  | cons ev evs ih =>
    intro s s1 hc hb h
    unfold run at h
    split at h
    · rename_i s2 hit
      obtain ⟨hc2, hb2⟩ := engine_iteration_consistent w o inp ev s s2 hc hb hit
      exact ih s2 s1 hc2 hb2 h
    · exact absurd h (by simp)

/-! ## Reading the input files -/

theorem fgets_take_line (k : Nat) (l rest : List Char) (hnl : newline ∉ l) (hk : l.length < k) :
    fgets_take k (l ++ newline :: rest) = (l ++ [newline], rest) := by
  induction l generalizing k with
  | nil =>
    obtain ⟨k, rfl⟩ : ∃ j, k = j + 1 := ⟨k - 1, by simp at hk; omega⟩
    simp [fgets_take]
  | cons c cs ih =>
    obtain ⟨k, rfl⟩ : ∃ j, k = j + 1 := ⟨k - 1, by simp at hk; omega⟩
    have hc : c ≠ newline := fun h => hnl (h ▸ List.mem_cons_self _ _)
    have hcs : newline ∉ cs := fun h => hnl (List.mem_cons_of_mem _ h)
    rw [List.cons_append, fgets_take, if_neg hc, ih k hcs (by simpa using hk)]
    try rfl

theorem fgets_take_full (k : Nat) (l s : List Char) (hnl : newline ∉ l) (hk : l.length = k) :
    fgets_take k (l ++ s) = (l, s) := by
  induction l generalizing k with
  | nil =>
    simp at hk
    subst hk
    simp [fgets_take]
  | cons c cs ih =>
    obtain ⟨k, rfl⟩ : ∃ j, k = j + 1 := ⟨k - 1, by simp at hk; omega⟩
    have hc : c ≠ newline := fun h => hnl (h ▸ List.mem_cons_self _ _)
    have hcs : newline ∉ cs := fun h => hnl (List.mem_cons_of_mem _ h)
    rw [List.cons_append, fgets_take, if_neg hc, ih k hcs (by simpa using hk)]
    try rfl

theorem fgets_take_eof (k : Nat) (l : List Char) (hnl : newline ∉ l) (hk : l.length ≤ k) :
    fgets_take k l = (l, []) := by
  induction l generalizing k with
  | nil => cases k <;> rfl
  | cons c cs ih =>
    obtain ⟨k, rfl⟩ : ∃ j, k = j + 1 := ⟨k - 1, by simp at hk; omega⟩
    have hc : c ≠ newline := fun h => hnl (h ▸ List.mem_cons_self _ _)
    have hcs : newline ∉ cs := fun h => hnl (List.mem_cons_of_mem _ h)
    simp only [fgets_take, if_neg hc]
    rw [ih k hcs (by simpa using hk)]

theorem chomp_clean (l : List Char) (hnl : newline ∉ l) (hnul : nul ∉ l) : chomp l = l := by
  unfold chomp
  rw [List.takeWhile_eq_self_iff]
  intro c hc
  have h1 : c ≠ newline := fun h => hnl (h ▸ hc)
  have h2 : c ≠ nul := fun h => hnul (h ▸ hc)
  simp [h1, h2]

theorem chomp_line (l : List Char) (hnl : newline ∉ l) (hnul : nul ∉ l) :
    chomp (l ++ [newline]) = l := by
  unfold chomp
  rw [List.takeWhile_append_of_pos]
  · simp
  · intro c hc
    have h1 : c ≠ newline := fun h => hnl (h ▸ hc)
    have h2 : c ≠ nul := fun h => hnul (h ▸ hc)
    simp [h1, h2]

/-- A text with a newline is a first line, the newline, and the rest. -/
theorem split_first_newline (s : List Char) (h : newline ∈ s) :
    ∃ l rest, s = l ++ newline :: rest ∧ newline ∉ l := by
  induction s with
  | nil => exact absurd h (List.not_mem_nil _)
  | cons c cs ih =>
    by_cases hc : c = newline
    · exact ⟨[], cs, by rw [hc]; rfl, List.not_mem_nil _⟩
    · have hcs : newline ∈ cs := by
        rcases List.mem_cons.mp h with e | e
        · exact absurd e.symm hc
        · exact e
      obtain ⟨l, rest, hs, hl⟩ := ih hcs
      refine ⟨c :: l, rest, by rw [hs]; rfl, ?_⟩
      intro hm
      rcases List.mem_cons.mp hm with e | e
      · exact hc e.symm
      · exact hl e

theorem splitOn_first (l rest : List Char) (hnl : newline ∉ l) :
    (l ++ newline :: rest).splitOn newline = l :: rest.splitOn newline := by
  unfold List.splitOn
  apply List.splitOnP_first
  · intro x hx hp
    have : x = newline := by simpa using hp
    exact hnl (this ▸ hx)
  · simp

theorem splitOn_single (l : List Char) (hnl : newline ∉ l) : l.splitOn newline = [l] := by
  unfold List.splitOn
  apply List.splitOnP_eq_single
  intro x hx hp
  have : x = newline := by simpa using hp
  exact hnl (this ▸ hx)

theorem nonempty_lines_first (l rest : List Char) (hnl : newline ∉ l) :
    nonempty_lines (l ++ newline :: rest)
      = (if l ≠ [] then [String.mk l] else []) ++ nonempty_lines rest := by
  unfold nonempty_lines
  rw [splitOn_first l rest hnl]
  by_cases hl : l = []
  · simp [hl]
  · simp [hl]

theorem nonempty_lines_single (l : List Char) (hnl : newline ∉ l) :
    nonempty_lines l = if l ≠ [] then [String.mk l] else [] := by
  unfold nonempty_lines
  rw [splitOn_single l hnl]
  by_cases hl : l = []
  · simp [hl]
  · simp [hl]

theorem read_lines_eq :
    ∀ (fuel : Nat) (content : List Char) (lines : List String), content.length ≤ fuel →
      nul ∉ content → (∀ l ∈ content.splitOn newline, l.length ≤ 1023) →
      read_lines fuel content lines = lines ++ nonempty_lines content := by
  intro fuel
  induction fuel with
  | zero =>
    intro content lines hf _ _
    have : content = [] := List.length_eq_zero.mp (by omega)
    subst this
    simp [read_lines, nonempty_lines]
  | succ fuel ih =>
    intro content lines hf hnul hlen
    by_cases hempty : content = []
    · subst hempty
      simp [read_lines, fgets, nonempty_lines]
    · rw [read_lines]
      unfold fgets
      rw [if_neg hempty]
      by_cases hnl : newline ∈ content
      · obtain ⟨l, rest, hs, hl⟩ := split_first_newline content hnl
        subst hs
        have hlnul : nul ∉ l := fun h => hnul (List.mem_append_left _ h)
        have hrnul : nul ∉ rest := fun h =>
          hnul (List.mem_append_right _ (List.mem_cons_of_mem _ h))
        have hsplit := splitOn_first l rest hl
        have hl1023 : l.length ≤ 1023 := hlen l (by rw [hsplit]; exact List.mem_cons_self _ _)
        have hrest : ∀ x ∈ rest.splitOn newline, x.length ≤ 1023 := fun x hx =>
          hlen x (by rw [hsplit]; exact List.mem_cons_of_mem _ hx)
        have hflen : rest.length + l.length + 1 ≤ fuel + 1 := by
          simp only [List.length_append, List.length_cons] at hf; omega
        by_cases hfull : l.length = 1023
        · -- the buffer is full before the newline
          rw [show (1024 - 1) = 1023 from rfl, fgets_take_full 1023 l _ hl hfull]
          simp only
          rw [chomp_clean l hl hlnul]
          have hlne : l ≠ [] := fun h => by rw [h] at hfull; simp at hfull
          rw [if_pos (by omega)]
          rw [ih (newline :: rest) _ (by simp only [List.length_cons]; omega)
            (by
              intro h
              rcases List.mem_cons.mp h with e | e
              · exact absurd e (by decide)
              · exact hrnul e)
            (by
              intro x hx
              rw [show newline :: rest = [] ++ newline :: rest from rfl,
                splitOn_first [] rest (List.not_mem_nil _)] at hx
              rcases List.mem_cons.mp hx with e | e
              · rw [e]; simp
              · exact hrest x e)]
          rw [nonempty_lines_first l rest hl, if_pos hlne]
          rw [show newline :: rest = [] ++ newline :: rest from rfl,
            nonempty_lines_first [] rest (List.not_mem_nil _)]
          simp
        · rw [show (1024 - 1) = 1023 from rfl, fgets_take_line 1023 l rest hl (by omega)]
          simp only
          rw [chomp_line l hl hlnul, ih rest _ (by omega) hrnul hrest,
            nonempty_lines_first l rest hl]
          by_cases hlne : l = []
          · simp [hlne]
          · have : l.length ≠ 0 := fun h => hlne (List.length_eq_zero.mp h)
            simp [hlne, this]
      · have hsplit := splitOn_single content hnl
        have hl1023 : content.length ≤ 1023 :=
          hlen content (by rw [hsplit]; exact List.mem_singleton.mpr rfl)
        rw [show (1024 - 1) = 1023 from rfl, fgets_take_eof 1023 content hnl hl1023]
        simp only
        rw [chomp_clean content hnl hnul]
        have : content.length ≠ 0 := fun h => hempty (List.length_eq_zero.mp h)
        rw [if_pos this, nonempty_lines_single content hnl, if_pos hempty]
        cases fuel <;> simp [read_lines, fgets]

/-- C18: for every readable text file without NUL bytes whose lines have at most 1023
characters, `file_to_string_vector` returns 0 and appends to the vector exactly the
non-empty lines of the file, in file order, each without its newline (a last line
without newline included). -/
theorem file_to_string_vector_lines (content : List Char) (lines : List String)
    (hnul : nul ∉ content) (hlen : ∀ l ∈ content.splitOn newline, l.length ≤ 1023) :
    file_to_string_vector (some content) lines = (0, lines ++ nonempty_lines content) := by
  show (0, read_lines content.length content lines) = _
  rw [read_lines_eq content.length content lines (le_refl _) hnul hlen]

/-- Witness for C18: three lines, the second empty and the last without newline. -/
theorem file_to_string_vector_lines_witness :
    (nul ∉ "ab\n\ncd".data ∧ ∀ l ∈ "ab\n\ncd".data.splitOn newline, l.length ≤ 1023)
    ∧ file_to_string_vector (some "ab\n\ncd".data) ["x"] = (0, ["x"] ++ nonempty_lines "ab\n\ncd".data)
    ∧ nonempty_lines "ab\n\ncd".data = ["ab", "cd"] :=
  ⟨⟨by decide, by decide⟩,
   file_to_string_vector_lines "ab\n\ncd".data ["x"] (by decide) (by decide), by decide⟩

/-! ## Planning a transaction (lines 582-643) -/

theorem lrand48_range (w : World) (k : Nat) : 0 ≤ lrand48 w k ∧ lrand48 w k < 2147483648 := by
  unfold lrand48
  omega

theorem drand48_zero (w : World) (k : Nat) (h : w.rng k = 0) : drand48 w k = 0 := by
  unfold drand48
  rw [h]
  norm_num

theorem c_mod_pos (a b : Int) (ha : 0 ≤ a) (hb : 0 < b) : c_mod a b = .ok (a % b) := by
  unfold c_mod
  rw [if_neg (by omega), Int.tmod_eq_emod ha (by omega)]

theorem emod_le_of_nonneg (a b : Int) (ha : 0 ≤ a) (hb : 0 < b) : a % b ≤ a := by
  by_cases h : a < b
  · rw [Int.emod_eq_of_lt ha h]
  · have := Int.emod_lt_of_pos a hb
    omega

theorem index_zero {α : Type} (v : List α) (h : v ≠ []) : index v 0 = .ok (v.head h) := by
  cases v with
  | nil => exact absurd rfl h
  | cons x xs => rfl

/-- C12 (counterexample): with `--repeat-prob 1` and a first draw of 0, the first
transaction planned in a run is a repeat: its `url_id` is the initial value 0 of
`prev_url`, no random or sequential choice is made (`cur_url` stays 0) and the
'opting to repeat request' line is logged. -/
theorem first_transaction_is_repeat :
    pick_url ex_world ex_options_repeat ex_inputs initial_state.draws initial_state.cur_url
      initial_state.prev_url = .ok (0, 1, 0, 0, [LogLine.repeat_request "http://x/a"]) := by
  have h : ex_options_repeat.opt_repeat_prob ≠ 0
      ∧ drand48 ex_world initial_state.draws < ex_options_repeat.opt_repeat_prob := by
    rw [drand48_zero ex_world _ rfl]
    norm_num [ex_options_repeat]
  unfold pick_url
  rw [if_pos h]
  rfl

/-- C12 (amended): the first transaction planned in a run repeats exactly when the
repeat draw fires: then its `url_id` is 0, the initial value of `prev_url`, and the
'opting to repeat request' line is logged unless quiet; when the draw does not fire
(always so for `repeat_prob = 0`) its `url_id` comes from the random or the sequential
choice and no line is logged. -/
theorem first_transaction_plan (w : World) (o : Options) (inp : Inputs) (hurl : inp.url ≠ []) :
    (o.opt_repeat_prob ≠ 0 ∧ drand48 w 0 < o.opt_repeat_prob →
      pick_url w o inp initial_state.draws initial_state.cur_url initial_state.prev_url
        = .ok (0, 1, 0, 0,
            if o.opt_quiet then [] else [LogLine.repeat_request (inp.url.head hurl)]))
    ∧ (¬(o.opt_repeat_prob ≠ 0 ∧ drand48 w 0 < o.opt_repeat_prob) →
      (o.opt_random = true →
        pick_url w o inp initial_state.draws initial_state.cur_url initial_state.prev_url
          = .ok (lrand48 w (if o.opt_repeat_prob ≠ 0 then 1 else 0) % inp.url.length,
            (if o.opt_repeat_prob ≠ 0 then 1 else 0) + 1, 0,
            lrand48 w (if o.opt_repeat_prob ≠ 0 then 1 else 0) % inp.url.length, []))
      ∧ (o.opt_random = false →
        pick_url w o inp initial_state.draws initial_state.cur_url initial_state.prev_url
          = .ok (0, if o.opt_repeat_prob ≠ 0 then 1 else 0,
            if inp.url.length ≤ 1 then 0 else 1, 0, []))) := by
  have hlen : 0 < inp.url.length := List.length_pos.mpr hurl
  refine ⟨fun h => ?_, fun h => ⟨fun hr => ?_, fun hr => ?_⟩⟩
  · show pick_url w o inp 0 0 0 = _
    unfold pick_url
    rw [if_pos h, index_zero inp.url hurl]
    cases hq : o.opt_quiet <;> simp
  · show pick_url w o inp 0 0 0 = _
    unfold pick_url
    rw [if_neg h]
    simp only [hr, if_true, zero_add]
    have hr48 := lrand48_range w (if o.opt_repeat_prob ≠ 0 then 1 else 0)
    rw [c_mod_pos _ _ hr48.1 (by exact_mod_cast hlen)]
    have hle := emod_le_of_nonneg (lrand48 w (if o.opt_repeat_prob ≠ 0 then 1 else 0))
      inp.url.length hr48.1 (by exact_mod_cast hlen)
    have hnn : 0 ≤ lrand48 w (if o.opt_repeat_prob ≠ 0 then 1 else 0)
        % (inp.url.length : Int) := Int.emod_nonneg _ (by omega)
    show Except.ok (wrap32 _, _, _, wrap32 _, _) = _
    rw [wrap32_of_range (x := lrand48 w (if o.opt_repeat_prob ≠ 0 then 1 else 0)
      % (inp.url.length : Int)) (by omega) (by omega)]
  · show pick_url w o inp 0 0 0 = _
    unfold pick_url
    rw [if_neg h]
    simp only [hr, zero_add]
    have h1 : wrap32 1 = 1 := by decide
    have h2 : toU32 1 = 1 := by decide
    rw [h1, h2]
    by_cases hl : inp.url.length ≤ 1
    · simp [hl]
    · simp [hl]

theorem first_transaction_plan_witness :
    ex_inputs.url ≠ []
    ∧ pick_url ex_world_draws ex_options_repeat ex_inputs initial_state.draws
        initial_state.cur_url initial_state.prev_url
      = .ok (0, 1, 0, 0,
          if ex_options_repeat.opt_quiet then []
          else [LogLine.repeat_request (ex_inputs.url.head (by decide))]) :=
  ⟨by decide, (first_transaction_plan ex_world_draws ex_options_repeat ex_inputs (by decide)).1
    ⟨by norm_num [ex_options_repeat],
     by rw [drand48_zero ex_world_draws 0 rfl]; norm_num [ex_options_repeat]⟩⟩

theorem pick_byterange_wraps (w : World) (o : Options) (inp : Inputs) (name : String)
    (lf : List Byte) (h0 : o.opt_br_prob ≠ 0) (h1 : drand48 w 0 < o.opt_br_prob)
    (hidx : index inp.local_list 0 = .ok name) (hfs : w.fs name = some lf)
    (hlen : lf.length = 4294967296) (hl1 : lrand48 w (0 + 1) = 2147483646)
    (hl2 : lrand48 w (0 + 2) = 2147483647) :
    pick_byterange w o inp 0 0 = .ok (2147483646, -2, 3, []) := by
  unfold pick_byterange
  rw [if_pos h0, if_pos h1]
  simp only [hidx, hfs, hlen, hl1, hl2]
  have hw : wrap32 2147483646 = 2147483646 := by decide
  have hm1 : c_mod 2147483646 (((4294967296 : Nat) : Int) - 1) = .ok 2147483646 := by
    rw [c_mod_pos _ _ (by norm_num) (by norm_num)]
    norm_num
  simp only [hm1, hw]
  have hm2 : c_mod 2147483647 (((4294967296 : Nat) : Int) - 1 - 2147483646)
      = .ok 2147483647 := by
    rw [c_mod_pos _ _ (by norm_num) (by norm_num)]
    norm_num
  simp only [hm2]
  have hw2 : wrap32 (2147483646 + 1 + 2147483647) = -2 := by decide
  rw [hw2]

/-- C13 (counterexample): for a local reference file of 2^32 bytes and the raw draws
2^31 - 2 and 2^31 - 1 the planned range has start 2147483646 and end -2: the sum
start + 1 + r2 does not fit the `int` field `byterange_end`, so the end is not in
[start + 1, size - 1]. -/
theorem byte_range_plan_huge_file :
    ∃ s e, pick_byterange ex_world_huge ex_options_br ex_inputs_local 0 0 = .ok (s, e, 3, [])
      ∧ s = 2147483646 ∧ e = -2 ∧ ¬ (s + 1 ≤ e) := by
  refine ⟨2147483646, -2, ?_, rfl, rfl, by decide⟩
  have h0 : ex_options_br.opt_br_prob ≠ 0 := by norm_num [ex_options_br]
  have h1 : drand48 ex_world_huge 0 < ex_options_br.opt_br_prob := by
    rw [drand48_zero ex_world_huge 0 rfl]
    norm_num [ex_options_br]
  exact pick_byterange_wraps ex_world_huge ex_options_br ex_inputs_local "/ref/a"
    (List.replicate 4294967296 0) h0 h1 rfl rfl (List.length_replicate _ _) rfl rfl

/-- C13 (amended): for every local reference file of 2 to 2^31 bytes the planner
returns a range exactly when the byte-range draw fires and the file can be stat-ed:
then start = r1 mod (size-1) and end = start + 1 + (r2 mod (size-1-start)) for the two
next `lrand48` values r1, r2, with 0 <= start <= size-2 and start+1 <= end <= size-1;
otherwise start and end are both 0.  So `byterange_end` is non-zero exactly when a
range was planned. -/
theorem byte_range_plan (w : World) (o : Options) (inp : Inputs) (draws : Nat) (url_id : Int)
    (name : String) (hname : index inp.local_list url_id = .ok name)
    (hsize : ∀ lf, w.fs name = some lf → 2 ≤ lf.length ∧ lf.length ≤ 2147483648) :
    ∃ s e d log, pick_byterange w o inp draws url_id = .ok (s, e, d, log)
      ∧ (e ≠ 0 ↔ (o.opt_br_prob ≠ 0 ∧ drand48 w draws < o.opt_br_prob ∧ (w.fs name).isSome))
      ∧ (e = 0 → s = 0)
      ∧ ∀ lf, w.fs name = some lf → e ≠ 0 →
          s = lrand48 w (draws + 1) % ((lf.length : Int) - 1)
          ∧ e = s + 1 + lrand48 w (draws + 2) % ((lf.length : Int) - 1 - s)
          ∧ 0 ≤ s ∧ s ≤ (lf.length : Int) - 2 ∧ s + 1 ≤ e ∧ e ≤ (lf.length : Int) - 1 := by
  unfold pick_byterange
  by_cases h0 : o.opt_br_prob ≠ 0
  swap
  · rw [if_neg h0]
    exact ⟨0, 0, _, _, rfl, by simp [h0], fun _ => rfl, fun _ _ h => absurd rfl h⟩
  rw [if_pos h0]
  by_cases h1 : drand48 w draws < o.opt_br_prob
  swap
  · rw [if_neg h1]
    exact ⟨0, 0, _, _, rfl, by simp [h1], fun _ => rfl, fun _ _ h => absurd rfl h⟩
  rw [if_pos h1]
  simp only [hname]
  cases hfs : w.fs name with
  | none => exact ⟨0, 0, _, _, rfl, by simp, fun _ => rfl, fun _ _ h => absurd rfl h⟩
  | some lf =>
    obtain ⟨hlo, hhi⟩ := hsize lf hfs
    have r1 := lrand48_range w (draws + 1)
    have r2 := lrand48_range w (draws + 2)
    have hs1 := Int.emod_lt_of_pos (lrand48 w (draws + 1))
      (show (0 : Int) < (lf.length : Int) - 1 by omega)
    have hs0 : 0 ≤ lrand48 w (draws + 1) % ((lf.length : Int) - 1) :=
      Int.emod_nonneg _ (by omega)
    have hws : wrap32 (lrand48 w (draws + 1) % ((lf.length : Int) - 1))
        = lrand48 w (draws + 1) % ((lf.length : Int) - 1) :=
      wrap32_of_range (by omega) (by omega)
    have he1 := Int.emod_lt_of_pos (lrand48 w (draws + 2))
      (show (0 : Int) < (lf.length : Int) - 1
        - lrand48 w (draws + 1) % ((lf.length : Int) - 1) by omega)
    have he0 : 0 ≤ lrand48 w (draws + 2)
        % ((lf.length : Int) - 1 - lrand48 w (draws + 1) % ((lf.length : Int) - 1)) :=
      Int.emod_nonneg _ (by omega)
    have hwe : wrap32 (lrand48 w (draws + 1) % ((lf.length : Int) - 1) + 1
        + lrand48 w (draws + 2)
          % ((lf.length : Int) - 1 - lrand48 w (draws + 1) % ((lf.length : Int) - 1)))
        = lrand48 w (draws + 1) % ((lf.length : Int) - 1) + 1
        + lrand48 w (draws + 2)
          % ((lf.length : Int) - 1 - lrand48 w (draws + 1) % ((lf.length : Int) - 1)) :=
      wrap32_of_range (by omega) (by omega)
    simp only [c_mod_pos _ _ r1.1 (show (0 : Int) < (lf.length : Int) - 1 by omega), hws,
      c_mod_pos _ _ r2.1 (show (0 : Int) < (lf.length : Int) - 1
        - lrand48 w (draws + 1) % ((lf.length : Int) - 1) by omega), hwe]
    refine ⟨_, _, _, _, rfl, ?_, ?_, ?_⟩
    · simp only [Option.isSome_some, and_true]
      exact ⟨fun _ => ⟨h0, h1⟩, fun _ => by omega⟩
    · intro h
      omega
    · intro lf2 hlf2 _
      cases hlf2
      exact ⟨rfl, rfl, hs0, by omega, by omega, by omega⟩

theorem byte_range_plan_witness :
    (index ex_inputs_local.local_list 0 = .ok "/ref/a"
      ∧ ∀ lf, ex_world_draws.fs "/ref/a" = some lf → 2 ≤ lf.length ∧ lf.length ≤ 2147483648)
    ∧ ∃ s e d log, pick_byterange ex_world_draws ex_options_br ex_inputs_local 0 0
        = .ok (s, e, d, log)
      ∧ (e ≠ 0 ↔ (ex_options_br.opt_br_prob ≠ 0
          ∧ drand48 ex_world_draws 0 < ex_options_br.opt_br_prob
          ∧ (ex_world_draws.fs "/ref/a").isSome))
      ∧ (e = 0 → s = 0)
      ∧ ∀ lf, ex_world_draws.fs "/ref/a" = some lf → e ≠ 0 →
          s = lrand48 ex_world_draws (0 + 1) % ((lf.length : Int) - 1)
          ∧ e = s + 1 + lrand48 ex_world_draws (0 + 2) % ((lf.length : Int) - 1 - s)
          ∧ 0 ≤ s ∧ s ≤ (lf.length : Int) - 2 ∧ s + 1 ≤ e ∧ e ≤ (lf.length : Int) - 1 :=
  ⟨⟨rfl, fun lf h => by cases h; decide⟩,
   byte_range_plan ex_world_draws ex_options_br ex_inputs_local 0 0 "/ref/a" rfl
     (fun lf h => by cases h; decide)⟩

theorem tmod_neg_divisor (a d : Int) (ha : 0 ≤ a) (hd : d < 0) :
    0 ≤ Int.tmod a d ∧ Int.tmod a d < -d ∧ Int.tmod a d ≤ a := by
  have h : Int.tmod a d = a % (-d) := by
    rw [← Int.tmod_eq_emod ha (by omega), Int.tmod_neg]
  rw [h]
  exact ⟨Int.emod_nonneg _ (by omega), Int.emod_lt_of_pos _ (by omega),
    emod_le_of_nonneg _ _ ha (by omega)⟩

/-- C14: for all `int` values throttle_min < throttle_max, when the throttle draw
fires the planner returns a rate with throttle_min <= rate < throttle_max; the rate is
throttle_min + (r mod (throttle_max - throttle_min)) for the next `lrand48` value r
whenever the difference fits an `int`. -/
theorem throttle_rate_in_range (w : World) (o : Options) (draws : Nat)
    (hmin : -2147483648 ≤ o.opt_throttle_min) (hmax : o.opt_throttle_max ≤ 2147483647)
    (hlt : o.opt_throttle_min < o.opt_throttle_max)
    (h0 : o.opt_throttle_prob ≠ 0) (h1 : drand48 w draws < o.opt_throttle_prob) :
    ∃ rate, pick_throttle w o draws = .ok (rate, draws + 2)
      ∧ o.opt_throttle_min ≤ rate ∧ rate < o.opt_throttle_max
      ∧ (o.opt_throttle_max - o.opt_throttle_min ≤ 2147483647 →
          rate = o.opt_throttle_min
            + lrand48 w (draws + 1) % (o.opt_throttle_max - o.opt_throttle_min)) := by
  unfold pick_throttle
  rw [if_pos h0, if_pos h1]
  have hr := lrand48_range w (draws + 1)
  by_cases hfit : o.opt_throttle_max - o.opt_throttle_min ≤ 2147483647
  · rw [wrap32_of_range (x := o.opt_throttle_max - o.opt_throttle_min) (by omega) (by omega),
      c_mod_pos _ _ hr.1 (by omega)]
    have hm0 : 0 ≤ lrand48 w (draws + 1) % (o.opt_throttle_max - o.opt_throttle_min) :=
      Int.emod_nonneg _ (by omega)
    have hm1 := Int.emod_lt_of_pos (lrand48 w (draws + 1))
      (show 0 < o.opt_throttle_max - o.opt_throttle_min by omega)
    refine ⟨_, rfl, ?_⟩
    rw [wrap32_of_range (x := o.opt_throttle_min
      + lrand48 w (draws + 1) % (o.opt_throttle_max - o.opt_throttle_min)) (by omega) (by omega)]
    exact ⟨by omega, by omega, fun _ => rfl⟩
  · have hw : wrap32 (o.opt_throttle_max - o.opt_throttle_min)
        = o.opt_throttle_max - o.opt_throttle_min - 4294967296 := by
      unfold wrap32
      omega
    rw [hw]
    obtain ⟨t0, t1, t2⟩ := tmod_neg_divisor (lrand48 w (draws + 1))
      (o.opt_throttle_max - o.opt_throttle_min - 4294967296) hr.1 (by omega)
    unfold c_mod
    rw [if_neg (by omega)]
    refine ⟨_, rfl, ?_⟩
    rw [wrap32_of_range (x := o.opt_throttle_min + Int.tmod (lrand48 w (draws + 1))
      (o.opt_throttle_max - o.opt_throttle_min - 4294967296)) (by omega) (by omega)]
    exact ⟨by omega, by omega, fun h => absurd h hfit⟩

theorem throttle_rate_in_range_witness :
    (-2147483648 ≤ ex_options_throttle.opt_throttle_min
      ∧ ex_options_throttle.opt_throttle_max ≤ 2147483647
      ∧ ex_options_throttle.opt_throttle_min < ex_options_throttle.opt_throttle_max
      ∧ ex_options_throttle.opt_throttle_prob ≠ 0
      ∧ drand48 ex_world_draws 0 < ex_options_throttle.opt_throttle_prob)
    ∧ ∃ rate, pick_throttle ex_world_draws ex_options_throttle 0 = .ok (rate, 0 + 2)
      ∧ ex_options_throttle.opt_throttle_min ≤ rate
      ∧ rate < ex_options_throttle.opt_throttle_max
      ∧ (ex_options_throttle.opt_throttle_max - ex_options_throttle.opt_throttle_min
          ≤ 2147483647 →
          rate = ex_options_throttle.opt_throttle_min + lrand48 ex_world_draws (0 + 1)
            % (ex_options_throttle.opt_throttle_max - ex_options_throttle.opt_throttle_min)) :=
  have h0 : ex_options_throttle.opt_throttle_prob ≠ 0 := by norm_num [ex_options_throttle]
  have h1 : drand48 ex_world_draws 0 < ex_options_throttle.opt_throttle_prob := by
    rw [drand48_zero ex_world_draws 0 rfl]
    norm_num [ex_options_throttle]
  ⟨⟨by decide, by decide, by decide, h0, h1⟩,
   throttle_rate_in_range ex_world_draws ex_options_throttle 0 (by decide) (by decide)
     (by decide) h0 h1⟩

/-! ## Loading the inputs (`parse_command_line`) -/

theorem sum_map_div (l : List ℚ) (c : ℚ) : (l.map (fun x => x / c)).sum = l.sum / c := by
  induction l with
  | nil => simp
  | cons x xs ih => simp only [List.map_cons, List.sum_cons, ih, add_div]

theorem normalize_sum (weights : List ℚ) (h : weights.sum ≠ 0) : (normalize weights).sum = 1 := by
  unfold normalize
  rw [sum_map_div, div_self h]

theorem parse_weights_length (lib : Library) (lines servers : List String) (raw : List ℚ)
    (h : parse_weights lib lines = .ok (servers, raw)) :
    servers.length = lines.length ∧ raw.length = lines.length := by
  induction lines generalizing servers raw with
  | nil =>
    simp only [parse_weights, Except.ok.injEq, Prod.mk.injEq] at h
    obtain ⟨h1, h2⟩ := h
    subst h1 h2
    exact ⟨rfl, rfl⟩
  | cons l ls ih =>
    unfold parse_weights at h
    cases h1 : parse_weight lib l with
    | error e => rw [h1] at h; cases h
    | ok r =>
      obtain ⟨name, weight⟩ := r
      rw [h1] at h
      cases h2 : parse_weights lib ls with
      | error e => rw [h2] at h; cases h
      | ok r2 =>
        obtain ⟨names, weights⟩ := r2
        rw [h2] at h
        simp only [Except.ok.injEq, Prod.mk.injEq] at h
        obtain ⟨e1, e2⟩ := h
        subst e1 e2
        obtain ⟨i1, i2⟩ := ih names weights h2
        simp [i1, i2]

/-- C11 (counterexample): the server list with the lines `s1 1` and `s2 -1` is
accepted by the loader with the raw weights 1 and -1; their sum W is 0 and the
normalized weights do not sum to 1. -/
theorem normalized_weights_zero_sum :
    ∃ o inp, parse_command_line ex_library (ex_cmd_servers "negative.txt") = .ok (o, inp)
      ∧ inp.servers = ["s1", "s2"]
      ∧ parse_weights ex_library ["s1 1", "s2 -1"] = .ok (["s1", "s2"], [1, -1])
      ∧ ([1, -1] : List ℚ).sum = 0
      ∧ inp.server_weights = normalize [1, -1]
      ∧ inp.server_weights.sum ≠ 1 := by
  refine ⟨_, _, rfl, rfl, rfl, by norm_num, rfl, ?_⟩
  show (normalize [1, -1]).sum ≠ 1
  norm_num [normalize]

/-- C11 (amended): for every non-empty server list accepted by the loader whose raw
weights (the parsed number, or 1.0 when missing or zero) have a sum W other than 0, the
stored weights are raw[i] / W and sum to exactly 1. -/
theorem normalized_weights_sum (lib : Library) (file : String) (url url1 servers hosts : List String)
    (server_weights : List ℚ)
    (h : load_servers lib file url = .ok (url1, servers, hosts, server_weights))
    (hne : servers ≠ []) :
    ∃ raw, parse_weights lib (file_to_string_vector (lib.fopen file) []).2 = .ok (servers, raw)
      ∧ server_weights = raw.map (fun x => x / raw.sum)
      ∧ server_weights.length = servers.length
      ∧ (raw.sum ≠ 0 → server_weights.sum = 1) := by
  unfold load_servers at h
  by_cases hf : file.length ≠ 0
  · rw [if_pos hf] at h
    split at h
    · cases h
    · cases hp : parse_weights lib (file_to_string_vector (lib.fopen file) []).2 with
      | error e => rw [hp] at h; cases h
      | ok r =>
        obtain ⟨names, raw⟩ := r
        rw [hp] at h
        simp only [Except.ok.injEq, Prod.mk.injEq] at h
        obtain ⟨_, e2, _, e4⟩ := h
        subst e2 e4
        obtain ⟨l1, l2⟩ := parse_weights_length lib _ _ _ hp
        exact ⟨raw, rfl, rfl, by simp [normalize, l1, l2], normalize_sum raw⟩
  · rw [if_neg hf] at h
    simp only [Except.ok.injEq, Prod.mk.injEq] at h
    exact absurd h.2.1.symm hne

theorem normalized_weights_sum_witness :
    ∃ o inp, parse_command_line ex_library (ex_cmd_servers "servers.txt") = .ok (o, inp)
      ∧ inp.servers = ["s1", "s2"] ∧ inp.server_weights.sum = 1 := by
  refine ⟨_, _, rfl, rfl, ?_⟩
  obtain ⟨raw, h1, h2, h3, h4⟩ := normalized_weights_sum ex_library "servers.txt"
    ["http://h/a", "http://h/b/c"] ["/a", "/b/c"] ["s1", "s2"] ["h", "h"] (normalize [3, 1])
    rfl (by decide)
  have hraw : raw = [3, 1] := by
    have h5 : parse_weights ex_library
        (file_to_string_vector (ex_library.fopen "servers.txt") []).2
        = .ok (["s1", "s2"], [3, 1]) := rfl
    rw [h5] at h1
    simp only [Except.ok.injEq, Prod.mk.injEq, true_and] at h1
    exact h1.symm
  subst hraw
  exact h4 (by norm_num)

theorem findIdx_append_hit {α : Type} (p : α → Bool) (a : List α) (c : α) (rest : List α)
    (ha : ∀ x ∈ a, p x = false) (hc : p c = true) :
    (a ++ c :: rest).findIdx p = a.length := by
  induction a with
  | nil => simp [List.findIdx_cons, hc]
  | cons x xs ih =>
    have hx : p x = false := ha x (List.mem_cons_self _ _)
    have hxs : ∀ y ∈ xs, p y = false := fun y hy => ha y (List.mem_cons_of_mem _ hy)
    simp [List.findIdx_cons, hx, ih hxs]

theorem findIdx_all_false {α : Type} (p : α → Bool) (a : List α) (ha : ∀ x ∈ a, p x = false) :
    a.findIdx p = a.length := by
  induction a with
  | nil => rfl
  | cons x xs ih =>
    have hx : p x = false := ha x (List.mem_cons_self _ _)
    have hxs : ∀ y ∈ xs, p y = false := fun y hy => ha y (List.mem_cons_of_mem _ hy)
    simp [List.findIdx_cons, hx, ih hxs]

theorem find_first_of_none (s set : List Char) (h : ∀ c ∈ s, c ∉ set) :
    find_first_of s set = none := by
  unfold find_first_of
  rw [findIdx_all_false _ s (fun x hx => by simpa using h x hx)]
  simp

theorem find_first_of_hit (a : List Char) (c : Char) (rest set : List Char)
    (ha : ∀ x ∈ a, x ∉ set) (hc : c ∈ set) :
    find_first_of (a ++ c :: rest) set = some a.length := by
  unfold find_first_of
  rw [findIdx_append_hit _ a c rest (fun x hx => by simpa using ha x hx) (by simpa using hc)]
  simp

theorem find_first_not_of_hit (a : List Char) (c : Char) (rest set : List Char)
    (ha : ∀ x ∈ a, x ∈ set) (hc : c ∉ set) :
    find_first_not_of (a ++ c :: rest) set = some a.length := by
  unfold find_first_not_of
  rw [findIdx_append_hit _ a c rest (fun x hx => by simpa using ha x hx) (by simpa using hc)]
  simp

/-- C19 (counterexample): the line `s1 0` has the authority `s1` and the decimal weight
`0`, whose numeric value is 0; the loader stores the raw weight 1.0 and keeps the whole
line, blank and weight text included, as the server string. -/
theorem zero_weight_line_kept_whole :
    ex_library.atof "0" = 0 ∧ parse_weight ex_library "s1 0" = .ok ("s1 0", 1) :=
  ⟨rfl, rfl⟩

/-- C19 (amended): for every line <authority><spaces/tabs><weight> where authority has
no space or tab and weight is a decimal number with a non-zero value, the stored server
string is exactly <authority> and the stored raw weight is the value of <weight>; a
weight with the value zero is stored as 1.0; for every line without whitespace the
server string is the whole line and the raw weight is 1.0. -/
theorem server_line_parsing (lib : Library) (authority sep weight : List Char)
    (hauth : ∀ c ∈ authority, c ∉ blanks) (hsep : sep ≠ [] ∧ ∀ c ∈ sep, c ∈ blanks)
    (hweight : weight ≠ [] ∧ ∀ c ∈ weight.head?, c ∉ blanks) :
    (lib.atof ⟨weight⟩ ≠ 0 →
      parse_weight lib ⟨authority ++ sep ++ weight⟩ = .ok (⟨authority⟩, lib.atof ⟨weight⟩))
    ∧ (lib.atof ⟨weight⟩ = 0 →
      ∃ server, parse_weight lib ⟨authority ++ sep ++ weight⟩ = .ok (server, 1))
    ∧ (∀ line : String, (∀ c ∈ line.data, c ∉ blanks) →
      parse_weight lib line = .ok (line, 1)) := by
  obtain ⟨hs0, hs1⟩ := hsep
  obtain ⟨hw0, hw1⟩ := hweight
  obtain ⟨b, bs, rfl⟩ := List.exists_cons_of_ne_nil hs0
  obtain ⟨d, ds, rfl⟩ := List.exists_cons_of_ne_nil hw0
  have hd : d ∉ blanks := hw1 d (by simp)
  have hb : b ∈ blanks := hs1 b (List.mem_cons_self _ _)
  have hsp : find_first_of (authority ++ (b :: bs) ++ d :: ds) blanks = some authority.length := by
    rw [List.append_assoc, List.cons_append]
    exact find_first_of_hit authority b _ blanks hauth hb
  have hdrop : (authority ++ (b :: bs) ++ d :: ds).drop authority.length = (b :: bs) ++ d :: ds := by
    rw [List.append_assoc, List.drop_left]
  have hk : find_first_not_of ((b :: bs) ++ d :: ds) blanks = some (b :: bs).length :=
    find_first_not_of_hit (b :: bs) d ds blanks hs1 hd
  have hdrop2 : ((b :: bs) ++ d :: ds).drop (b :: bs).length = d :: ds := List.drop_left _ _
  have htake : (authority ++ (b :: bs) ++ d :: ds).take authority.length = authority := by
    rw [List.append_assoc, List.take_left]
  refine ⟨fun hne => ?_, fun hz => ?_, fun line hnb => ?_⟩
  · unfold parse_weight
    simp only [hsp, hdrop, hk, hdrop2, htake, if_neg hne]
  · unfold parse_weight
    simp only [hsp, hdrop, hk, hdrop2, if_pos hz]
    exact ⟨_, rfl⟩
  · unfold parse_weight
    simp only [find_first_of_none _ blanks hnb]

theorem server_line_parsing_witness :
    ((∀ c ∈ "s1".data, c ∉ blanks) ∧ ([' ', tab] ≠ [] ∧ ∀ c ∈ [' ', tab], c ∈ blanks)
      ∧ ("3".data ≠ [] ∧ ∀ c ∈ "3".data.head?, c ∉ blanks))
    ∧ ex_library.atof "3" ≠ 0
    ∧ parse_weight ex_library ⟨"s1".data ++ [' ', tab] ++ "3".data⟩
      = .ok ("s1", ex_library.atof "3") :=
  have hne : ex_library.atof "3" ≠ 0 := by
    have h : ex_library.atof "3" = 3 := rfl
    rw [h]
    norm_num
  ⟨⟨by decide, ⟨by decide, by decide⟩, ⟨by decide, by decide⟩⟩, hne,
   (server_line_parsing ex_library "s1".data [' ', tab] "3".data (by decide)
     ⟨by decide, by decide⟩ ⟨by decide, by decide⟩).1 hne⟩

theorem split_url_http (h p : List Char) (hh : '/' ∉ h) (hp : p = [] ∨ p.head? = some '/') :
    split_url ⟨"http://".data ++ h ++ p⟩ = (⟨h⟩, ⟨p⟩) := by
  have hdrop : ("http://".data ++ h ++ p).drop 7 = h ++ p := by
    rw [List.append_assoc]
    exact List.drop_left' rfl
  unfold split_url
  simp only [hdrop]
  rcases hp with rfl | hp
  · rw [List.append_nil, find_first_of_none h ['/'] (fun c hc hm => by
      rw [List.mem_singleton] at hm
      exact hh (hm ▸ hc))]
  · cases p with
    | nil => cases hp
    | cons c cs =>
      simp only [List.head?_cons, Option.some.injEq] at hp
      subst hp
      rw [find_first_of_hit h '/' cs ['/'] (fun c hc hm => by
        rw [List.mem_singleton] at hm
        exact hh (hm ▸ hc)) (List.mem_singleton_self _)]
      simp only [List.take_left, List.drop_left]

/-- C20: when a server list is given and the load succeeds, for every URL of the form
'http://' ++ h ++ p where h has no '/' and p is empty or starts with '/', the loader
stores h in hosts[i] and p in url[i]; so 'http://' ++ hosts[i] ++ url[i] is the
original URL and url[i] starts at the first '/' after the prefix. -/
theorem url_split_round_trip (lib : Library) (file : String)
    (url url1 servers hosts : List String) (server_weights : List ℚ) (i : Nat)
    (h p : List Char) (hfile : file.length ≠ 0)
    (hload : load_servers lib file url = .ok (url1, servers, hosts, server_weights))
    (hi : url.get? i = some ⟨"http://".data ++ h ++ p⟩)
    (hh : '/' ∉ h) (hp : p = [] ∨ p.head? = some '/') :
    hosts.get? i = some ⟨h⟩ ∧ url1.get? i = some ⟨p⟩
      ∧ "http://" ++ String.mk h ++ String.mk p = ⟨"http://".data ++ h ++ p⟩ := by
  unfold load_servers at hload
  rw [if_pos hfile] at hload
  split at hload
  · cases hload
  · cases hw : parse_weights lib (file_to_string_vector (lib.fopen file) []).2 with
    | error e => rw [hw] at hload; cases hload
    | ok r =>
      obtain ⟨names, raw⟩ := r
      rw [hw] at hload
      simp only [Except.ok.injEq, Prod.mk.injEq] at hload
      obtain ⟨e1, _, e3, _⟩ := hload
      subst e1 e3
      simp only [List.get?_eq_getElem?, List.getElem?_map] at hi ⊢
      rw [hi]
      simp only [Option.map_some', split_url_http h p hh hp, true_and]
      rfl

theorem url_split_round_trip_witness :
    ("servers.txt".length ≠ 0
      ∧ load_servers ex_library "servers.txt" ["http://h/a", "http://h/b/c"]
        = .ok (["/a", "/b/c"], ["s1", "s2"], ["h", "h"], normalize [3, 1])
      ∧ ["http://h/a", "http://h/b/c"].get? 1 = some ⟨"http://".data ++ "h".data ++ "/b/c".data⟩
      ∧ '/' ∉ "h".data ∧ ("/b/c".data = [] ∨ "/b/c".data.head? = some '/'))
    ∧ ["h", "h"].get? 1 = some "h" ∧ ["/a", "/b/c"].get? 1 = some "/b/c" :=
  ⟨⟨by decide, rfl, rfl, by decide, Or.inr rfl⟩,
   (url_split_round_trip ex_library "servers.txt" ["http://h/a", "http://h/b/c"]
      ["/a", "/b/c"] ["s1", "s2"] ["h", "h"] (normalize [3, 1]) 1 "h".data "/b/c".data
      (by decide) rfl rfl (by decide) (Or.inr rfl)).1,
   (url_split_round_trip ex_library "servers.txt" ["http://h/a", "http://h/b/c"]
      ["/a", "/b/c"] ["s1", "s2"] ["h", "h"] (normalize [3, 1]) 1 "h".data "/b/c".data
      (by decide) rfl rfl (by decide) (Or.inr rfl)).2.1⟩

/-! ## The option registry and the command line -/

theorem modify_first_longopt (p : option_t → Bool) (f : option_t → option_t)
    (hf : ∀ o, (f o).longopt = o.longopt) (l : List option_t) :
    (modify_first p f l).map (fun o => o.longopt) = l.map (fun o => o.longopt) := by
  induction l with
  | nil => rfl
  | cons x xs ih =>
    unfold modify_first
    by_cases hp : p x = true
    · rw [if_pos hp]
      simp only [List.map_cons, hf]
    · rw [if_neg hp]
      simp only [List.map_cons, ih]

theorem set_value_longopt (l : List option_t) (i : Nat) (o : option_t) (v : OptValue)
    (h : l.get? i = some o) :
    (l.set i { o with value := v }).map (fun o => o.longopt) = l.map (fun o => o.longopt) := by
  induction l generalizing i with
  | nil => rfl
  | cons x xs ih =>
    cases i with
    | zero =>
      simp only [List.get?_cons_zero, Option.some.injEq] at h
      subst h
      rfl
    | succ k =>
      simp only [List.get?_cons_succ] at h
      simp only [List.set_cons_succ, List.map_cons, ih k h]

theorem read_file_longopt (lib : Library) (entries : List (String × Char × String))
    (options options1 : List option_t) (b : Bool)
    (h : read_file lib entries options = .ok (b, options1)) :
    options1.map (fun o => o.longopt) = options.map (fun o => o.longopt) := by
  induction entries generalizing options with
  | nil =>
    simp only [read_file, Except.ok.injEq, Prod.mk.injEq] at h
    rw [← h.2]
  | cons e es ih =>
    obtain ⟨optname, equal, text⟩ := e
    unfold read_file at h
    cases hfind : options_find options (some optname) none with
    | none =>
      rw [hfind] at h
      exact ih options h
    | some opt =>
      rw [hfind] at h
      simp only at h
      by_cases heq : equal ≠ '='
      · rw [if_pos heq] at h
        simp only [Except.ok.injEq, Prod.mk.injEq] at h
        rw [← h.2]
      · rw [if_neg heq] at h
        cases hread : read_value lib opt.value text with
        | none => rw [hread] at h; cases h
        | some v =>
          rw [hread] at h
          rw [ih _ h]
          exact modify_first_longopt (option_matches (some optname) none)
            (fun o => { o with value := v }) (fun _ => rfl) options

theorem parse_cmdline_loop_longopt (lib : Library) (optind : Int) (results : List (Int × String))
    (options options1 : List option_t) (inpidx : Int)
    (h : parse_cmdline_loop lib optind results options = .ok (inpidx, options1)) :
    options1.map (fun o => o.longopt) = options.map (fun o => o.longopt) := by
  induction results generalizing options with
  | nil =>
    simp only [parse_cmdline_loop, Except.ok.injEq, Prod.mk.injEq] at h
    rw [← h.2]
  | cons r rs ih =>
    obtain ⟨c, optarg⟩ := r
    unfold parse_cmdline_loop at h
    by_cases hc : c = 63
    · rw [if_pos hc] at h
      simp only [Except.ok.injEq, Prod.mk.injEq] at h
      rw [← h.2]
    · rw [if_neg hc] at h
      cases hget : options.get? (handled_index options 0 c) with
      | none => rw [hget] at h; cases h
      | some o =>
        rw [hget] at h
        simp only at h
        by_cases hb : o.is_boolean = true
        · rw [if_pos hb] at h
          rw [ih _ h]
          exact set_value_longopt options _ o _ hget
        · rw [if_neg hb] at h
          cases hread : read_value lib o.value optarg with
          | none =>
            rw [hread] at h
            simp only [Except.ok.injEq, Prod.mk.injEq] at h
            rw [← h.2]
          | some v =>
            rw [hread] at h
            simp only at h
            by_cases hcf : option_matches (some "config") (some "c") o = true
            · rw [if_pos hcf] at h
              cases v with
              | string filename =>
                simp only at h
                cases hconf : lib.conf filename with
                | none =>
                  rw [hconf] at h
                  simp only [Except.ok.injEq, Prod.mk.injEq] at h
                  rw [← h.2]
                  exact set_value_longopt options _ o _ hget
                | some entries =>
                  rw [hconf] at h
                  simp only at h
                  cases hrf : read_file lib entries
                    (options.set (handled_index options 0 c)
                      { o with value := OptValue.string filename }) with
                  | error e => rw [hrf] at h; cases h
                  | ok r =>
                    obtain ⟨ok, options2⟩ := r
                    rw [hrf] at h
                    have h2 := read_file_longopt lib entries _ _ _ hrf
                    rw [set_value_longopt options _ o _ hget] at h2
                    cases ok with
                    | false =>
                      simp only [Except.ok.injEq, Prod.mk.injEq] at h
                      rw [← h.2, h2]
                    | true =>
                      simp only at h
                      rw [ih _ h, h2]
              | bool b => cases h
              | int n => cases h
              | double d => cases h
            · rw [if_neg hcf] at h
              rw [ih _ h]
              exact set_value_longopt options _ o _ hget

theorem options_find_unknown (options : List option_t) (name : String)
    (h : some name ∉ options.map (fun o => o.longopt)) :
    options_find options (some name) none = none := by
  unfold options_find
  rw [List.find?_eq_none]
  intro o ho hm
  apply h
  rw [List.mem_map]
  refine ⟨o, ho, ?_⟩
  unfold option_matches at hm
  cases hl : o.longopt with
  | none => rw [hl] at hm; simp at hm
  | some b =>
    rw [hl] at hm
    simp only [Bool.or_false, beq_iff_eq] at hm
    rw [hm]

theorem quickget_double_unknown (options : List option_t) (name : String)
    (h : some name ∉ options.map (fun o => o.longopt)) : quickget_double options name = 0 := by
  unfold quickget_double options_get
  rw [options_find_unknown options name h]
  rfl

theorem registered_longopts (registered : List option_t)
    (h : register_all registrations [] = .ok registered) :
    registered.map (fun o => o.longopt) = registrations.map (fun r => r.long_option) := by
  have hr : (register_all registrations []).toOption.map (fun l => l.map (fun o => o.longopt))
      = some (registrations.map (fun r => r.long_option)) := rfl
  rw [h] at hr
  simpa [Except.toOption] using hr

theorem parse_options_longopts (lib : Library) (cmd : CommandLine) (options : List option_t)
    (url_file : String) (h : parse_options lib cmd = .ok (options, url_file)) :
    options.map (fun o => o.longopt) = registrations.map (fun r => r.long_option) := by
  unfold parse_options at h
  cases hreg : register_all registrations [] with
  | error e => rw [hreg] at h; cases h
  | ok registered =>
    rw [hreg] at h
    simp only at h
    cases hp : parse_cmdline lib cmd registered with
    | error e => rw [hp] at h; cases h
    | ok r =>
      obtain ⟨inpidx, options1⟩ := r
      rw [hp] at h
      simp only at h
      split at h
      · cases h
      · split at h
        · cases h
        · split at h
          · cases h
          · simp only [Except.ok.injEq, Prod.mk.injEq] at h
            rw [← h.1, parse_cmdline_loop_longopt lib _ _ _ _ _ hp]
            exact registered_longopts registered hreg

theorem load_inputs_globals (lib : Library) (options : List option_t) (url_file : String)
    (o : Options) (inp : Inputs) (h : load_inputs lib options url_file = .ok (o, inp)) :
    o = read_globals options inp.url.length inp.local_list.length := by
  unfold load_inputs at h
  split at h
  · cases h
  · split at h
    · cases h
    · split at h
      · cases h
      · split at h
        · cases h
        · simp only [Except.ok.injEq, Prod.mk.injEq] at h
          rw [← h.1, ← h.2]

/-- C15: for every command line and configuration file on which `parse_command_line`
returns, the Weibull parameters `opt_term_weibull_k` and `opt_term_weibull_lambda` are
both 0: they are read with `quickget` under the names `term-min-weibull-k` and
`term-min-weibull-lambda`, which no registered option has, whatever was parsed. -/
theorem weibull_parameters_zero (lib : Library) (cmd : CommandLine) (o : Options) (inp : Inputs)
    (h : parse_command_line lib cmd = .ok (o, inp)) :
    o.opt_term_weibull_k = 0 ∧ o.opt_term_weibull_lambda = 0 := by
  unfold parse_command_line at h
  cases hp : parse_options lib cmd with
  | error e => rw [hp] at h; cases h
  | ok r =>
    obtain ⟨options, url_file⟩ := r
    rw [hp] at h
    simp only at h
    have hnames := parse_options_longopts lib cmd options url_file hp
    rw [load_inputs_globals lib options url_file o inp h]
    constructor
    · exact quickget_double_unknown options "term-min-weibull-k" (by rw [hnames]; decide)
    · exact quickget_double_unknown options "term-min-weibull-lambda" (by rw [hnames]; decide)

theorem weibull_parameters_zero_witness :
    ∃ options o inp, parse_options ex_library ex_cmd_weibull = .ok (options, "urls.txt")
      ∧ quickget_double options "term-weibull-k" = 5
      ∧ quickget_double options "term-weibull-lambda" = 7
      ∧ parse_command_line ex_library ex_cmd_weibull = .ok (o, inp)
      ∧ o.opt_term_weibull_k = 0 ∧ o.opt_term_weibull_lambda = 0 :=
  ⟨_, _, _, rfl, rfl, rfl, rfl, weibull_parameters_zero ex_library ex_cmd_weibull _ _ rfl⟩

theorem file_to_string_vector_status (file : Option (List Char)) (lines : List String) :
    ¬ (file_to_string_vector file lines).1 < 0 := by
  cases file with
  | none => show ¬ ((1 : Int) < 0); decide
  | some content => show ¬ ((0 : Int) < 0); decide

theorem load_checked_eq (lib : Library) (file : String) (url_count : Nat) :
    load_checked lib file url_count
      = if file.length ≠ 0 ∧ (file_to_string_vector (lib.fopen file) []).2.length ≠ url_count
        then .error .exit1
        else .ok (if file.length ≠ 0 then (file_to_string_vector (lib.fopen file) []).2 else []) := by
  unfold load_checked
  by_cases hf : file.length ≠ 0
  · rw [if_pos hf, if_neg (file_to_string_vector_status _ _)]
    by_cases hl : (file_to_string_vector (lib.fopen file) []).2.length ≠ url_count
    · rw [if_pos hl, if_pos ⟨hf, hl⟩]
    · rw [if_neg hl, if_neg (fun h => hl h.2), if_pos hf]
  · rw [if_neg hf, if_neg (fun h => hf h.1), if_neg hf]

theorem parse_weight_error (lib : Library) (server : String) (e : Fault)
    (h : parse_weight lib server = .error e) : e = .uncaught := by
  unfold parse_weight at h
  split at h
  · cases h
  · split at h
    · cases h
      rfl
    · split at h <;> cases h

theorem parse_weights_error (lib : Library) (lines : List String) (e : Fault)
    (h : parse_weights lib lines = .error e) : e = .uncaught := by
  induction lines with
  | nil => cases h
  | cons l ls ih =>
    unfold parse_weights at h
    cases h1 : parse_weight lib l with
    | error e1 =>
      rw [h1] at h
      cases h
      exact parse_weight_error lib l _ h1
    | ok r =>
      obtain ⟨name, weight⟩ := r
      rw [h1] at h
      cases h2 : parse_weights lib ls with
      | error e2 =>
        rw [h2] at h
        cases h
        exact ih h2
      | ok r2 =>
        rw [h2] at h
        cases h

theorem load_servers_no_exit (lib : Library) (file : String) (url : List String) :
    load_servers lib file url ≠ .error .exit1 := by
  intro h
  unfold load_servers at h
  split at h
  · rw [if_neg (file_to_string_vector_status _ _)] at h
    cases hw : parse_weights lib (file_to_string_vector (lib.fopen file) []).2 with
    | error e =>
      rw [hw] at h
      have := parse_weights_error lib _ e hw
      subst this
      cases h
    | ok r =>
      rw [hw] at h
      cases h
  · cases h

theorem load_servers_url_length (lib : Library) (file : String)
    (url url1 servers hosts : List String) (server_weights : List ℚ)
    (h : load_servers lib file url = .ok (url1, servers, hosts, server_weights)) :
    url1.length = url.length := by
  unfold load_servers at h
  split at h
  · rw [if_neg (file_to_string_vector_status _ _)] at h
    cases hw : parse_weights lib (file_to_string_vector (lib.fopen file) []).2 with
    | error e => rw [hw] at h; cases h
    | ok r =>
      rw [hw] at h
      simp only [Except.ok.injEq, Prod.mk.injEq] at h
      rw [← h.1, List.length_map]
  · simp only [Except.ok.injEq, Prod.mk.injEq] at h
    rw [← h.1]

/-- C17: once the command line is parsed, loading exits with status 1 if and only if
an MD5 list or a local list was given whose number of entries differs from the URL
list's; after a successful load `md5_size` is 0 or `url_size` and `local_size` is 0 or
`url_size`. -/
theorem list_size_cross_validation (lib : Library) (cmd : CommandLine) (options : List option_t)
    (url_file : String) (h : parse_options lib cmd = .ok (options, url_file)) :
    (parse_command_line lib cmd = .error .exit1 ↔
      ((quickget_string options "md5-list").length ≠ 0
        ∧ (file_to_string_vector (lib.fopen (quickget_string options "md5-list")) []).2.length
          ≠ (file_to_string_vector (lib.fopen url_file) []).2.length)
      ∨ ((quickget_string options "local-list").length ≠ 0
        ∧ (file_to_string_vector (lib.fopen (quickget_string options "local-list")) []).2.length
          ≠ (file_to_string_vector (lib.fopen url_file) []).2.length))
    ∧ ∀ o inp, parse_command_line lib cmd = .ok (o, inp) →
        (inp.md5.length = 0 ∨ inp.md5.length = inp.url.length)
        ∧ (inp.local_list.length = 0 ∨ inp.local_list.length = inp.url.length) := by
  have hpc : parse_command_line lib cmd = load_inputs lib options url_file := by
    unfold parse_command_line
    rw [h]
  rw [hpc]
  unfold load_inputs
  rw [if_neg (file_to_string_vector_status _ _), load_checked_eq, load_checked_eq]
  by_cases hm : (quickget_string options "md5-list").length ≠ 0
      ∧ (file_to_string_vector (lib.fopen (quickget_string options "md5-list")) []).2.length
        ≠ (file_to_string_vector (lib.fopen url_file) []).2.length
  · rw [if_pos hm]
    exact ⟨⟨fun _ => Or.inl hm, fun _ => rfl⟩, fun o inp hc => by cases hc⟩
  rw [if_neg hm]
  simp only
  by_cases hl : (quickget_string options "local-list").length ≠ 0
      ∧ (file_to_string_vector (lib.fopen (quickget_string options "local-list")) []).2.length
        ≠ (file_to_string_vector (lib.fopen url_file) []).2.length
  · rw [if_pos hl]
    exact ⟨⟨fun _ => Or.inr hl, fun _ => rfl⟩, fun o inp hc => by cases hc⟩
  rw [if_neg hl]
  simp only
  cases hs : load_servers lib (quickget_string options "server-list")
      (file_to_string_vector (lib.fopen url_file) []).2 with
  | error e =>
    simp only
    refine ⟨⟨fun he => ?_, fun hor => ?_⟩, fun o inp hc => by cases hc⟩
    · exfalso
      apply load_servers_no_exit lib (quickget_string options "server-list")
        (file_to_string_vector (lib.fopen url_file) []).2
      rw [hs]
      injection he with he
      rw [he]
    · rcases hor with h1 | h1
      · exact absurd h1 hm
      · exact absurd h1 hl
  | ok r =>
    obtain ⟨url1, servers, hosts, server_weights⟩ := r
    have hlen := load_servers_url_length lib _ _ _ _ _ _ hs
    simp only
    refine ⟨⟨fun he => ?_, fun hor => ?_⟩, fun o inp hc => ?_⟩
    · cases he
    · rcases hor with h1 | h1
      · exact absurd h1 hm
      · exact absurd h1 hl
    · simp only [Except.ok.injEq, Prod.mk.injEq] at hc
      rw [← hc.2]
      simp only
      rw [hlen]
      constructor
      · by_cases hf : (quickget_string options "md5-list").length ≠ 0
        · rw [if_pos hf]
          exact Or.inr (not_not.mp (fun hne => hm ⟨hf, hne⟩))
        · rw [if_neg hf]
          exact Or.inl rfl
      · by_cases hf : (quickget_string options "local-list").length ≠ 0
        · rw [if_pos hf]
          exact Or.inr (not_not.mp (fun hne => hl ⟨hf, hne⟩))
        · rw [if_neg hf]
          exact Or.inl rfl

theorem list_size_cross_validation_witness :
    ∃ options, parse_options ex_library ex_cmd_md5 = .ok (options, "urls.txt")
      ∧ quickget_string options "md5-list" = "md5.txt"
      ∧ (file_to_string_vector (ex_library.fopen "md5.txt") []).2.length = 1
      ∧ (file_to_string_vector (ex_library.fopen "urls.txt") []).2.length = 2
      ∧ parse_command_line ex_library ex_cmd_md5 = .error .exit1 :=
  ⟨_, rfl, rfl, rfl, rfl,
   (list_size_cross_validation ex_library ex_cmd_md5 _ "urls.txt" rfl).1.mpr
     (Or.inl ⟨by decide, by decide⟩)⟩

/-- C16: with a URL file that cannot be opened, `parse_command_line` does not exit: it
returns with the URL list left empty.  With a server list file that cannot be opened
it returns as well, with no server and the URLs cut down to their paths. -/
theorem missing_input_file_not_fatal :
    ex_library.fopen "missing.txt" = none
    ∧ (∃ o inp, parse_command_line ex_library (ex_cmd "missing.txt") = .ok (o, inp)
        ∧ inp.url = [])
    ∧ (∃ o inp, parse_command_line ex_library (ex_cmd_servers "missing.txt") = .ok (o, inp)
        ∧ inp.servers = [] ∧ inp.url = ["/a", "/b/c"]) :=
  ⟨rfl, ⟨_, _, rfl, rfl⟩, ⟨_, _, rfl, rfl, rfl⟩⟩

/-! ## The defaults of the throttle rates -/

theorem drand48_lt_one (w : World) (k : Nat) : drand48 w k < 1 := by
  unfold drand48
  rw [div_lt_one (by norm_num)]
  have h : w.rng k % 281474976710656 < 281474976710656 := Nat.mod_lt _ (by norm_num)
  exact_mod_cast h

theorem pick_throttle_equal_rates (w : World) (o : Options) (draws : Nat)
    (hprob : o.opt_throttle_prob = 1) (heq : o.opt_throttle_max = o.opt_throttle_min) :
    pick_throttle w o draws = .error .divByZero := by
  unfold pick_throttle
  rw [if_pos (by rw [hprob]; norm_num), if_pos (by rw [hprob]; exact drand48_lt_one w draws), heq,
    sub_self]
  rfl

theorem pick_url_no_repeat (w : World) (o : Options) (inp : Inputs) (draws : Nat)
    (cur_url prev_url : Int) (hrep : o.opt_repeat_prob = 0) (hurl : inp.url ≠ []) :
    ∃ r, pick_url w o inp draws cur_url prev_url = .ok r := by
  unfold pick_url
  rw [if_neg (fun h => h.1 hrep)]
  simp only [hrep, ne_eq, not_true_eq_false, if_false]
  cases o.opt_random
  · exact ⟨_, rfl⟩
  · have hlen : 0 < inp.url.length := List.length_pos.mpr hurl
    simp only [if_true, c_mod_pos _ _ (lrand48_range w draws).1
      (show (0 : Int) < (inp.url.length : Int) by exact_mod_cast hlen)]
    exact ⟨_, rfl⟩

theorem refill_one_equal_rates (w : World) (o : Options) (inp : Inputs) (s : State)
    (hprob : o.opt_throttle_prob = 1) (heq : o.opt_throttle_max = o.opt_throttle_min)
    (hrep : o.opt_repeat_prob = 0) (hbr : o.opt_br_prob = 0) (hurl : inp.url ≠ []) :
    refill_one w o inp s = .error .divByZero := by
  obtain ⟨⟨url_id, draws1, cur_url, prev_url, lines1⟩, hp⟩ :=
    pick_url_no_repeat w o inp s.draws s.cur_url s.prev_url hrep hurl
  have hb : pick_byterange w o inp draws1 url_id = .ok (0, 0, draws1, []) := by
    unfold pick_byterange
    rw [if_neg (by simp [hbr])]
  unfold refill_one
  rw [hp]
  simp only [hb, pick_throttle_equal_rates w o _ hprob heq]

/-- C27 (code defect): the command line `-o 1 urls.txt` keeps the registered defaults
of `throttle-min` and `throttle-max`, which are both 10000000; the divisor
`opt_throttle_max - opt_throttle_min` is 0, so planning the first transaction, whose
throttle draw fires, divides by zero, for every state of the random generator. -/
theorem default_throttle_rates_divide_by_zero :
    ∃ o inp, parse_command_line ex_library ex_cmd_throttle = .ok (o, inp)
      ∧ o.opt_throttle_min = 10000000 ∧ o.opt_throttle_max = 10000000
      ∧ o.opt_throttle_max - o.opt_throttle_min = 0
      ∧ (∀ w draws, pick_throttle w o draws = .error .divByZero)
      ∧ ∀ w, refill_one w o inp initial_state = .error .divByZero :=
  ⟨_, _, rfl, rfl, rfl, rfl, fun w draws => pick_throttle_equal_rates w _ draws rfl rfl,
    fun w => refill_one_equal_rates w _ _ initial_state rfl rfl rfl rfl (by decide)⟩

/-! ## Reports of `finish_transaction` -/

theorem finish_report_skipped (w : World) (o : Options) (inp : Inputs) (t : transaction_t)
    (u : String) (hu : index inp.url t.url_id = .ok u)
    (hskip : o.opt_no_checks = true ∨ t.random_terminate_time < 0) :
    finish_report w o inp t 0
      = .ok (if o.opt_no_checks || o.opt_quiet then []
          else if t.byterange_end ≠ 0 then
            [LogLine.success_range u t.byterange_start t.byterange_end t.outfile.length]
          else [LogLine.success u t.outfile.length], !o.opt_no_checks) := by
  unfold finish_report
  rw [if_neg (by simp)]
  cases hnc : o.opt_no_checks
  · have hterm : t.random_terminate_time < 0 := by
      rcases hskip with h | h
      · rw [hnc] at h; cases h
      · exact h
    have h1 : ¬ (t.byterange_end = 0 ∧ 0 ≤ t.random_terminate_time
        ∧ inp.md5.length = inp.url.length) := fun h => absurd h.2.1 (not_le.mpr hterm)
    have h2 : ¬ (t.byterange_end ≠ 0 ∧ 0 ≤ t.random_terminate_time
        ∧ inp.local_list.length = inp.url.length) := fun h => absurd h.2.1 (not_le.mpr hterm)
    simp only [consistency_check, h1, h2, if_false, success_report_eq o inp t u hu, bind,
      Except.bind, pure, Except.pure, Bool.not_false, if_true, Bool.false_or]
  · rfl

/-- C24: for every live transaction finished with result 0, if the sink is Discard
(no-checks) or the transaction was operator-terminated (negative sentinel),
`finish_transaction` succeeds and logs nothing but the success line (nothing at all in
no-checks or quiet mode): no digest is compared and no md5 or size-mismatch error line
is logged, whatever the body, the byte range, the digest function or the expected
digests. -/
theorem verification_skipped (w : World) (o : Options) (inp : Inputs) (s : State)
    (t : transaction_t) (hc : Consistent inp s) (ht : t ∈ s.T)
    (hskip : o.opt_no_checks = true ∨ t.random_terminate_time < 0) :
    ∃ s1 u lines, index inp.url t.url_id = .ok u
      ∧ finish_transaction w o inp s t.curl 0 = .ok s1
      ∧ s1.log = s.log ++ lines
      ∧ lines = (if o.opt_no_checks || o.opt_quiet then []
          else if t.byterange_end ≠ 0 then
            [LogLine.success_range u t.byterange_start t.byterange_end t.outfile.length]
          else [LogLine.success u t.outfile.length])
      ∧ ∀ l ∈ lines, l.isFullFileMd5Error = false ∧ l.isByteRangeMd5Error = false
          ∧ l.isSizeMismatch = false := by
  have hid := hc.2.2.2.2.2.2.2 t ht
  obtain ⟨u, hu⟩ := index_ok inp.url t.url_id hid.1 hid.2
  have hrep := finish_report_skipped w o inp t u hu hskip
  obtain ⟨s1, hfin, _, _, _, hlog, _⟩ := finish_transaction_ok w o inp s t 0 _ _ hc ht hrep
  refine ⟨s1, u, _, hu, hfin, hlog, rfl, ?_⟩
  intro l hl
  split at hl
  · cases hl
  · split at hl
    · rw [List.mem_singleton] at hl
      subst hl
      exact ⟨rfl, rfl, rfl⟩
    · rw [List.mem_singleton] at hl
      subst hl
      exact ⟨rfl, rfl, rfl⟩

theorem ex_state_terminated_consistent : Consistent ex_inputs ex_state_terminated := by
  unfold Consistent live_handles ex_state_terminated ex_t_terminated ex_t initial_state ex_inputs
  simp [transaction_t.ctor]

theorem verification_skipped_witness :
    (Consistent ex_inputs ex_state_terminated ∧ ex_t_terminated ∈ ex_state_terminated.T
      ∧ (ex_options.opt_no_checks = true ∨ ex_t_terminated.random_terminate_time < 0))
    ∧ ∃ s1, finish_transaction ex_world ex_options ex_inputs ex_state_terminated
          ex_t_terminated.curl 0 = .ok s1
        ∧ s1.log = [LogLine.success "http://x/a" 1] := by
  have hskip : ex_options.opt_no_checks = true ∨ ex_t_terminated.random_terminate_time < 0 :=
    Or.inr (by norm_num [ex_t_terminated])
  refine ⟨⟨ex_state_terminated_consistent, List.mem_singleton.mpr rfl, hskip⟩, ?_⟩
  obtain ⟨s1, u, lines, hu, hfin, hlog, hlines, _⟩ :=
    verification_skipped ex_world ex_options ex_inputs ex_state_terminated ex_t_terminated
      ex_state_terminated_consistent (List.mem_singleton.mpr rfl) hskip
  have hu2 : index ex_inputs.url ex_t_terminated.url_id = .ok "http://x/a" := rfl
  rw [hu2] at hu
  injection hu with hu
  subst hu
  refine ⟨s1, hfin, ?_⟩
  rw [hlog, hlines]
  rfl

theorem finish_report_quiet (w : World) (o : Options) (inp : Inputs) (t : transaction_t)
    (result : Int) (u : String) (hu : index inp.url t.url_id = .ok u) :
    finish_report w { o with opt_quiet := true } inp t result
      = (finish_report w { o with opt_quiet := false } inp t result).map
          (fun r => (r.1.filter (fun l => !l.isSuccess && !l.isException), r.2)) := by
  have hq := success_report_eq { o with opt_quiet := true } inp t u hu
  have hn := success_report_eq { o with opt_quiet := false } inp t u hu
  simp only [if_true, Bool.false_eq_true, if_false] at hq hn
  unfold finish_report consistency_check
  simp only [hu, hq, hn, bind, Except.bind, pure, Except.pure, Except.map]
  generalize md5_compute w.md t.outfile 0 (wrap32 ((t.outfile.length : Int) - 1)) "" = r1
  generalize index inp.md5 t.url_id = r2
  generalize index inp.local_list t.url_id = r3
  by_cases hr : result ≠ 0
  · simp [hr, LogLine.isSuccess, LogLine.isException]
  rw [if_neg hr, if_neg hr]
  cases o.opt_no_checks
  swap
  · simp
  simp only [Bool.not_false, if_true, Bool.not_true, Bool.false_eq_true, if_false]
  by_cases hb : t.byterange_end = 0
  · by_cases hc1 : 0 ≤ t.random_terminate_time ∧ inp.md5.length = inp.url.length
    · simp only [hb, hc1, true_and, and_self, if_true]
      cases r1 with
      | error e => rfl
      | ok v =>
        cases r2 with
        | error e => rfl
        | ok v1 =>
          by_cases hv : v = v1 <;> simp [hv, LogLine.isSuccess, LogLine.isException]
    · simp [hb, hc1, LogLine.isSuccess, LogLine.isException]
  · by_cases hc2 : 0 ≤ t.random_terminate_time ∧ inp.local_list.length = inp.url.length
    · simp only [hb, false_and, if_false, ne_eq, not_false_eq_true, hc2, and_self, if_true]
      cases r1 with
      | error e => rfl
      | ok v =>
        cases r3 with
        | error e => rfl
        | ok name =>
          simp only
          generalize w.fs name = r4
          cases r4 with
          | none => simp [LogLine.isSuccess, LogLine.isException]
          | some lf =>
            simp only
            by_cases hgt : (t.outfile.length : Int) > range_length t
            · by_cases hsz : lf.length = t.outfile.length
              · simp only [hgt, hsz, if_true]
                cases r2 with
                | error e => rfl
                | ok v2 =>
                  by_cases hv : v = v2 <;> simp [hv, LogLine.isSuccess, LogLine.isException]
              · simp [hgt, hsz, LogLine.isSuccess, LogLine.isException]
            · simp only [hgt, if_false]
              generalize md5_compute w.md lf t.byterange_start t.byterange_end "" = r5
              cases r5 with
              | error e => rfl
              | ok v2 =>
                by_cases hv : v = v2 <;> simp [hv, LogLine.isSuccess, LogLine.isException]
    · simp [hb, hc2, LogLine.isSuccess, LogLine.isException]

/-- C23: for every live transaction of a consistent engine state and every completion
result, `finish_transaction` in quiet mode fails exactly when it fails in non-quiet
mode, and otherwise leaves the state the non-quiet run leaves (same live set, same
multi handle, same temporary files kept or unlinked) with a log that is the non-quiet
log without the 'success:' and 'first-download cache byte range exception' lines of this
call; the transfer error, md5 error and size mismatch lines are the same. -/
theorem quiet_hides_no_error (w : World) (o : Options) (inp : Inputs) (s : State)
    (t : transaction_t) (result : Int) (hc : Consistent inp s) (ht : t ∈ s.T) :
    finish_transaction w { o with opt_quiet := true } inp s t.curl result
      = (finish_transaction w { o with opt_quiet := false } inp s t.curl result).map
          (fun s1 => { s1 with
            log := s.log ++ (s1.log.drop s.log.length).filter
              (fun l => !l.isSuccess && !l.isException) })
    ∧ ∀ sq sn, finish_transaction w { o with opt_quiet := true } inp s t.curl result = .ok sq →
        finish_transaction w { o with opt_quiet := false } inp s t.curl result = .ok sn →
        sq.T = sn.T ∧ sq.tmpfiles = sn.tmpfiles
        ∧ sq.log.filter (fun l => l.isTransferError || l.isFullFileMd5Error
              || l.isByteRangeMd5Error || l.isSizeMismatch)
          = sn.log.filter (fun l => l.isTransferError || l.isFullFileMd5Error
              || l.isByteRangeMd5Error || l.isSizeMismatch) := by
  have hid := hc.2.2.2.2.2.2.2 t ht
  obtain ⟨u, hu⟩ := index_ok inp.url t.url_id hid.1 hid.2
  have hin : t.curl ∈ s.curl_to_T := hc.2.2.2.2.1 _ (List.mem_map.mpr ⟨t, ht, rfl⟩)
  have hfind := find_of_nodup s.T t hc.1 ht
  have hmain : finish_transaction w { o with opt_quiet := true } inp s t.curl result
      = (finish_transaction w { o with opt_quiet := false } inp s t.curl result).map
          (fun s1 => { s1 with
            log := s.log ++ (s1.log.drop s.log.length).filter
              (fun l => !l.isSuccess && !l.isException) }) := by
    unfold finish_transaction
    rw [if_pos hin, if_pos hin, hfind]
    simp only
    generalize (if (!t.currently_throttling) = true then curl_multi_remove_handle s.multi t.curl
      else Except.ok s.multi) = rm
    cases rm with
    | error e => rfl
    | ok multi =>
      simp only
      rw [finish_report_quiet w o inp t result u hu]
      generalize finish_report w { o with opt_quiet := false } inp t result = rep
      cases rep with
      | error e => rfl
      | ok r =>
        obtain ⟨lines, keep⟩ := r
        simp only [Except.map, List.drop_left]
  refine ⟨hmain, fun sq sn hq hn => ?_⟩
  rw [hn] at hmain
  rw [hmain] at hq
  simp only [Except.map, Except.ok.injEq] at hq
  subst hq
  refine ⟨rfl, rfl, ?_⟩
  obtain ⟨lines, keep, hrep⟩ : ∃ lines keep,
      finish_report w { o with opt_quiet := false } inp t result = .ok (lines, keep) := by
    cases hrep : finish_report w { o with opt_quiet := false } inp t result with
    | ok r => exact ⟨r.1, r.2, rfl⟩
    | error e =>
      exfalso
      unfold finish_transaction at hn
      rw [if_pos hin, hfind] at hn
      simp only [hrep] at hn
      split at hn <;> cases hn
  obtain ⟨s1, hfin, _, _, _, hlog, _⟩ :=
    finish_transaction_ok w { o with opt_quiet := false } inp s t result lines keep hc ht hrep
  rw [hn] at hfin
  injection hfin with hfin
  subst hfin
  simp only [hlog, List.drop_left, List.filter_append, List.filter_filter]
  congr 2
  funext l
  cases l <;> rfl

theorem ex_state_consistent : Consistent ex_inputs ex_state := by
  unfold Consistent live_handles ex_state ex_t initial_state ex_inputs
  simp [transaction_t.ctor]

theorem quiet_hides_no_error_witness :
    (Consistent ex_inputs ex_state ∧ ex_t ∈ ex_state.T)
    ∧ ∃ sq sn,
        finish_transaction ex_world { ex_options with opt_quiet := true } ex_inputs ex_state
          ex_t.curl 7 = .ok sq
        ∧ finish_transaction ex_world { ex_options with opt_quiet := false } ex_inputs ex_state
          ex_t.curl 7 = .ok sn
        ∧ sn.log = [LogLine.transfer_error "http://x/a" "" "/tmp/testfile.a"]
        ∧ sq.log = sn.log ∧ sq.tmpfiles = sn.tmpfiles :=
  ⟨⟨ex_state_consistent, List.mem_singleton.mpr rfl⟩, _, _, rfl, rfl, rfl, rfl,
    ((quiet_hides_no_error ex_world ex_options ex_inputs ex_state ex_t 7 ex_state_consistent
      (List.mem_singleton.mpr rfl)).2 _ _ rfl rfl).2.1⟩

/-! ## Composing the URL (`generate_url`) -/

theorem generate_url_as_is (w : World) (o : Options) (inp : Inputs) (url_id : Int)
    (draws : Nat) (u : String) (hs : inp.servers = [])
    (hq : ¬ (0 < o.opt_random_qstring_prob ∧ drand48 w draws < o.opt_random_qstring_prob))
    (hu : index inp.url url_id = .ok u) :
    generate_url w o inp url_id draws
      = .ok (u, u.length + 1, if 0 < o.opt_random_qstring_prob then draws + 1 else draws) := by
  unfold generate_url
  by_cases h0 : 0 < o.opt_random_qstring_prob
  · have h1 : ¬ drand48 w draws < o.opt_random_qstring_prob := fun h => hq ⟨h0, h⟩
    simp [hs, h0, h1, hu, bind, Except.bind, pure, Except.pure]
  · simp [hs, h0, hu, bind, Except.bind, pure, Except.pure]

theorem load_servers_not_given (lib : Library) (url : List String) :
    load_servers lib "" url = .ok (url, [], [], []) := rfl

/-- Without the `--server-list` option the loaded URLs are the lines of the URL file
and no server is loaded, so with no query string `generate_url` returns the
`url_id`-th line as it is. -/
theorem as_is_without_server_list (lib : Library) (cmd : CommandLine) (options : List option_t)
    (url_file : String) (o : Options) (inp : Inputs)
    (hopt : parse_options lib cmd = .ok (options, url_file))
    (hnone : quickget_string options "server-list" = "")
    (hload : parse_command_line lib cmd = .ok (o, inp)) :
    inp.servers = [] ∧ inp.url = (file_to_string_vector (lib.fopen url_file) []).2
      ∧ ∀ w url_id draws u,
          ¬ (0 < o.opt_random_qstring_prob ∧ drand48 w draws < o.opt_random_qstring_prob) →
          index inp.url url_id = .ok u →
          generate_url w o inp url_id draws
            = .ok (u, u.length + 1,
                if 0 < o.opt_random_qstring_prob then draws + 1 else draws) := by
  unfold parse_command_line at hload
  rw [hopt] at hload
  simp only at hload
  unfold load_inputs at hload
  rw [hnone, load_servers_not_given] at hload
  split at hload
  · cases hload
  · split at hload
    · cases hload
    · split at hload
      · cases hload
      · simp only [Except.ok.injEq, Prod.mk.injEq] at hload
        obtain ⟨_, h2⟩ := hload
        subst h2
        exact ⟨rfl, rfl, fun w url_id draws u hq hu =>
          generate_url_as_is w o _ url_id draws u rfl hq hu⟩

/-- C21 (code defect): with `--server-list empty.txt`, a readable file without any
entry, no server is loaded, yet every URL has been cut down to its path: for the URL
file lines `http://h/a` and `http://h/b/c`, `generate_url` returns `/a` and `/b/c`,
with no query string drawn, for every state of the random generator. -/
theorem empty_server_list_cuts_urls :
    ∃ o inp, parse_command_line ex_library_more (ex_cmd_servers "empty.txt") = .ok (o, inp)
      ∧ inp.servers = [] ∧ o.opt_random_qstring_prob = 0
      ∧ (file_to_string_vector (ex_library_more.fopen "urls.txt") []).2
          = ["http://h/a", "http://h/b/c"]
      ∧ ∀ w draws, generate_url w o inp 0 draws = .ok ("/a", 3, draws)
          ∧ generate_url w o inp 1 draws = .ok ("/b/c", 5, draws) :=
  ⟨_, _, rfl, rfl, rfl, rfl, fun w draws =>
    ⟨generate_url_as_is w _ _ 0 draws "/a" rfl (fun h => absurd h.1 (by decide)) rfl,
     generate_url_as_is w _ _ 1 draws "/b/c" rfl (fun h => absurd h.1 (by decide)) rfl⟩⟩

theorem wrr_loop_range (ws : List ℚ) (d : ℚ) (i : Nat) :
    wrr_loop ws d i = 0 ∨ (i ≤ wrr_loop ws d i ∧ wrr_loop ws d i < i + ws.length) := by
  induction ws generalizing d i with
  | nil => exact Or.inl rfl
  | cons x xs ih =>
    unfold wrr_loop
    by_cases h : d < 0
    · rw [if_pos h]
      exact Or.inr ⟨le_refl _, by simp⟩
    · rw [if_neg h]
      rcases ih (d - x) (i + 1) with h0 | ⟨h1, h2⟩
      · exact Or.inl h0
      · refine Or.inr ⟨by omega, ?_⟩
        rw [List.length_cons]
        omega

theorem weighted_round_robin_index (servers : List String) (weights : List ℚ) (d : ℚ)
    (hne : servers ≠ []) (hlen : weights.length = servers.length) :
    ∃ server, index servers (weighted_round_robin weights d) = .ok server
      ∧ server ∈ servers := by
  have hpos : 0 < servers.length := List.length_pos.mpr hne
  have hlt : weighted_round_robin weights d < servers.length := by
    unfold weighted_round_robin
    rcases wrr_loop_range weights d 0 with h0 | ⟨_, h2⟩
    · rw [h0]; exact hpos
    · omega
  unfold index
  rw [if_pos (by omega)]
  simp only [Int.toNat_ofNat, List.get?_eq_getElem?, List.getElem?_eq_getElem hlt]
  exact ⟨_, rfl, List.getElem_mem _⟩

theorem generate_url_composed (w : World) (o : Options) (inp : Inputs) (url_id : Int)
    (draws : Nat) (path : String) (hs : inp.servers ≠ [])
    (hq : o.opt_random_qstring_prob = 0) (hpath : index inp.url url_id = .ok path) :
    generate_url w o inp url_id draws
      = match index inp.servers (weighted_round_robin inp.server_weights (drand48 w draws)) with
        | .error e => .error e
        | .ok server =>
          if ("http://" ++ server ++ path).length + 1 ≤ path.length + (7 + 15 + 6) + 1
          then .ok ("http://" ++ server ++ path, path.length + (7 + 15 + 6) + 1, draws + 1)
          else .error .outOfRange := by
  have hs2 : inp.servers.isEmpty = false := by
    cases hsv : inp.servers with
    | nil => exact absurd hsv hs
    | cons x xs => rfl
  unfold generate_url
  simp only [hpath, hq, hs2, bind, Except.bind, pure, Except.pure, lt_self_iff_false, if_false,
    Bool.not_false, if_true, Bool.false_eq_true]
  cases index inp.servers ((weighted_round_robin inp.server_weights (drand48 w draws) : Nat) : Int)
    with
  | error e => rfl
  | ok server => simp

theorem generate_url_single_server (w : World) (o : Options) (inp : Inputs) (url_id : Int)
    (draws : Nat) (path server : String) (hservers : inp.servers = [server])
    (hlen : inp.server_weights.length = inp.servers.length)
    (hq : o.opt_random_qstring_prob = 0) (hpath : index inp.url url_id = .ok path)
    (hlong : path.length + (7 + 15 + 6) + 1 < ("http://" ++ server ++ path).length + 1) :
    generate_url w o inp url_id draws = .error .outOfRange := by
  have hne : inp.servers ≠ [] := by rw [hservers]; simp
  rw [generate_url_composed w o inp url_id draws path hne hq hpath]
  obtain ⟨server1, hidx, hmem⟩ := weighted_round_robin_index inp.servers inp.server_weights
    (drand48 w draws) hne hlen
  rw [hservers, List.mem_singleton] at hmem
  subst hmem
  rw [hidx]
  simp only
  rw [if_neg (by omega)]

/-- C26 (counterexample): the server list `names.txt` holds the 25-character server
`cache-01.example.com:8080`; for the path `/a` the composed string
`http://cache-01.example.com:8080/a` needs 35 characters with its terminator, while
the buffer `generate_url` allocates has 2 + 28 + 0 + 1 = 31: the string is written past
the end of the buffer, for every state of the random generator. -/
theorem long_server_name_overflows :
    ∃ o inp, parse_command_line ex_library_more (ex_cmd_servers "names.txt") = .ok (o, inp)
      ∧ inp.servers = ["cache-01.example.com:8080"] ∧ inp.url = ["/a", "/b/c"]
      ∧ ("http://" ++ "cache-01.example.com:8080" ++ "/a").length + 1 = 35
      ∧ "/a".length + (7 + 15 + 6) + "".length + 1 = 31
      ∧ ∀ w draws, generate_url w o inp 0 draws = .error .outOfRange :=
  ⟨_, _, rfl, rfl, rfl, by decide, by decide, fun w draws =>
    generate_url_single_server w _ _ 0 draws "/a" "cache-01.example.com:8080" rfl rfl rfl rfl
      (by decide)⟩

theorem generate_url_fits (w : World) (o : Options) (inp : Inputs) (url_id : Int)
    (draws : Nat) (hid : 0 ≤ url_id ∧ url_id < inp.url.length)
    (hlen : inp.server_weights.length = inp.servers.length)
    (hshort : ∀ s ∈ inp.servers, s.length ≤ 21) :
    ∃ text size d, generate_url w o inp url_id draws = .ok (text, size, d)
      ∧ text.length + 1 ≤ size := by
  obtain ⟨path, hpath⟩ := index_ok inp.url url_id hid.1 hid.2
  unfold generate_url
  simp only [hpath, bind, Except.bind, pure, Except.pure]
  generalize (if 0 < o.opt_random_qstring_prob then
      if drand48 w draws < o.opt_random_qstring_prob then
        ("?q=" ++ toString ⌊drand48 w (draws + 1) * 10000000⌋.toNat, draws + 2)
      else ("", draws + 1)
    else ("", draws)) = q
  obtain ⟨qstring, d⟩ := q
  cases hsv : inp.servers with
  | nil =>
    simp only [List.isEmpty_nil, Bool.not_true, Bool.false_eq_true, if_false, if_true,
      String.length_append, le_refl]
    exact ⟨_, _, _, rfl, by simp [String.length_append]⟩
  | cons x xs =>
    have hne : inp.servers ≠ [] := by rw [hsv]; simp
    obtain ⟨server, hidx, hmem⟩ := weighted_round_robin_index inp.servers inp.server_weights
      (drand48 w d) hne hlen
    have h21 := hshort server hmem
    rw [hsv] at hidx
    have h7 : "http://".length = 7 := by decide
    simp only [List.isEmpty_cons, Bool.not_false, if_true, Bool.false_eq_true, if_false, hidx,
      String.length_append, h7]
    rw [if_pos (by omega)]
    exact ⟨_, _, _, rfl, by simp only [String.length_append, h7]; omega⟩

theorem load_servers_lengths (lib : Library) (file : String)
    (url url1 servers hosts : List String) (server_weights : List ℚ)
    (h : load_servers lib file url = .ok (url1, servers, hosts, server_weights)) :
    server_weights.length = servers.length := by
  unfold load_servers at h
  split at h
  · split at h
    · cases h
    · cases hw : parse_weights lib (file_to_string_vector (lib.fopen file) []).2 with
      | error e => rw [hw] at h; cases h
      | ok r =>
        obtain ⟨names, raw⟩ := r
        rw [hw] at h
        simp only [Except.ok.injEq, Prod.mk.injEq] at h
        obtain ⟨_, e2, _, e4⟩ := h
        subst e2 e4
        obtain ⟨l1, l2⟩ := parse_weights_length lib _ _ _ hw
        simp [normalize, l1, l2]
  · simp only [Except.ok.injEq, Prod.mk.injEq] at h
    obtain ⟨_, e2, _, e4⟩ := h
    subst e2 e4
    rfl

theorem parse_command_line_lengths (lib : Library) (cmd : CommandLine) (o : Options)
    (inp : Inputs) (h : parse_command_line lib cmd = .ok (o, inp)) :
    inp.server_weights.length = inp.servers.length := by
  unfold parse_command_line at h
  split at h
  · cases h
  · unfold load_inputs at h
    split at h
    · cases h
    · split at h
      · cases h
      · split at h
        · cases h
        · split at h
          · cases h
          · rename_i hs
            simp only [Except.ok.injEq, Prod.mk.injEq] at h
            rw [← h.2]
            exact load_servers_lengths lib _ _ _ _ _ _ hs

/-- C26 (amended): for every loaded input whose server strings have at most 21
characters (a dotted-quad address with an optional port, as line 191 assumes), every
URL index of the list and every query string drawn, `generate_url` returns a string
that fits the buffer it allocates, terminator included. -/
theorem url_buffer_bound (lib : Library) (cmd : CommandLine) (o : Options) (inp : Inputs)
    (w : World) (url_id : Int) (draws : Nat)
    (hload : parse_command_line lib cmd = .ok (o, inp))
    (hid : 0 ≤ url_id ∧ url_id < inp.url.length)
    (hshort : ∀ s ∈ inp.servers, s.length ≤ 21) :
    ∃ text size d, generate_url w o inp url_id draws = .ok (text, size, d)
      ∧ text.length + 1 ≤ size :=
  generate_url_fits w o inp url_id draws hid (parse_command_line_lengths lib cmd o inp hload)
    hshort

theorem url_buffer_bound_witness :
    ∃ o inp, parse_command_line ex_library (ex_cmd_servers "servers.txt") = .ok (o, inp)
      ∧ inp.servers = ["s1", "s2"] ∧ inp.url = ["/a", "/b/c"]
      ∧ ∀ w draws, ∃ text size d, generate_url w o inp 1 draws = .ok (text, size, d)
          ∧ text.length + 1 ≤ size :=
  ⟨_, _, rfl, rfl, rfl, fun w draws =>
    url_buffer_bound ex_library (ex_cmd_servers "servers.txt") _ _ w 1 draws rfl
      (by decide) (by decide)⟩

/-! ## The active set of the transport -/

theorem consistent_sets (inp : Inputs) (s : State) (hc : Consistent inp s) :
    (∀ h, h ∈ s.multi ↔ ∃ t ∈ s.T, t.curl = h ∧ t.currently_throttling = false)
    ∧ (∀ h, h ∈ s.curl_to_T ↔ ∃ t ∈ s.T, t.curl = h) := by
  obtain ⟨_, _, _, hcl, hlc, hml, hflag, _⟩ := hc
  constructor
  · intro h
    constructor
    · intro hm
      obtain ⟨t, ht, rfl⟩ := List.mem_map.mp (hml h hm)
      exact ⟨t, ht, rfl, (hflag t ht).mp hm⟩
    · rintro ⟨t, ht, rfl, hf⟩
      exact (hflag t ht).mpr hf
  · intro h
    constructor
    · intro hm
      obtain ⟨t, ht, rfl⟩ := List.mem_map.mp (hcl h hm)
      exact ⟨t, ht, rfl⟩
    · rintro ⟨t, ht, rfl⟩
      exact hlc _ (List.mem_map.mpr ⟨t, ht, rfl⟩)

theorem finish_transaction_report_error (w : World) (o : Options) (inp : Inputs) (s : State)
    (t : transaction_t) (result : Int) (e : Fault) (hc : Consistent inp s) (ht : t ∈ s.T)
    (hrep : finish_report w o inp t result = .error e) :
    finish_transaction w o inp s t.curl result = .error e := by
  have hin : t.curl ∈ s.curl_to_T := hc.2.2.2.2.1 _ (List.mem_map.mpr ⟨t, ht, rfl⟩)
  have hfind := find_of_nodup s.T t hc.1 ht
  unfold finish_transaction
  rw [if_pos hin, hfind]
  simp only
  cases hct : t.currently_throttling
  · have hm : t.curl ∈ s.multi := (hc.2.2.2.2.2.2.1 t ht).mpr hct
    simp only [Bool.not_false, if_true, curl_multi_remove_handle, if_pos hm, hrep]
  · simp only [Bool.not_true, Bool.false_eq_true, if_false, hrep]

theorem receive_throttled (o : Options) (inp : Inputs) (s : State) (t : transaction_t)
    (data : List Byte) (hc : Consistent inp s) (ht : t ∈ s.T)
    (hthr : t.currently_throttling = true) : receive o s t.curl data = s := by
  have hnot : t.curl ∉ s.multi := fun hm => by
    have := (hc.2.2.2.2.2.2.1 t ht).mp hm
    rw [hthr] at this
    cases this
  unfold receive
  rw [if_neg hnot]

/-- C25: every state the engine loop reaches from the initial state is consistent: the
multi handle (the transport's active set) holds exactly the handles of the live
transactions that are not throttled, and `curl_to_T` maps exactly the handles of the
live transactions.  Consistency is kept by every engine operation: a refill pass,
the delivery of bytes, `finish_transaction` after a completion, and the visit of a
live transaction by the simulate loop (throttle suspend, throttle resume, operator
termination), which always succeeds.  Hence in these states a throttled transaction
receives no bytes, the handle of a live transaction is in the multi handle exactly when
`finish_transaction` takes it out, and `finish_transaction` on a live handle fails only
if its report fails: never through its lookup assertions or the removal. -/
theorem active_set_invariant (w : World) (o : Options) (inp : Inputs) :
    (∀ evs s, run w o inp evs initial_state = .ok s → Consistent inp s ∧ handles_bounded s)
    ∧ (∀ s, Consistent inp s →
        (∀ h, h ∈ s.multi ↔ ∃ t ∈ s.T, t.curl = h ∧ t.currently_throttling = false)
        ∧ (∀ h, h ∈ s.curl_to_T ↔ ∃ t ∈ s.T, t.curl = h))
    ∧ (∀ s s1, Consistent inp s → handles_bounded s → refill_one w o inp s = .ok s1 →
        Consistent inp s1 ∧ handles_bounded s1)
    ∧ (∀ s h data, Consistent inp s → Consistent inp (receive o s h data))
    ∧ (∀ s s1 handle result, Consistent inp s →
        finish_transaction w o inp s handle result = .ok s1 → Consistent inp s1)
    ∧ (∀ s now t, Consistent inp s → t ∈ s.T →
        ∃ s1 k, simulate_visit w o inp now s t = .ok (s1, k) ∧ Consistent inp s1)
    ∧ (∀ s t, Consistent inp s → t ∈ s.T →
        (t.currently_throttling = true → ∀ data, receive o s t.curl data = s)
        ∧ (t.curl ∈ s.multi ↔ t.currently_throttling = false)
        ∧ ∀ result,
            (∀ e, finish_report w o inp t result = .error e →
              finish_transaction w o inp s t.curl result = .error e)
            ∧ (∀ lines keep, finish_report w o inp t result = .ok (lines, keep) →
              ∃ s1, finish_transaction w o inp s t.curl result = .ok s1
                ∧ Consistent inp s1 ∧ t.curl ∉ s1.multi ∧ t.curl ∉ s1.curl_to_T)) := by
  refine ⟨fun evs s h => ?_, fun s hc => consistent_sets inp s hc,
    fun s s1 hc hb h => refill_one_consistent w o inp s s1 hc hb h,
    fun s h data hc => (receive_consistent o inp s h data hc).1,
    fun s s1 handle result hc h => (finish_transaction_consistent w o inp s s1 handle result hc h).1,
    fun s now t hc ht => ?_, fun s t hc ht => ⟨fun hthr data => receive_throttled o inp s t data hc ht hthr,
      hc.2.2.2.2.2.2.1 t ht, fun result => ⟨fun e he =>
        finish_transaction_report_error w o inp s t result e hc ht he, fun lines keep hrep => ?_⟩⟩⟩
  · exact run_consistent w o inp evs initial_state s (initial_state_consistent inp).1
      (initial_state_consistent inp).2 h
  · obtain ⟨s1, k, h1, h2, _⟩ := simulate_visit_ok w o inp now s t hc ht
    exact ⟨s1, k, h1, h2⟩
  · obtain ⟨s1, hfin, hc1, hlive, _⟩ := finish_transaction_ok w o inp s t result lines keep hc ht hrep
    have hgone : t.curl ∉ live_handles s1 := by
      rw [hlive]
      exact fun hm => ((List.Nodup.mem_erase_iff hc.1).mp hm).1 rfl
    exact ⟨s1, hfin, hc1, fun hm => hgone (hc1.2.2.2.2.2.1 _ hm),
      fun hm => hgone (hc1.2.2.2.1 _ hm)⟩

theorem active_set_invariant_witness :
    ∃ s, run ex_world ex_options_two ex_inputs_plain ex_events initial_state = .ok s
      ∧ s.multi = [2, 3] ∧ s.curl_to_T = [3, 2] ∧ live_handles s = [2, 3]
      ∧ Consistent ex_inputs_plain s :=
  ⟨_, rfl, rfl, rfl, rfl,
    ((active_set_invariant ex_world ex_options_two ex_inputs_plain).1 ex_events _ rfl).1⟩

/-! ## Sequential selection -/

theorem finish_transaction_plan (P : Nat → Int → Prop) (w : World) (o : Options) (inp : Inputs)
    (s s1 : State) (handle : Nat) (result : Int)
    (h : finish_transaction w o inp s handle result = .ok s1)
    (hP : ∀ t ∈ s.T, P t.curl t.url_id) :
    (∀ t ∈ s1.T, P t.curl t.url_id) ∧ s1.cur_url = s.cur_url ∧ s1.handles = s.handles := by
  unfold finish_transaction at h
  split at h
  · split at h
    · exact absurd h (by simp)
    · split at h
      · exact absurd h (by simp)
      · split at h
        · exact absurd h (by simp)
        · injection h with h
          subst h
          exact ⟨fun t ht => hP t (List.mem_of_mem_eraseP ht), rfl, rfl⟩
  · exact absurd h (by simp)

theorem map_plan (P : Nat → Int → Prop) (T : List transaction_t)
    (f : transaction_t → transaction_t) (hf : ∀ t ∈ T, P (f t).curl (f t).url_id) :
    ∀ t ∈ T.map f, P t.curl t.url_id := by
  intro t ht
  obtain ⟨x, hx, rfl⟩ := List.mem_map.mp ht
  exact hf x hx

theorem receive_plan (P : Nat → Int → Prop) (o : Options) (s : State) (h : Nat)
    (data : List Byte) (hP : ∀ t ∈ s.T, P t.curl t.url_id) :
    (∀ t ∈ (receive o s h data).T, P t.curl t.url_id)
    ∧ (receive o s h data).cur_url = s.cur_url ∧ (receive o s h data).handles = s.handles := by
  unfold receive
  split
  · split
    · refine ⟨map_plan P s.T _ (fun t ht => ?_), rfl, rfl⟩
      split
      · exact hP t ht
      · exact hP t ht
    · refine ⟨map_plan P s.T _ (fun t ht => ?_), rfl, rfl⟩
      split
      · exact hP t ht
      · exact hP t ht
  · exact ⟨hP, rfl, rfl⟩

theorem perform_plan (P : Nat → Int → Prop) (o : Options) (received : List (Nat × List Byte))
    (s : State) (hP : ∀ t ∈ s.T, P t.curl t.url_id) :
    (∀ t ∈ (perform o received s).T, P t.curl t.url_id)
    ∧ (perform o received s).cur_url = s.cur_url ∧ (perform o received s).handles = s.handles := by
  unfold perform
  induction received generalizing s with
  | nil => exact ⟨hP, rfl, rfl⟩
  | cons p ps ih =>
    rw [List.foldl_cons]
    obtain ⟨h1, h2, h3⟩ := receive_plan P o s p.1 p.2 hP
    obtain ⟨i1, i2, i3⟩ := ih (receive o s p.1 p.2) h1
    exact ⟨i1, i2.trans h2, i3.trans h3⟩

theorem drain_plan (P : Nat → Int → Prop) (w : World) (o : Options) (inp : Inputs) :
    ∀ (done : List (Nat × Int)) (s s1 : State), drain w o inp done s = .ok s1 →
      (∀ t ∈ s.T, P t.curl t.url_id) →
      (∀ t ∈ s1.T, P t.curl t.url_id) ∧ s1.cur_url = s.cur_url ∧ s1.handles = s.handles := by
  intro done
  induction done with
  | nil =>
    intro s s1 h hP
    unfold drain at h
    injection h with h
    subst h
    exact ⟨hP, rfl, rfl⟩
  | cons m ms ih =>
    intro s s1 h hP
    obtain ⟨handle, r⟩ := m
    unfold drain at h
    split at h
    · rename_i s2 hfin
      obtain ⟨h1, h2, h3⟩ := finish_transaction_plan P w o inp s s2 handle r hfin hP
      obtain ⟨i1, i2, i3⟩ := ih _ s1 h h1
      exact ⟨i1, i2.trans h2, i3.trans h3⟩
    · exact absurd h (by simp)

theorem throttle_step_url (o : Options) (now : Int) (multi multi1 : List Nat)
    (t t1 : transaction_t) (h : throttle_step o now multi t = .ok (multi1, t1)) :
    t1.url_id = t.url_id := by
  unfold throttle_step at h
  simp only at h
  generalize (if (!o.opt_no_checks) = true then t.outfile.length else t.bytes_sent) = bs at h
  split at h
  · split at h
    · injection h with h; injection h with _ h; subst h; rfl
    · exact absurd h (by simp)
  · split at h
    · split at h
      · injection h with h; injection h with _ h; subst h; rfl
      · exact absurd h (by simp)
    · injection h with h; injection h with _ h; subst h; rfl

theorem simulate_visit_plan (P : Nat → Int → Prop) (w : World) (o : Options) (inp : Inputs)
    (now : Int) (s s1 : State) (t : transaction_t) (k : Nat)
    (h : simulate_visit w o inp now s t = .ok (s1, k))
    (hP : ∀ t ∈ s.T, P t.curl t.url_id) (ht : P t.curl t.url_id) :
    (∀ t ∈ s1.T, P t.curl t.url_id) ∧ s1.cur_url = s.cur_url ∧ s1.handles = s.handles := by
  unfold simulate_visit at h
  split at h
  · split at h
    · exact absurd h (by simp)
    · split at h
      · rename_i s2 hfin
        injection h with h
        injection h with h _
        subst h
        have hmap : ∀ x ∈ s.T.map (fun x =>
            if x.curl = t.curl then { t with random_terminate_time := -1 } else x),
            P x.curl x.url_id := by
          refine map_plan P s.T _ (fun x hx => ?_)
          split
          · exact ht
          · exact hP x hx
        have hplan := finish_transaction_plan P w o inp _ s2 _ _ hfin hmap
        exact hplan
      · exact absurd h (by simp)
  · split at h
    · split at h
      · rename_i multi t1 hstep
        injection h with h
        injection h with h _
        subst h
        refine ⟨map_plan P s.T _ (fun x hx => ?_), rfl, rfl⟩
        split
        · rw [throttle_step_curl _ _ _ _ _ _ hstep, throttle_step_url _ _ _ _ _ _ hstep]
          exact ht
        · exact hP x hx
      · exact absurd h (by simp)
    · injection h with h
      injection h with h _
      subst h
      exact ⟨hP, rfl, rfl⟩

theorem simulate_loop_plan (P : Nat → Int → Prop) (w : World) (o : Options) (inp : Inputs)
    (now : Int) :
    ∀ (ts : List transaction_t) (s s1 : State) (n k : Nat),
      simulate_loop w o inp now ts s n = .ok (s1, k) →
      (∀ t ∈ s.T, P t.curl t.url_id) → (∀ t ∈ ts, P t.curl t.url_id) →
      (∀ t ∈ s1.T, P t.curl t.url_id) ∧ s1.cur_url = s.cur_url ∧ s1.handles = s.handles := by
  intro ts
  induction ts with
  | nil =>
    intro s s1 n k h hP _
    unfold simulate_loop at h
    injection h with h
    injection h with h _
    subst h
    exact ⟨hP, rfl, rfl⟩
  | cons t ts ih =>
    intro s s1 n k h hP hts
    unfold simulate_loop at h
    split at h
    · rename_i s2 k2 hv
      obtain ⟨h1, h2, h3⟩ := simulate_visit_plan P w o inp now s s2 t k2 hv hP
        (hts t (List.mem_cons_self t ts))
      obtain ⟨i1, i2, i3⟩ := ih s2 s1 _ k h h1 (fun x hx => hts x (List.mem_cons_of_mem t hx))
      exact ⟨i1, i2.trans h2, i3.trans h3⟩
    · exact absurd h (by simp)

theorem after_refill_plan (P : Nat → Int → Prop) (w : World) (o : Options) (inp : Inputs)
    (ev : Events) (s s1 : State) (h : after_refill w o inp ev s = .ok s1)
    (hP : ∀ t ∈ s.T, P t.curl t.url_id) :
    (∀ t ∈ s1.T, P t.curl t.url_id) ∧ s1.cur_url = s.cur_url ∧ s1.handles = s.handles := by
  unfold after_refill at h
  split at h
  · split at h
    · injection h with h; subst h; exact ⟨hP, rfl, rfl⟩
    · exact absurd h (by simp)
  · split at h
    · exact absurd h (by simp)
    · rename_i s2 hdrain
      split at h
      · exact absurd h (by simp)
      · rename_i s3 k hsim
        injection h with h
        subst h
        obtain ⟨p1, p2, p3⟩ := perform_plan P o ev.received s hP
        obtain ⟨d1, d2, d3⟩ := drain_plan P w o inp ev.done _ s2 hdrain p1
        have hs : (∀ t ∈ s3.T, P t.curl t.url_id) ∧ s3.cur_url = s2.cur_url
            ∧ s3.handles = s2.handles := by
          unfold simulate at hsim
          split at hsim
          · have hplan := simulate_loop_plan P w o inp _ _ _ s3 0 k hsim d1 d1
            exact hplan
          · injection hsim with hsim
            injection hsim with hsim _
            subst hsim
            exact ⟨d1, rfl, rfl⟩
        obtain ⟨q1, q2, q3⟩ := hs
        unfold status_tick
        split
        · exact ⟨q1, q2.trans (d2.trans p2), q3.trans (d3.trans p3)⟩
        · exact ⟨q1, q2.trans (d2.trans p2), q3.trans (d3.trans p3)⟩

theorem pick_url_sequential (w : World) (o : Options) (inp : Inputs) (draws : Nat)
    (cur_url prev_url : Int) (hseq : o.opt_random = false) (hrep : o.opt_repeat_prob = 0)
    (hint : inp.url.length ≤ 2147483647)
    (hcur : 0 ≤ cur_url ∧ cur_url < inp.url.length) :
    pick_url w o inp draws cur_url prev_url
      = .ok (cur_url, draws, (cur_url + 1) % (inp.url.length : Int), cur_url, []) := by
  unfold pick_url
  rw [if_neg (fun h => h.1 hrep)]
  simp only [hrep, hseq, ne_eq, not_true_eq_false, if_false, Bool.false_eq_true]
  rw [wrap32_of_range (x := cur_url + 1) (by omega) (by omega),
    toU32_of_range (x := cur_url + 1) (by omega) (by omega)]
  by_cases hlast : cur_url + 1 = inp.url.length
  · rw [if_pos (by omega), hlast, Int.emod_self]
  · rw [if_neg (by omega), Int.emod_eq_of_lt (by omega) (by omega)]

theorem refill_one_sequential (w : World) (o : Options) (inp : Inputs) (s s1 : State)
    (hseq : o.opt_random = false) (hrep : o.opt_repeat_prob = 0)
    (hint : inp.url.length ≤ 2147483647)
    (hcur : 0 ≤ s.cur_url ∧ s.cur_url < inp.url.length)
    (h : refill_one w o inp s = .ok s1) :
    ∃ t, s1.T = s.T ++ [t] ∧ t.curl = s.handles + 1 ∧ t.url_id = s.cur_url
      ∧ s1.cur_url = (s.cur_url + 1) % (inp.url.length : Int)
      ∧ s1.handles = s.handles + 1 := by
  unfold refill_one at h
  rw [pick_url_sequential w o inp s.draws s.cur_url s.prev_url hseq hrep hint hcur] at h
  simp only at h
  split at h
  · exact absurd h (by simp)
  · split at h
    · exact absurd h (by simp)
    · split at h
      · exact absurd h (by simp)
      · rename_i t draws5 hsetup
        split at h
        · exact absurd h (by simp)
        · injection h with h
          subst h
          obtain ⟨hc, hu, _⟩ := setup_transaction_curl _ _ _ _ _ _ _ _ hsetup
          exact ⟨t, rfl, hc, hu, rfl, rfl⟩

theorem succ_emod_cast (h N : Nat) :
    (((h % N : Nat) : Int) + 1) % (N : Int) = (((h + 1) % N : Nat) : Int) := by
  push_cast
  rw [Int.emod_add_emod]

theorem refill_one_round_robin (w : World) (o : Options) (inp : Inputs) (s s1 : State)
    (hseq : o.opt_random = false) (hrep : o.opt_repeat_prob = 0)
    (hN : 1 ≤ inp.url.length) (hint : inp.url.length ≤ 2147483647)
    (hcur : s.cur_url = ((s.handles % inp.url.length : Nat) : Int))
    (hT : ∀ t ∈ s.T, 1 ≤ t.curl ∧ t.url_id = (((t.curl - 1) % inp.url.length : Nat) : Int))
    (h : refill_one w o inp s = .ok s1) :
    s1.cur_url = ((s1.handles % inp.url.length : Nat) : Int)
    ∧ ∀ t ∈ s1.T, 1 ≤ t.curl ∧ t.url_id = (((t.curl - 1) % inp.url.length : Nat) : Int) := by
  have hlt : s.handles % inp.url.length < inp.url.length := Nat.mod_lt _ (by omega)
  obtain ⟨t, h1, h2, h3, h4, h5⟩ := refill_one_sequential w o inp s s1 hseq hrep hint
    (by rw [hcur]; exact ⟨by omega, by exact_mod_cast hlt⟩) h
  constructor
  · rw [h4, h5, hcur, succ_emod_cast]
  · intro x hx
    rw [h1, List.mem_append, List.mem_singleton] at hx
    rcases hx with hx | hx
    · exact hT x hx
    · subst hx
      rw [h2, h3, hcur]
      exact ⟨by omega, by simp⟩

theorem refill_loop_round_robin (w : World) (o : Options) (inp : Inputs)
    (hseq : o.opt_random = false) (hrep : o.opt_repeat_prob = 0)
    (hN : 1 ≤ inp.url.length) (hint : inp.url.length ≤ 2147483647) :
    ∀ (n : Nat) (s s1 : State),
      s.cur_url = ((s.handles % inp.url.length : Nat) : Int) →
      (∀ t ∈ s.T, 1 ≤ t.curl ∧ t.url_id = (((t.curl - 1) % inp.url.length : Nat) : Int)) →
      refill_loop w o inp n s = .ok s1 →
      s1.cur_url = ((s1.handles % inp.url.length : Nat) : Int)
      ∧ ∀ t ∈ s1.T, 1 ≤ t.curl ∧ t.url_id = (((t.curl - 1) % inp.url.length : Nat) : Int) := by
  intro n
  induction n with
  | zero =>
    intro s s1 hc hT h
    unfold refill_loop at h
    injection h with h
    subst h
    exact ⟨hc, hT⟩
  | succ n ih =>
    intro s s1 hc hT h
    unfold refill_loop at h
    split at h
    · split at h
      · rename_i s2 hone
        obtain ⟨c2, t2⟩ := refill_one_round_robin w o inp s s2 hseq hrep hN hint hc hT hone
        exact ih s2 s1 c2 t2 h
      · exact absurd h (by simp)
    · injection h with h
      subst h
      exact ⟨hc, hT⟩

theorem run_round_robin (w : World) (o : Options) (inp : Inputs)
    (hseq : o.opt_random = false) (hrep : o.opt_repeat_prob = 0)
    (hN : 1 ≤ inp.url.length) (hint : inp.url.length ≤ 2147483647) :
    ∀ (evs : List Events) (s s1 : State),
      s.cur_url = ((s.handles % inp.url.length : Nat) : Int) →
      (∀ t ∈ s.T, 1 ≤ t.curl ∧ t.url_id = (((t.curl - 1) % inp.url.length : Nat) : Int)) →
      run w o inp evs s = .ok s1 →
      s1.cur_url = ((s1.handles % inp.url.length : Nat) : Int)
      ∧ ∀ t ∈ s1.T, 1 ≤ t.curl ∧ t.url_id = (((t.curl - 1) % inp.url.length : Nat) : Int) := by
  intro evs
  induction evs with
  | nil =>
    intro s s1 hc hT h
    unfold run at h
    injection h with h
    subst h
    exact ⟨hc, hT⟩
  | cons ev evs ih =>
    intro s s1 hc hT h
    unfold run at h
    split at h
    · rename_i s2 hit
      unfold engine_iteration at hit
      split at hit
      · rename_i s3 hre
        obtain ⟨c3, t3⟩ := refill_loop_round_robin w o inp hseq hrep hN hint _ s s3 hc hT hre
        obtain ⟨a1, a2, a3⟩ := after_refill_plan
          (fun c u => 1 ≤ c ∧ u = (((c - 1) % inp.url.length : Nat) : Int)) w o inp ev s3 s2 hit t3
        exact ih s2 s1 (by rw [a2, a3]; exact c3) a1 h
      · exact absurd hit (by simp)
    · exact absurd h (by simp)

/-- C22: with sequential selection, `repeat_prob = 0` and a URL list of N entries,
1 <= N <= INT_MAX, in every state the engine loop reaches and in every state of the
refill loop that follows, `cur_url` is the number of transactions created so far
modulo N (so it stays in [0, N)), and every live transaction, whose easy handle k + 1
says it was the k-th created (k = 0, 1, 2, ...), has `url_id = k mod N`. -/
theorem sequential_round_robin (w : World) (o : Options) (inp : Inputs)
    (hseq : o.opt_random = false) (hrep : o.opt_repeat_prob = 0)
    (hN : 1 ≤ inp.url.length) (hint : inp.url.length ≤ 2147483647)
    (evs : List Events) (n : Nat) (s s1 : State)
    (hrun : run w o inp evs initial_state = .ok s)
    (hrefill : refill_loop w o inp n s = .ok s1) :
    (0 ≤ s1.cur_url ∧ s1.cur_url < inp.url.length)
    ∧ s1.cur_url = ((s1.handles % inp.url.length : Nat) : Int)
    ∧ (∀ t ∈ s1.T, 1 ≤ t.curl ∧ t.url_id = (((t.curl - 1) % inp.url.length : Nat) : Int))
    ∧ (∀ s2, refill_one w o inp s1 = .ok s2 →
        ∃ t, s2.T = s1.T ++ [t] ∧ t.curl = s1.handles + 1
          ∧ t.url_id = ((s1.handles % inp.url.length : Nat) : Int)) := by
  obtain ⟨c1, t1⟩ := run_round_robin w o inp hseq hrep hN hint evs initial_state s rfl
    (fun t ht => absurd ht (List.not_mem_nil t)) hrun
  obtain ⟨c2, t2⟩ := refill_loop_round_robin w o inp hseq hrep hN hint n s s1 c1 t1 hrefill
  have hlt : s1.handles % inp.url.length < inp.url.length := Nat.mod_lt _ (by omega)
  have hrange : 0 ≤ s1.cur_url ∧ s1.cur_url < inp.url.length := by
    rw [c2]
    exact ⟨by omega, by exact_mod_cast hlt⟩
  refine ⟨hrange, c2, t2, fun s2 h2 => ?_⟩
  obtain ⟨t, h1, h2', h3, _, _⟩ := refill_one_sequential w o inp s1 s2 hseq hrep hint hrange h2
  exact ⟨t, h1, h2', by rw [h3, c2]⟩

theorem sequential_round_robin_witness :
    (ex_options_two.opt_random = false ∧ ex_options_two.opt_repeat_prob = 0
      ∧ 1 ≤ ex_inputs_two.url.length ∧ ex_inputs_two.url.length ≤ 2147483647)
    ∧ ∃ s, run ex_world ex_options_two ex_inputs_two ex_events initial_state = .ok s
      ∧ refill_loop ex_world ex_options_two ex_inputs_two 1 s = .ok s
      ∧ s.T.map (fun t => (t.curl, t.url_id)) = [(2, 1), (3, 0)]
      ∧ s.handles = 3 ∧ s.cur_url = 1
      ∧ (0 ≤ s.cur_url ∧ s.cur_url < ex_inputs_two.url.length) :=
  ⟨⟨rfl, rfl, by decide, by decide⟩, _, rfl, rfl, rfl, rfl, rfl,
    (sequential_round_robin ex_world ex_options_two ex_inputs_two rfl rfl (by decide) (by decide)
      ex_events 1 _ _ rfl rfl).1⟩

/-! ## Bodies beyond the `int` offsets of `md5_compute` -/

theorem md5_compute_truncated (md : List Byte → List Byte) (body : List Byte)
    (hlen : body.length = 2147483649) :
    md5_compute md body 0 (wrap32 ((body.length : Int) - 1)) ""
      = .ok (hexString (md (body.take 102400))) := by
  have hw : wrap32 (((2147483649 : Nat) : Int) - 1) = -2147483648 := by decide
  have hreq : read_request 0 (-2147483648) = 102400 := by decide
  have hchunk : fread body 0 102400 = body.take 102400 := rfl
  have hclen : (body.take 102400).length = 102400 := by
    rw [List.length_take, hlen]
    decide
  have hstop : ¬ wrap32 (0 + ((102400 : Nat) : Int)) ≤ -2147483648 := by decide
  rw [hlen, hw]
  unfold md5_compute
  have h0 : (0 : Int).toNat = 0 := rfl
  rw [if_neg (by decide), md5_loop]
  simp only [h0, hreq, hchunk, hclen]
  rw [if_neg (by decide), if_neg hstop]
  simp

theorem finish_report_truncated_body (w : World) (o : Options) (inp : Inputs)
    (t : transaction_t) (truth u part : String)
    (hsink : o.opt_no_checks = false) (hrange : t.byterange_end = 0)
    (hterm : 0 ≤ t.random_terminate_time) (hmd5 : inp.md5.length = inp.url.length)
    (htruth : index inp.md5 t.url_id = .ok truth) (hurl : index inp.url t.url_id = .ok u)
    (hlen : t.outfile.length = 2147483649)
    (hpart : hexString (w.md (t.outfile.take 102400)) = part) (hne : part ≠ truth) :
    finish_report w o inp t 0
      = .ok ([LogLine.full_file_md5_error u truth part t.outfile.length t.outfile_name],
          true) := by
  have hx := md5_compute_truncated w.md t.outfile hlen
  rw [hpart] at hx
  have hfirst : t.byterange_end = 0 ∧ 0 ≤ t.random_terminate_time
      ∧ inp.md5.length = inp.url.length := ⟨hrange, hterm, hmd5⟩
  unfold finish_report consistency_check
  simp only [hsink, hx, htruth, hurl, bind, Except.bind, pure, Except.pure]
  simp [hfirst, hne]

theorem ex_body_huge_length : ex_body_huge.length = 2147483649 := by
  unfold ex_body_huge
  rw [List.length_append, List.length_replicate]
  rfl

theorem ex_body_huge_digest :
    hexString (ex_world.md ex_body_huge) = "01010101010101010101010101010101" := by
  have hsum : ex_body_huge.sum = 1 := by
    unfold ex_body_huge
    rw [List.sum_append, List.sum_replicate]
    simp
  have hmd : ex_world.md ex_body_huge = List.replicate 16 ex_body_huge.sum := rfl
  rw [hmd, hsum]
  rfl

theorem ex_body_huge_first_chunk :
    hexString (ex_world.md (ex_body_huge.take 102400)) = "00000000000000000000000000000000" := by
  have htake : ex_body_huge.take 102400 = List.replicate 102400 0 := by
    unfold ex_body_huge
    rw [List.take_append_of_le_length (by rw [List.length_replicate]; decide),
      List.take_replicate]
    rfl
  have hsum : (List.replicate 102400 (0 : Byte)).sum = 0 := by
    rw [List.sum_replicate]
    simp
  have hmd : ex_world.md (List.replicate 102400 0)
      = List.replicate 16 (List.replicate 102400 (0 : Byte)).sum := rfl
  rw [htake, hmd, hsum]
  rfl

/-- C5 (counterexample): a captured body of 2^31 + 1 bytes whose digest text is exactly
`md5[url_id]`.  The end offset `st.st_size - 1` does not fit the `int` parameter of
`md5_compute` and becomes negative, so the read loop stops after its first 102400
bytes; their digest differs from the expected one and `finish_transaction` logs a
full-file md5 error for a body that matches. -/
theorem huge_body_reported_as_md5_error :
    ex_t_huge.outfile.length = 2147483649
    ∧ index ex_inputs_huge.md5 ex_t_huge.url_id = .ok "01010101010101010101010101010101"
    ∧ hexString (ex_world.md ex_t_huge.outfile) = "01010101010101010101010101010101"
    ∧ finish_report ex_world ex_options ex_inputs_huge ex_t_huge 0
        = .ok ([LogLine.full_file_md5_error "http://x/a" "01010101010101010101010101010101"
            "00000000000000000000000000000000" ex_t_huge.outfile.length "/tmp/testfile.a"],
          true) :=
  ⟨ex_body_huge_length, rfl, ex_body_huge_digest,
    finish_report_truncated_body ex_world ex_options ex_inputs_huge ex_t_huge
      "01010101010101010101010101010101" "http://x/a" "00000000000000000000000000000000"
      rfl rfl (le_refl _) rfl rfl rfl ex_body_huge_length ex_body_huge_first_chunk (by decide)⟩

end TestClient
